import Mathlib

/-!
# Verification of the `anatomy-of-stark` cryptographic core

A shallow embedding, in Lean 4, of the Rust sources of the repository
(`src/lib.rs`, `src/field.rs`, `src/element.rs`, `src/polynomial.rs`,
`src/merkle.rs`, `src/proofstream.rs`, `src/fri.rs`), together with proofs
and refutations of the specification's claims about them.

Conventions used throughout the embedding:

* Machine integers (`U256`, `usize`) are modelled as `Nat`; a reduction
  `% 2 ^ w` is written exactly where the machine semantics truncates.
* A Rust `panic!` / failed `assert!` / out-of-bounds index, and likewise a
  non-terminating recursion, are modelled by `Option.none`.
* Byte strings are `List Nat`.
* External library primitives (the Blake2b and SHAKE256 hashes, and the
  `serde_pickle` codec), which are not part of this repository, enter as
  explicit function parameters of the definitions that call them.
-/

namespace Anatomy

/-- Byte strings (`Vec<u8>`), one `Nat` per byte. -/
abbrev Bytes := List Nat

/-! ## `src/lib.rs` — extended gcd with sign flags -/

/-- The integer denoted by an unsigned magnitude together with a sign flag:
`(m, true)` denotes `-m` and `(m, false)` denotes `m`. -/
def ival (m : Nat) (neg : Bool) : Int := if neg then -(m : Int) else (m : Int)

/-- One Bézout-coefficient update of `xgcd` (src/lib.rs lines 21–75): given the
current pair `(oldm, m)` with sign flags `(oldneg, mneg)` and the quotient `q`,
compute `(old - q * cur)` in unsigned arithmetic, branching on the four sign
combinations exactly as the source does.  Returns
`(new_old, new_cur, new_oldneg, new_curneg)`. -/
def bezoutStep (q oldm m : Nat) (oldneg mneg : Bool) : Nat × Nat × Bool × Bool :=
  if oldneg then
    if mneg then
      if q * m > oldm then (m, q * m - oldm, oldneg, false)
      else (m, oldm - q * m, oldneg, mneg)
    else (m, q * m + oldm, false, true)
  else
    if mneg then (m, oldm + q * m, true, false)
    else
      if q * m > oldm then (m, q * m - oldm, oldneg, true)
      else (m, oldm - q * m, oldneg, mneg)

/-- The `while r != 0` loop of `xgcd` (src/lib.rs lines 17–76).  State is
`(old_r, r)` plus the two Bézout rows with their sign flags; on exit the
function returns `(old_s, old_t, old_r, old_s_neg, old_t_neg)`.  The loop
always terminates because the remainder strictly decreases; the structural
`fuel` argument (one unit per iteration) only makes that recursion
kernel-reducible, and the wrapper below supplies `y + 1` units, which is
always enough (`xgcdLoop_spec` is proved for every adequate fuel). -/
def xgcdLoop : Nat → Nat → Nat → Nat → Nat → Nat → Nat → Bool → Bool → Bool → Bool →
    Nat × Nat × Nat × Bool × Bool
  | 0, old_r, _, old_s, _, old_t, _, osn, _, otn, _ => (old_s, old_t, old_r, osn, otn)
  | fuel + 1, old_r, r, old_s, s, old_t, t, osn, sn, otn, tn =>
    if r = 0 then (old_s, old_t, old_r, osn, otn)
    else
      let q := old_r / r
      let ts := bezoutStep q old_s s osn sn
      let tt := bezoutStep q old_t t otn tn
      xgcdLoop fuel r (old_r - q * r) ts.1 ts.2.1 tt.1 tt.2.1
        ts.2.2.1 ts.2.2.2 tt.2.2.1 tt.2.2.2

/-- `xgcd(x, y)` (src/lib.rs lines 9–78): returns `(s, t, g, s_neg, t_neg)`. -/
def xgcd (x y : Nat) : Nat × Nat × Nat × Bool × Bool :=
  xgcdLoop (y + 1) x y 1 0 0 1 false false false false

/-! ## `src/field.rs` — prime-field operations on canonical values

A `FieldElement` is a pair `(value, field)` with `0 ≤ value < field.p`; all
binary operations act on elements of one common field, so the embedding
carries the modulus `p` explicitly and an element is its `value : Nat`. -/

/-- `Field::add` (src/field.rs): `(a + b) % p`. -/
def fadd (p a b : Nat) : Nat := (a + b) % p

/-- `Field::sub` (src/field.rs): `(p + a - b) % p`. -/
def fsub (p a b : Nat) : Nat := (p + a - b) % p

/-- `Field::mul` (src/field.rs): `(a * b) % p`. -/
def fmul (p a b : Nat) : Nat := (a * b) % p

/-- `Field::neg` (src/field.rs): `(p - a) % p`. -/
def fneg (p a : Nat) : Nat := (p - a) % p

/-- `Field::inv` (src/field.rs lines 97–103): Bézout coefficient of
`xgcd(value, p)`, negated modulo `p` when the sign flag is set. -/
def finv (p a : Nat) : Nat :=
  let r := xgcd a p
  (if r.2.2.2.1 then p - r.1 else r.1) % p

/-- `Field::div` (src/field.rs lines 78–89): asserts the divisor is non-zero
(`none` models the panic), then multiplies by the Bézout coefficient of
`xgcd(b, p)`. -/
def fdiv (p a b : Nat) : Option Nat :=
  if b = 0 then none
  else
    let r := xgcd b p
    some ((if r.2.2.2.1 then p - a * r.1 % p else a * r.1) % p)

/-- `Field::sample` (src/field.rs lines 52–58): big-endian byte fold into a
`U256` accumulator (`acc = acc << 8 ^ b`, truncated to 256 bits as the
machine type does), reduced modulo `p`. -/
def fsample (p : Nat) (byteArray : Bytes) : Nat :=
  (byteArray.foldl (fun acc b => ((acc <<< 8) % 2 ^ 256) ^^^ b) 0) % p

/-! ## `src/element.rs` — exponentiation by square and multiply

`impl BitXor<U256> for &FieldElement` (src/element.rs lines 74–99): a first
loop scans `i = 127, 126, …, 0` for the highest set bit of the exponent
(leaving `i = 0` if bits 0..127 are all clear), then a second loop runs
square-and-multiply over bits `i` down to `0`.  `(rhs >> i) & 1 == 1` and
`(1 << i) & rhs != 0` are both bit tests, written `Nat.testBit` here. -/

/-- The first loop of `BitXor`: the highest `i < 128` with bit `i` of `k`
set, or `0` when bits 0..127 of `k` are all clear. -/
def topBit (k : Nat) : Nat :=
  (((List.range 128).reverse).find? (fun i => k.testBit i)).getD 0

/-- The second loop of `BitXor`, processing bits `i, i-1, …, 0`:
`acc := acc²`, then `acc := acc * e` when bit `i` of `k` is set. -/
def powLoop (p e k : Nat) : Nat → Nat → Nat
  | 0, acc =>
    let a := acc * acc % p
    if k.testBit 0 then a * e % p else a
  | i + 1, acc =>
    let a := acc * acc % p
    powLoop p e k i (if k.testBit (i + 1) then a * e % p else a)

/-- `e ^ k` on field elements (src/element.rs lines 74–99); the accumulator
starts at `field.one()`, whose value is `1`. -/
def fpow (p e k : Nat) : Nat := powLoop p e k (topBit k) 1

/-! ### Facts about `xgcd` -/

theorem bezoutStep_fst (q oldm m : Nat) (oldneg mneg : Bool) :
    (bezoutStep q oldm m oldneg mneg).1 = m ∧
      (bezoutStep q oldm m oldneg mneg).2.2.1 = mneg := by
  cases oldneg <;> cases mneg <;> simp [bezoutStep] <;> (try split) <;> simp

theorem bezoutStep_ival (q oldm m : Nat) (oldneg mneg : Bool) :
    ival (bezoutStep q oldm m oldneg mneg).2.1 (bezoutStep q oldm m oldneg mneg).2.2.2 =
      ival oldm oldneg - q * ival m mneg := by
  cases oldneg <;> cases mneg <;> simp [bezoutStep, ival] <;> (try split) <;>
    (try simp only [Bool.false_eq_true, Bool.true_eq_false, reduceIte, if_true, if_false,
      ite_true, ite_false]) <;>
    (try simp only [mul_neg, sub_neg_eq_add, ← Nat.cast_mul]) <;> omega

lemma ival_natAbs (m : Nat) (f : Bool) : (ival m f).natAbs = m := by
  cases f <;> simp [ival]

lemma det_abs (a b : Int) (r r' y : Nat) (hab : a * b ≤ 0)
    (hd : b * r - a * r' = y ∨ b * r - a * r' = -(y : Int)) :
    (b.natAbs : Int) * r + (a.natAbs : Int) * r' = y := by
  have hy : (0 : Int) ≤ y := Int.natCast_nonneg y
  have hrn : (0 : Int) ≤ r := Int.natCast_nonneg r
  have hrn' : (0 : Int) ≤ r' := Int.natCast_nonneg r'
  rcases mul_nonpos_iff.mp hab with ⟨ha, hb⟩ | ⟨ha, hb⟩
  · have e1 : (b.natAbs : Int) = -b := by omega
    have e2 : (a.natAbs : Int) = a := by omega
    rw [e1, e2]
    have hu : b * r ≤ 0 := mul_nonpos_of_nonpos_of_nonneg hb hrn
    have hv : 0 ≤ a * r' := mul_nonneg ha hrn'
    rcases hd with hd | hd <;> nlinarith
  · have e1 : (b.natAbs : Int) = b := by omega
    have e2 : (a.natAbs : Int) = -a := by omega
    rw [e1, e2]
    have hu : 0 ≤ b * r := mul_nonneg hb hrn
    have hv : a * r' ≤ 0 := mul_nonpos_of_nonpos_of_nonneg ha hrn'
    rcases hd with hd | hd <;> nlinarith

lemma xgcdLoop_base (fuel old_r old_s s old_t t : Nat) (osn sn otn tn : Bool) :
    xgcdLoop fuel old_r 0 old_s s old_t t osn sn otn tn =
      (old_s, old_t, old_r, osn, otn) := by
  cases fuel with
  | zero => rfl
  | succ fuel => rw [xgcdLoop, if_pos rfl]

lemma xgcdLoop_step (fuel old_r r old_s s old_t t : Nat) (osn sn otn tn : Bool)
    (hr : r ≠ 0) :
    xgcdLoop (fuel + 1) old_r r old_s s old_t t osn sn otn tn =
      xgcdLoop fuel r (old_r - old_r / r * r)
        (bezoutStep (old_r / r) old_s s osn sn).1
        (bezoutStep (old_r / r) old_s s osn sn).2.1
        (bezoutStep (old_r / r) old_t t otn tn).1
        (bezoutStep (old_r / r) old_t t otn tn).2.1
        (bezoutStep (old_r / r) old_s s osn sn).2.2.1
        (bezoutStep (old_r / r) old_s s osn sn).2.2.2
        (bezoutStep (old_r / r) old_t t otn tn).2.2.1
        (bezoutStep (old_r / r) old_t t otn tn).2.2.2 := by
  rw [xgcdLoop]
  simp [hr]

set_option maxHeartbeats 800000 in
theorem xgcdLoop_spec (x y : Nat) (fuel : Nat) :
    ∀ r old_r old_s s old_t t : Nat, ∀ osn sn otn tn : Bool, r < fuel →
      ival old_s osn * x + ival old_t otn * y = old_r →
      ival s sn * x + ival t tn * y = r →
      ival old_s osn * ival s sn ≤ 0 →
      ival old_t otn * ival t tn ≤ 0 →
      (ival s sn * old_r - ival old_s osn * r = y ∨
        ival s sn * old_r - ival old_s osn * r = -(y : Int)) →
      (ival t tn * old_r - ival old_t otn * r = x ∨
        ival t tn * old_r - ival old_t otn * r = -(x : Int)) →
      old_s ≤ max 1 y → s ≤ max 1 y → old_t ≤ max 1 x → t ≤ max 1 x →
      Nat.gcd old_r r = Nat.gcd x y →
      ival (xgcdLoop fuel old_r r old_s s old_t t osn sn otn tn).1
          (xgcdLoop fuel old_r r old_s s old_t t osn sn otn tn).2.2.2.1 * x +
        ival (xgcdLoop fuel old_r r old_s s old_t t osn sn otn tn).2.1
          (xgcdLoop fuel old_r r old_s s old_t t osn sn otn tn).2.2.2.2 * y =
        (xgcdLoop fuel old_r r old_s s old_t t osn sn otn tn).2.2.1 ∧
      (xgcdLoop fuel old_r r old_s s old_t t osn sn otn tn).2.2.1 = Nat.gcd x y ∧
      (xgcdLoop fuel old_r r old_s s old_t t osn sn otn tn).1 ≤ max 1 y ∧
      (xgcdLoop fuel old_r r old_s s old_t t osn sn otn tn).2.1 ≤ max 1 x := by
  induction fuel with
  | zero => omega
  | succ fuel IH =>
  intro r old_r old_s s old_t t osn sn otn tn hfr h1 h2 h3 h4 h5 h6 b1 b2 b3 b4 hg
  by_cases hr : r = 0
  · subst hr
    rw [xgcdLoop_base]
    refine ⟨h1, ?_, b1, b3⟩
    rw [← hg, Nat.gcd_zero_right]
  · rw [xgcdLoop_step fuel old_r r old_s s old_t t osn sn otn tn hr]
    have hrpos : 0 < r := Nat.pos_of_ne_zero hr
    set q := old_r / r with hq
    have hqr : q * r ≤ old_r := by
      rw [hq, Nat.mul_comm]; exact Nat.mul_div_le old_r r
    have hr' : old_r - q * r = old_r % r := by
      rw [Nat.mod_def, hq]; ring_nf
    have hlt : old_r - q * r < r := by rw [hr']; exact Nat.mod_lt _ hrpos
    obtain ⟨hsf, hsf2⟩ := bezoutStep_fst q old_s s osn sn
    obtain ⟨htf, htf2⟩ := bezoutStep_fst q old_t t otn tn
    have hsi := bezoutStep_ival q old_s s osn sn
    have hti := bezoutStep_ival q old_t t otn tn
    set ts := bezoutStep q old_s s osn sn
    set tt := bezoutStep q old_t t otn tn
    have hcast : ((old_r - q * r : Nat) : Int) = (old_r : Int) - q * r := by
      omega
    have n1 : ival ts.1 ts.2.2.1 * x + ival tt.1 tt.2.2.1 * y = (r : Int) := by
      rw [hsf, hsf2, htf, htf2]; exact h2
    have n2 : ival ts.2.1 ts.2.2.2 * x + ival tt.2.1 tt.2.2.2 * y =
        ((old_r - q * r : Nat) : Int) := by
      rw [hsi, hti, hcast]
      push_cast
      linear_combination h1 - (q : Int) * h2
    have n3 : ival ts.1 ts.2.2.1 * ival ts.2.1 ts.2.2.2 ≤ 0 := by
      rw [hsf, hsf2, hsi]
      have e : ival s sn * (ival old_s osn - (q : Int) * ival s sn) =
          ival old_s osn * ival s sn - (q : Int) * (ival s sn * ival s sn) := by ring
      rw [e]
      have hpos := mul_nonneg (Int.natCast_nonneg q) (mul_self_nonneg (ival s sn))
      linarith
    have n4 : ival tt.1 tt.2.2.1 * ival tt.2.1 tt.2.2.2 ≤ 0 := by
      rw [htf, htf2, hti]
      have e : ival t tn * (ival old_t otn - (q : Int) * ival t tn) =
          ival old_t otn * ival t tn - (q : Int) * (ival t tn * ival t tn) := by ring
      rw [e]
      have hpos := mul_nonneg (Int.natCast_nonneg q) (mul_self_nonneg (ival t tn))
      linarith
    have n5 : ival ts.2.1 ts.2.2.2 * r - ival ts.1 ts.2.2.1 * ((old_r - q * r : Nat)) = (y : Int) ∨
        ival ts.2.1 ts.2.2.2 * r - ival ts.1 ts.2.2.1 * ((old_r - q * r : Nat)) = -(y : Int) := by
      rw [hsi, hsf, hsf2, hcast]
      rcases h5 with h5 | h5
      · right; push_cast; linear_combination -h5
      · left; push_cast; linear_combination -h5
    have n6 : ival tt.2.1 tt.2.2.2 * r - ival tt.1 tt.2.2.1 * ((old_r - q * r : Nat)) = (x : Int) ∨
        ival tt.2.1 tt.2.2.2 * r - ival tt.1 tt.2.2.1 * ((old_r - q * r : Nat)) = -(x : Int) := by
      rw [hti, htf, htf2, hcast]
      rcases h6 with h6 | h6
      · right; push_cast; linear_combination -h6
      · left; push_cast; linear_combination -h6
    have habs_s : ((ts.2.1 : Nat) : Int) * r + ((ts.1 : Nat) : Int) * ((old_r - q * r : Nat)) = (y : Int) := by
      have := det_abs (ival ts.1 ts.2.2.1) (ival ts.2.1 ts.2.2.2) r (old_r - q * r) y n3 n5
      rwa [ival_natAbs, ival_natAbs] at this
    have habs_t : ((tt.2.1 : Nat) : Int) * r + ((tt.1 : Nat) : Int) * ((old_r - q * r : Nat)) = (x : Int) := by
      have := det_abs (ival tt.1 tt.2.2.1) (ival tt.2.1 tt.2.2.2) r (old_r - q * r) x n4 n6
      rwa [ival_natAbs, ival_natAbs] at this
    have habs_sn : ts.2.1 * r + ts.1 * (old_r - q * r) = y := by exact_mod_cast habs_s
    have habs_tn : tt.2.1 * r + tt.1 * (old_r - q * r) = x := by exact_mod_cast habs_t
    have nb1 : ts.1 ≤ max 1 y := by rw [hsf]; exact b2
    have nb3 : tt.1 ≤ max 1 x := by rw [htf]; exact b4
    have nb2 : ts.2.1 ≤ max 1 y := by
      have h' : ts.2.1 ≤ ts.2.1 * r := Nat.le_mul_of_pos_right _ hrpos
      have h'' : ts.2.1 * r ≤ y := by omega
      have := le_trans h' h''
      omega
    have nb4 : tt.2.1 ≤ max 1 x := by
      have h' : tt.2.1 ≤ tt.2.1 * r := Nat.le_mul_of_pos_right _ hrpos
      have h'' : tt.2.1 * r ≤ x := by omega
      have := le_trans h' h''
      omega
    have ng : Nat.gcd r (old_r - q * r) = Nat.gcd x y := by
      rw [hr', Nat.gcd_comm, ← Nat.gcd_rec, Nat.gcd_comm]
      exact hg
    exact IH (old_r - q * r) r ts.1 ts.2.1 tt.1 tt.2.1 ts.2.2.1 ts.2.2.2 tt.2.2.1 tt.2.2.2
      (by omega) n1 n2 n3 n4 n5 n6 nb1 nb2 nb3 nb4 ng

theorem xgcd_spec (x y : Nat) :
    ival (xgcd x y).1 (xgcd x y).2.2.2.1 * x + ival (xgcd x y).2.1 (xgcd x y).2.2.2.2 * y
        = ((xgcd x y).2.2.1 : Int) ∧
      (xgcd x y).2.2.1 = Nat.gcd x y ∧
      (xgcd x y).1 ≤ max 1 y ∧ (xgcd x y).2.1 ≤ max 1 x := by
  have h := xgcdLoop_spec x y (y + 1) y x 1 0 0 1 false false false false (by omega)
    (by simp [ival]) (by simp [ival]) (by simp [ival]) (by simp [ival])
    (by simp [ival]) (by simp [ival])
    (by simp) (by simp) (by simp) (by simp) rfl
  exact ⟨h.1, h.2.1, h.2.2.1, h.2.2.2⟩

lemma find_congr_testBit (k k' : Nat) (hk : ∀ i < 128, k.testBit i = k'.testBit i) :
    ∀ l : List Nat, (∀ i ∈ l, i < 128) →
      l.find? (fun i => k.testBit i) = l.find? (fun i => k'.testBit i) := by
  intro l
  induction l with
  | nil => intro _; rfl
  | cons a l ih =>
    intro hmem
    have ha : a < 128 := hmem a (List.mem_cons_self a l)
    simp only [List.find?_cons]
    rw [hk a ha]
    cases h : k'.testBit a
    · exact ih fun i hi => hmem i (List.mem_cons_of_mem a hi)
    · rfl

lemma topBit_lt (k : Nat) : topBit k < 128 := by
  unfold topBit
  cases h : ((List.range 128).reverse).find? (fun i => k.testBit i) with
  | none => simp
  | some i =>
    have := List.find?_some h
    have hmem := List.mem_of_find?_eq_some h
    simp only [List.mem_reverse, List.mem_range] at hmem
    simpa using hmem

lemma topBit_mod (k : Nat) : topBit (k % 2 ^ 128) = topBit k := by
  unfold topBit
  rw [find_congr_testBit (k % 2 ^ 128) k
    (fun i hi => by rw [Nat.testBit_mod_two_pow]; simp [hi])]
  intro i hi
  simp only [List.mem_reverse, List.mem_range] at hi
  exact hi

lemma powLoop_congr (p e k k' : Nat) (i : Nat) (hi : i < 128)
    (hk : ∀ j < 128, k.testBit j = k'.testBit j) :
    ∀ acc, powLoop p e k i acc = powLoop p e k' i acc := by
  induction i with
  | zero => intro acc; simp only [powLoop]; rw [hk 0 (by omega)]
  | succ i ih =>
    intro acc
    simp only [powLoop]
    rw [hk (i + 1) hi, ih (by omega)]

/-- C10 (main lemma form): the square-and-multiply loop reads only bits
0..127 of its exponent. -/
theorem fpow_mod_high (p e k : Nat) : fpow p e k = fpow p e (k % 2 ^ 128) := by
  unfold fpow
  rw [topBit_mod]
  exact powLoop_congr p e k (k % 2 ^ 128) (topBit k) (topBit_lt k)
    (fun j hj => by rw [Nat.testBit_mod_two_pow]; simp [hj]) 1

theorem fpow_two_pow_128 (p e : Nat) (hp : 1 < p) : fpow p e (2 ^ 128) = 1 := by
  have htb : topBit (2 ^ 128) = 0 := by
    unfold topBit
    rw [List.find?_eq_none.mpr ?_]
    · rfl
    · intro i hi
      simp only [List.mem_reverse, List.mem_range] at hi
      rw [Nat.testBit_two_pow_of_ne (by omega : (128 : Nat) ≠ i)]
      simp
  rw [fpow, htb]
  simp only [powLoop]
  rw [show (2 ^ 128 : Nat).testBit 0 = false from
    Nat.testBit_two_pow_of_ne (by omega)]
  simp [Nat.mod_eq_of_lt hp]


/-- C9: Bézout identity of `xgcd`.  For all 256-bit unsigned `x` and `y`,
`xgcd(x, y) = (s, t, g, s_neg, t_neg)` satisfies, over the integers,
`(if s_neg then -s else s) * x + (if t_neg then -t else t) * y = g` and
`g = gcd(x, y)`. -/
theorem C9_xgcd_bezout (x y : Nat) (hx : x < 2 ^ 256) (hy : y < 2 ^ 256) :
    ival (xgcd x y).1 (xgcd x y).2.2.2.1 * x + ival (xgcd x y).2.1 (xgcd x y).2.2.2.2 * y
        = ((xgcd x y).2.2.1 : Int) ∧
      (xgcd x y).2.2.1 = Nat.gcd x y :=
  ⟨(xgcd_spec x y).1, (xgcd_spec x y).2.1⟩

theorem C9_witness :
    (24 < 2 ^ 256 ∧ 36 < 2 ^ 256) ∧
      (ival (xgcd 24 36).1 (xgcd 24 36).2.2.2.1 * 24 +
          ival (xgcd 24 36).2.1 (xgcd 24 36).2.2.2.2 * 36 = ((xgcd 24 36).2.2.1 : Int) ∧
        (xgcd 24 36).2.2.1 = Nat.gcd 24 36) :=
  ⟨⟨by norm_num, by norm_num⟩, C9_xgcd_bezout 24 36 (by norm_num) (by norm_num)⟩

/-- C10: `FieldElement` exponentiation reads only bits 0..127 of its 256-bit
exponent: `e ^ k = e ^ (k mod 2^128)` for every field element and exponent,
and in particular `e ^ (2^128) = 1` (the field's one) for every `e`. -/
theorem C10_fpow_high_bits (p e k : Nat) (hp : 1 < p) :
    fpow p e k = fpow p e (k % 2 ^ 128) ∧ fpow p e (2 ^ 128) = 1 :=
  ⟨fpow_mod_high p e k, fpow_two_pow_128 p e hp⟩

theorem C10_witness :
    (1 < 7 ∧ (2 ^ 128 + 9) % 2 ^ 128 = 9) ∧
      (fpow 7 3 (2 ^ 128 + 9) = fpow 7 3 ((2 ^ 128 + 9) % 2 ^ 128) ∧
        fpow 7 3 (2 ^ 128) = 1) :=
  ⟨⟨by norm_num, by norm_num⟩, C10_fpow_high_bits 7 3 (2 ^ 128 + 9) (by norm_num)⟩


/-- Rust's `usize::next_power_of_two`: the smallest power of two `≥ n`
(`1` for `n = 0`), computed by doubling as in `Nat.nextPowerOfTwo`; the
structural fuel (`n` doublings are always ample) keeps it kernel-reducible. -/
def nextPow2Go (n : Nat) : Nat → Nat → Nat
  | 0, power => power
  | fuel + 1, power => if power < n then nextPow2Go n fuel (power * 2) else power

/-- The `next_power_of_two` wrapper: start the doubling at `1`. -/
def nextPow2 (n : Nat) : Nat := nextPow2Go n n 1

lemma nextPow2Go_pow2 (n : Nat) :
    ∀ fuel power : Nat, (∃ k, power = 2 ^ k) → ∃ k, nextPow2Go n fuel power = 2 ^ k := by
  intro fuel
  induction fuel with
  | zero => intro power hp; exact hp
  | succ f ih =>
    intro power hp
    rw [nextPow2Go]
    split
    · obtain ⟨k, hk⟩ := hp
      exact ih (power * 2) ⟨k + 1, by rw [hk, pow_succ]⟩
    · exact hp

lemma nextPow2Go_ge (n : Nat) :
    ∀ fuel power : Nat, n ≤ power * 2 ^ fuel → n ≤ nextPow2Go n fuel power := by
  intro fuel
  induction fuel with
  | zero =>
    intro power hp
    rw [nextPow2Go]
    simpa using hp
  | succ f ih =>
    intro power hp
    rw [nextPow2Go]
    split
    · apply ih (power * 2)
      rw [pow_succ] at hp
      have heq : power * (2 ^ f * 2) = power * 2 * 2 ^ f := by ring
      omega
    · omega

lemma nextPow2_pow2 (n : Nat) : ∃ k, nextPow2 n = 2 ^ k := by
  rw [nextPow2]
  exact nextPow2Go_pow2 n n 1 ⟨0, rfl⟩

lemma le_nextPow2 (n : Nat) : n ≤ nextPow2 n := by
  rw [nextPow2]
  apply nextPow2Go_ge
  have := Nat.lt_two_pow n
  omega

/-! ## `src/proofstream.rs` — the transcript

`Object<T>` and `ProofStream<T>`.  The `serde_pickle` encoder/decoder pair and
the SHAKE256 extendable-output hash are external library code and appear as
parameters `enc`, `dec` and `shake`. -/

/-- `Object<T>` (src/proofstream.rs lines 4–10). -/
inductive PSObject (T : Type) where
  | HASH (h : Bytes)
  | PATH (pth : List Bytes)
  | LEAF (leafs : T)
  | OBJ (obj : T)
  deriving DecidableEq

/-- `ProofStream<T>` (src/proofstream.rs lines 12–16). -/
structure ProofStream (T : Type) where
  objects : List (PSObject T)
  read_index : Nat
  deriving DecidableEq

namespace ProofStream

/-- `ProofStream::new`. -/
def new (T : Type) : ProofStream T := ⟨[], 0⟩

/-- `ProofStream::push`. -/
def push {T : Type} (ps : ProofStream T) (obj : PSObject T) : ProofStream T :=
  { ps with objects := ps.objects ++ [obj] }

/-- `ProofStream::push_hash`. -/
def push_hash {T : Type} (ps : ProofStream T) (h : Bytes) : ProofStream T :=
  push ps (PSObject.HASH h)

/-- `ProofStream::push_obj`. -/
def push_obj {T : Type} (ps : ProofStream T) (obj : T) : ProofStream T :=
  push ps (PSObject.OBJ obj)

/-- `ProofStream::push_path`. -/
def push_path {T : Type} (ps : ProofStream T) (pth : List Bytes) : ProofStream T :=
  push ps (PSObject.PATH pth)

/-- `ProofStream::push_leafs`. -/
def push_leafs {T : Type} (ps : ProofStream T) (leafs : T) : ProofStream T :=
  push ps (PSObject.LEAF leafs)

/-- `ProofStream::pull` (src/proofstream.rs lines 45–50): asserts
`read_index < objects.len()` (`none` models the panic), returns the object at
the cursor and the stream with the cursor advanced. -/
def pull {T : Type} (ps : ProofStream T) : Option (PSObject T × ProofStream T) :=
  match ps.objects[ps.read_index]? with
  | some obj => some (obj, { ps with read_index := ps.read_index + 1 })
  | none => none

/-- `ProofStream::serialize` (src/proofstream.rs lines 52–54): the
`serde_pickle` encoding of the whole object list. -/
def serialize {T : Type} (enc : List (PSObject T) → Bytes) (ps : ProofStream T) : Bytes :=
  enc ps.objects

/-- `ProofStream::deserialize` (src/proofstream.rs lines 56–61): decode the
object list and start with `read_index: 0`. -/
def deserialize {T : Type} (dec : Bytes → List (PSObject T)) (data : Bytes) : ProofStream T :=
  ⟨dec data, 0⟩

/-- `ProofStream::prover_fiat_shamir` (src/proofstream.rs lines 63–67):
SHAKE256 of the serialization of the entire object list. -/
def prover_fiat_shamir {T : Type} (shake : Bytes → Nat → Bytes)
    (enc : List (PSObject T) → Bytes) (ps : ProofStream T) (num_bytes : Nat) : Bytes :=
  shake (serialize enc ps) num_bytes

/-- `ProofStream::verifier_fiat_shamir` (src/proofstream.rs lines 69–77):
SHAKE256 of the serialization of the prefix `objects[0..read_index]`. -/
def verifier_fiat_shamir {T : Type} (shake : Bytes → Nat → Bytes)
    (enc : List (PSObject T) → Bytes) (ps : ProofStream T) (num_bytes : Nat) : Bytes :=
  shake (enc (ps.objects.take ps.read_index)) num_bytes

end ProofStream

/-- C3: Fiat–Shamir equivalence.  When the verifier has pulled exactly every
object the prover had pushed (`read_index = objects.len()`), the verifier's
challenge bytes equal the prover's, for any requested byte count — for every
serializer and every extendable-output hash. -/
theorem C3_fiat_shamir_equivalence {T : Type} (shake : Bytes → Nat → Bytes)
    (enc : List (PSObject T) → Bytes) (ps : ProofStream T)
    (h : ps.read_index = ps.objects.length) (n : Nat) :
    ProofStream.verifier_fiat_shamir shake enc ps n =
      ProofStream.prover_fiat_shamir shake enc ps n := by
  unfold ProofStream.verifier_fiat_shamir ProofStream.prover_fiat_shamir ProofStream.serialize
  rw [h, List.take_length]

/-- A concrete extendable-output stand-in used for witnesses. -/
def shakeTake : Bytes → Nat → Bytes := fun b n => b.take n

/-- A concrete serializer stand-in for `PSObject Nat` lists. -/
def encLen : List (PSObject Nat) → Bytes := fun l => [l.length]

theorem C3_witness :
    (ProofStream.mk [PSObject.OBJ 3, PSObject.HASH []] 2).read_index =
        (ProofStream.mk [PSObject.OBJ (3 : Nat), PSObject.HASH []] 2).objects.length ∧
      ProofStream.verifier_fiat_shamir shakeTake encLen
          (ProofStream.mk [PSObject.OBJ 3, PSObject.HASH []] 2) 5 =
        ProofStream.prover_fiat_shamir shakeTake encLen
          (ProofStream.mk [PSObject.OBJ 3, PSObject.HASH []] 2) 5 :=
  ⟨rfl, C3_fiat_shamir_equivalence shakeTake encLen _ rfl 5⟩

/-- A degenerate codec pair that round-trips the one-element object list used
in the C6 counterexample. -/
def encConst : List (PSObject Nat) → Bytes := fun _ => []

/-- The matching decoder: always returns `[OBJ 5]`. -/
def decConst : Bytes → List (PSObject Nat) := fun _ => [PSObject.OBJ 5]

/-- The stream with one pulled object used in the C6 counterexample. -/
def psOne : ProofStream Nat := ⟨[PSObject.OBJ 5], 1⟩

/-- C6 as stated is false: `deserialize` always resets `read_index` to `0`,
so a stream with `read_index = 1` does not round-trip, even though its object
list is restored exactly. -/
theorem C6_counterexample :
    decConst (ProofStream.serialize encConst psOne) = psOne.objects ∧
      psOne.read_index ≤ psOne.objects.length ∧
      ProofStream.deserialize decConst (ProofStream.serialize encConst psOne) ≠ psOne := by
  refine ⟨rfl, by decide, ?_⟩
  intro h
  have := congrArg ProofStream.read_index h
  simp [ProofStream.deserialize, psOne] at this

/-- C6 (amended): for any codec that round-trips the object list,
`deserialize(serialize(ps))` restores the objects exactly but resets the read
cursor: the result is `⟨ps.objects, 0⟩`, which equals `ps` precisely when
`ps.read_index = 0`. -/
theorem C6_roundtrip_resets_cursor {T : Type} (enc : List (PSObject T) → Bytes)
    (dec : Bytes → List (PSObject T)) (ps : ProofStream T)
    (hcodec : dec (enc ps.objects) = ps.objects)
    (hidx : ps.read_index ≤ ps.objects.length) :
    ProofStream.deserialize dec (ProofStream.serialize enc ps) = ⟨ps.objects, 0⟩ ∧
      (ProofStream.deserialize dec (ProofStream.serialize enc ps) = ps ↔
        ps.read_index = 0) := by
  constructor
  · simp [ProofStream.deserialize, ProofStream.serialize, hcodec]
  · constructor
    · intro h
      have := congrArg ProofStream.read_index h
      simpa [ProofStream.deserialize] using this.symm
    · intro h
      cases ps with
      | mk objs ri =>
        simp only at h
        subst h
        simp [ProofStream.deserialize, ProofStream.serialize, hcodec]

theorem C6_witness :
    (decConst (encConst (ProofStream.mk [PSObject.OBJ (5 : Nat)] 0).objects) =
        (ProofStream.mk [PSObject.OBJ (5 : Nat)] 0).objects ∧
      (ProofStream.mk [PSObject.OBJ (5 : Nat)] 0).read_index ≤
        (ProofStream.mk [PSObject.OBJ (5 : Nat)] 0).objects.length) ∧
      (ProofStream.deserialize decConst
          (ProofStream.serialize encConst (ProofStream.mk [PSObject.OBJ (5 : Nat)] 0)) =
        ⟨(ProofStream.mk [PSObject.OBJ (5 : Nat)] 0).objects, 0⟩ ∧
        (ProofStream.deserialize decConst
            (ProofStream.serialize encConst (ProofStream.mk [PSObject.OBJ (5 : Nat)] 0)) =
          ProofStream.mk [PSObject.OBJ (5 : Nat)] 0 ↔
          (ProofStream.mk [PSObject.OBJ (5 : Nat)] 0).read_index = 0)) :=
  ⟨⟨rfl, by decide⟩, C6_roundtrip_resets_cursor encConst decConst _ rfl (by decide)⟩


/-! ## `src/merkle.rs` — Merkle tree

The hash (`Blake2bVar` with 32-byte output) is external library code; it
enters as the parameter `H : Bytes → Bytes`.  Item serialization
(`serde_pickle::to_vec`) likewise enters as `enc : T → Bytes`. -/

namespace Merkle

/-- `Merkle::commit_` (src/merkle.rs lines 16–26).  `none` models the failed
power-of-two assertion; an empty slice never passes the source's
`len & (len - 1) == 0` check unscathed (debug underflow panic or infinite
recursion), so it is also `none`.  The recursion halves the slice and always
terminates; the structural `fuel` argument (one unit per call) only makes the
recursion kernel-reducible, and every call site supplies an adequate amount
(`commitAux_eq` holds for every adequate fuel). -/
def commitAux (H : Bytes → Bytes) : Nat → List Bytes → Option Bytes
  | 0, _ => none
  | fuel + 1, leafs =>
    if leafs.length = 0 then none
    else if leafs.length &&& (leafs.length - 1) ≠ 0 then none
    else if leafs.length = 1 then some (leafs.headD [])
    else do
      let l ← commitAux H fuel (leafs.take (leafs.length / 2))
      let r ← commitAux H fuel (leafs.drop (leafs.length / 2))
      some (H (l ++ r))

/-- `Merkle::open_` (src/merkle.rs lines 28–43), with an explicit fuel
parameter: each recursive call of the source consumes one unit, and `none` at
fuel `0` models non-termination (on a one-leaf slice the source recurses with
unchanged arguments forever).  `none` likewise models the failed assertions
`len & (len - 1) == 0` and `index < len`. -/
def openAux (H : Bytes → Bytes) : Nat → Nat → List Bytes → Option (List Bytes)
  | 0, _, _ => none
  | fuel + 1, index, leafs =>
    if leafs.length = 0 then none
    else if leafs.length &&& (leafs.length - 1) ≠ 0 then none
    else if index ≥ leafs.length then none
    else if leafs.length = 2 then some [leafs.getD (1 - index) []]
    else if index < leafs.length / 2 then do
      let combined ← openAux H fuel index (leafs.take (leafs.length / 2))
      let sib ← commitAux H (leafs.length / 2 + 1) (leafs.drop (leafs.length / 2))
      some (combined ++ [sib])
    else do
      let combined ← openAux H fuel (index - leafs.length / 2)
        (leafs.drop (leafs.length / 2))
      let sib ← commitAux H (leafs.length / 2 + 1) (leafs.take (leafs.length / 2))
      some (combined ++ [sib])

/-- `Merkle::verify_` (src/merkle.rs lines 45–62).  `none` models the failed
assertion `index < (1 << path.len())` and the `path[0]` panic on an empty
path. -/
def verifyAux (H : Bytes → Bytes) (root : Bytes) : Nat → List Bytes → Bytes → Option Bool
  | _, [], _ => none
  | index, p0 :: rest, leaf =>
    if index ≥ 2 ^ (p0 :: rest).length then none
    else
      match rest with
      | [] => some (decide (root = H (if index % 2 = 0 then leaf ++ p0 else p0 ++ leaf)))
      | _ :: _ =>
        verifyAux H root (index >>> 1) rest
          (H (if index % 2 = 0 then leaf ++ p0 else p0 ++ leaf))

/-- `Merkle::hash_data_array` (src/merkle.rs lines 64–77): hash each item's
serialization; when the count is not a power of two, `resize_with(len.
next_power_of_two(), || Vec::new())` appends empty byte strings. -/
def hash_data_array {T : Type} (H : Bytes → Bytes) (enc : T → Bytes)
    (data_array : List T) : List Bytes :=
  let hd := data_array.map fun d => H (enc d)
  if hd.length &&& (hd.length - 1) ≠ 0 then
    hd ++ List.replicate (nextPow2 hd.length - hd.length) []
  else hd

/-- `Merkle::commit` (src/merkle.rs lines 79–81). -/
def commit {T : Type} (H : Bytes → Bytes) (enc : T → Bytes) (data_array : List T) :
    Option Bytes :=
  commitAux H ((hash_data_array H enc data_array).length + 1)
    (hash_data_array H enc data_array)

/-- `Merkle::open` (src/merkle.rs lines 83–85); the fuel `length + 1` is
ample for every terminating run (the recursion depth is the tree height). -/
def openData {T : Type} (H : Bytes → Bytes) (enc : T → Bytes) (index : Nat)
    (data_array : List T) : Option (List Bytes) :=
  let hd := hash_data_array H enc data_array
  openAux H (hd.length + 1) index hd

/-- `Merkle::verify` (src/merkle.rs lines 87–96). -/
def verify {T : Type} (H : Bytes → Bytes) (enc : T → Bytes) (root : Bytes)
    (index : Nat) (path : List Bytes) (data_element : T) : Option Bool :=
  verifyAux H root index path (H (enc data_element))

end Merkle

/-- The composition `verify(commit(items), i, open(i, items), items[i])` of
claim C4, in the `Option` (partiality) monad. -/
def merkleRoundTrip {T : Type} (H : Bytes → Bytes) (enc : T → Bytes)
    (items : List T) (i : Nat) : Option Bool := do
  let it ← items[i]?
  let root ← Merkle.commit H enc items
  let path ← Merkle.openData H enc i items
  Merkle.verify H enc root i path it


/-! ### Power-of-two bit arithmetic facts used by the Merkle proofs -/

lemma odd_land_pred {n : Nat} (ho : n % 2 = 1) : n &&& (n - 1) = n - 1 := by
  apply Nat.eq_of_testBit_eq
  intro i
  rw [Nat.testBit_and]
  cases i with
  | zero =>
    have : (n - 1) % 2 = 0 := by omega
    simp [Nat.testBit_zero, this]
  | succ i =>
    have : (n - 1) / 2 = n / 2 := by omega
    rw [Nat.testBit_add_one, Nat.testBit_add_one, this]
    cases ((n / 2).testBit i) <;> simp

lemma even_land_pred {n : Nat} (hn : n ≠ 0) (he : n % 2 = 0) :
    n &&& (n - 1) = 2 * ((n / 2) &&& (n / 2 - 1)) := by
  apply Nat.eq_of_testBit_eq
  intro i
  rw [Nat.testBit_and]
  cases i with
  | zero =>
    have h1 : n.testBit 0 = false := by simp [Nat.testBit_zero, he]
    have h2 : (2 * (n / 2 &&& (n / 2 - 1))).testBit 0 = false := by
      simp [Nat.testBit_zero, Nat.mul_mod_right]
    simp [h1, h2]
  | succ i =>
    have h2 : (n - 1) / 2 = n / 2 - 1 := by omega
    simp only [Nat.testBit_add_one, h2,
      Nat.mul_div_cancel_left _ (by norm_num : (0:Nat) < 2)]
    rw [Nat.testBit_and]

/-- `n & (n - 1) == 0` for non-zero `n` forces `n` to be a power of two. -/
lemma pow2_of_land_pred {n : Nat} (hn : n ≠ 0) (h : n &&& (n - 1) = 0) :
    ∃ k, n = 2 ^ k := by
  induction n using Nat.strong_induction_on with
  | _ n IH =>
  rcases Nat.even_or_odd n with he | ho
  · have he' : n % 2 = 0 := Nat.even_iff.mp he
    have hm0 : n / 2 ≠ 0 := by omega
    have hrec : (n / 2) &&& (n / 2 - 1) = 0 := by
      have := even_land_pred hn he'
      omega
    obtain ⟨k, hk⟩ := IH (n / 2) (by omega) hm0 hrec
    exact ⟨k + 1, by rw [pow_succ]; omega⟩
  · have ho' : n % 2 = 1 := Nat.odd_iff.mp ho
    have := odd_land_pred ho'
    have : n = 1 := by omega
    exact ⟨0, by simp [this]⟩

lemma pow2_land_pred (k : Nat) : (2 ^ k) &&& (2 ^ k - 1) = 0 := by
  apply Nat.eq_of_testBit_eq
  intro i
  rw [Nat.testBit_and, Nat.testBit_two_pow, Nat.testBit_two_pow_sub_one]
  rcases eq_or_ne k i with rfl | hki
  · simp
  · simp [hki]

namespace Merkle

/-- Total model of `commit_` on power-of-two-length leaf arrays (proof-side
companion of `commitAux`). -/
def commitTree (H : Bytes → Bytes) (leafs : List Bytes) : Bytes :=
  if leafs.length ≤ 1 then leafs.headD []
  else H (commitTree H (leafs.take (leafs.length / 2)) ++
    commitTree H (leafs.drop (leafs.length / 2)))
termination_by leafs.length
decreasing_by
  · simp only [List.length_take]
    omega
  · simp only [List.length_drop]
    omega

lemma commitAux_eq (H : Bytes → Bytes) (k : Nat) :
    ∀ fuel : Nat, ∀ leafs : List Bytes, leafs.length = 2 ^ k → k < fuel →
      commitAux H fuel leafs = some (commitTree H leafs) := by
  induction k with
  | zero =>
    intro fuel leafs hl hf
    obtain ⟨f, rfl⟩ : ∃ f, fuel = f + 1 := ⟨fuel - 1, by omega⟩
    rw [commitAux, commitTree]
    simp only [hl, pow_zero]
    norm_num
  | succ k ih =>
    intro fuel leafs hl hf
    obtain ⟨f, rfl⟩ : ∃ f, fuel = f + 1 := ⟨fuel - 1, by omega⟩
    have h2 : 2 ≤ leafs.length := by
      rw [hl]; exact Nat.one_lt_two_pow_iff.mpr (by omega)
    have hhalf : leafs.length / 2 = 2 ^ k := by rw [hl]; omega
    have htake : (leafs.take (leafs.length / 2)).length = 2 ^ k := by
      simp only [List.length_take]; omega
    have hdrop : (leafs.drop (leafs.length / 2)).length = 2 ^ k := by
      simp only [List.length_drop]; omega
    rw [commitAux, commitTree]
    rw [if_neg (show ¬ leafs.length = 0 by omega)]
    rw [if_neg (show ¬ leafs.length &&& (leafs.length - 1) ≠ 0 by
      rw [hl]; simp [pow2_land_pred])]
    rw [if_neg (show ¬ leafs.length = 1 by omega)]
    rw [if_neg (show ¬ leafs.length ≤ 1 by omega)]
    rw [ih f _ htake (by omega), ih f _ hdrop (by omega)]
    rfl

/-- Total model of `open_` on power-of-two-length leaf arrays of length ≥ 2
(proof-side companion of `openAux`). -/
def pathTree (H : Bytes → Bytes) (index : Nat) (leafs : List Bytes) : List Bytes :=
  if leafs.length ≤ 2 then [leafs.getD (1 - index) []]
  else if index < leafs.length / 2 then
    pathTree H index (leafs.take (leafs.length / 2)) ++
      [commitTree H (leafs.drop (leafs.length / 2))]
  else
    pathTree H (index - leafs.length / 2) (leafs.drop (leafs.length / 2)) ++
      [commitTree H (leafs.take (leafs.length / 2))]
termination_by leafs.length
decreasing_by
  · simp only [List.length_take]
    omega
  · simp only [List.length_drop]
    omega

lemma pathTree_length (H : Bytes → Bytes) (k : Nat) :
    ∀ leafs : List Bytes, ∀ index, leafs.length = 2 ^ k → 1 ≤ k →
      (pathTree H index leafs).length = k := by
  induction k with
  | zero => omega
  | succ k ih =>
    intro leafs index hl _
    rcases Nat.eq_or_lt_of_le (show 1 ≤ k + 1 by omega) with hk1 | hk2
    · rw [pathTree, if_pos (by rw [hl, ← hk1]; norm_num)]
      simp
      omega
    · have hk : 1 ≤ k := by omega
      have hgt : ¬ leafs.length ≤ 2 := by
        rw [hl]
        have : 2 ^ 1 < 2 ^ (k + 1) := Nat.pow_lt_pow_right (by omega) (by omega)
        omega
      have hhalf : leafs.length / 2 = 2 ^ k := by rw [hl]; omega
      have htake : (leafs.take (leafs.length / 2)).length = 2 ^ k := by
        simp only [List.length_take]; omega
      have hdrop : (leafs.drop (leafs.length / 2)).length = 2 ^ k := by
        simp only [List.length_drop]; omega
      rw [pathTree, if_neg hgt]
      split
      · simp [ih _ index htake hk]
      · simp [ih _ (index - leafs.length / 2) hdrop hk]

lemma openAux_eq (H : Bytes → Bytes) (k : Nat) :
    ∀ fuel index : Nat, ∀ leafs : List Bytes,
      leafs.length = 2 ^ k → 1 ≤ k → index < leafs.length → k ≤ fuel →
      openAux H fuel index leafs = some (pathTree H index leafs) := by
  induction k with
  | zero => omega
  | succ k ih =>
    intro fuel index leafs hl _ hidx hfuel
    obtain ⟨fuel, rfl⟩ : ∃ f, fuel = f + 1 := ⟨fuel - 1, by omega⟩
    rw [openAux]
    rw [if_neg (show ¬ leafs.length = 0 by omega)]
    rw [if_neg (show ¬ leafs.length &&& (leafs.length - 1) ≠ 0 by
      rw [hl]; simp [pow2_land_pred])]
    rw [if_neg (show ¬ index ≥ leafs.length by omega)]
    rcases Nat.eq_or_lt_of_le (show 1 ≤ k + 1 by omega) with hk1 | hk2
    · rw [if_pos (by rw [hl, ← hk1]; norm_num)]
      rw [pathTree, if_pos (by rw [hl, ← hk1]; norm_num)]
    · have hk : 1 ≤ k := by omega
      have hgt2 : ¬ leafs.length = 2 := by
        rw [hl]
        have : 2 ^ 1 < 2 ^ (k + 1) := Nat.pow_lt_pow_right (by omega) (by omega)
        omega
      have hgt2' : ¬ leafs.length ≤ 2 := by
        rw [hl]
        have : 2 ^ 1 < 2 ^ (k + 1) := Nat.pow_lt_pow_right (by omega) (by omega)
        omega
      have hhalf : leafs.length / 2 = 2 ^ k := by rw [hl]; omega
      have htake : (leafs.take (leafs.length / 2)).length = 2 ^ k := by
        simp only [List.length_take]; omega
      have hdrop : (leafs.drop (leafs.length / 2)).length = 2 ^ k := by
        simp only [List.length_drop]; omega
      have hcfuel : k < leafs.length / 2 + 1 := by
        rw [hhalf]
        exact Nat.lt_succ_of_lt (Nat.lt_two_pow k)
      rw [if_neg hgt2, pathTree, if_neg hgt2']
      by_cases hbr : index < leafs.length / 2
      · rw [if_pos hbr, if_pos hbr]
        rw [ih fuel index _ htake hk (by omega) (by omega)]
        rw [commitAux_eq H k _ _ hdrop hcfuel]
        rfl
      · rw [if_neg hbr, if_neg hbr]
        rw [ih fuel (index - leafs.length / 2) _ hdrop hk (by omega) (by omega)]
        rw [commitAux_eq H k _ _ htake hcfuel]
        rfl

/-- The root recomputed by the `verify_` walk. -/
def rootOfPath (H : Bytes → Bytes) : Nat → List Bytes → Bytes → Bytes
  | _, [], leaf => leaf
  | index, p0 :: rest, leaf =>
    rootOfPath H (index >>> 1) rest (H (if index % 2 = 0 then leaf ++ p0 else p0 ++ leaf))

lemma verifyAux_one (H : Bytes → Bytes) (root p0 leaf : Bytes) (index : Nat) :
    verifyAux H root index [p0] leaf =
      if index ≥ 2 ^ 1 then none
      else some (decide (root = H (if index % 2 = 0 then leaf ++ p0 else p0 ++ leaf))) := rfl

lemma verifyAux_cons (H : Bytes → Bytes) (root p0 q leaf : Bytes) (qs : List Bytes)
    (index : Nat) :
    verifyAux H root index (p0 :: q :: qs) leaf =
      if index ≥ 2 ^ (p0 :: q :: qs).length then none
      else verifyAux H root (index >>> 1) (q :: qs)
        (H (if index % 2 = 0 then leaf ++ p0 else p0 ++ leaf)) := rfl

lemma verifyAux_eq (H : Bytes → Bytes) (root : Bytes) :
    ∀ path : List Bytes, ∀ index : Nat, ∀ leaf : Bytes, path ≠ [] →
      index < 2 ^ path.length →
      verifyAux H root index path leaf = some (decide (root = rootOfPath H index path leaf)) := by
  intro path
  induction path with
  | nil => intro index leaf h; simp at h
  | cons p0 rest ih =>
    intro index leaf _ hidx
    cases rest with
    | nil =>
      rw [verifyAux_one, if_neg (by simpa using hidx)]
      rfl
    | cons q qs =>
      have hlt : index >>> 1 < 2 ^ (q :: qs).length := by
        rw [Nat.shiftRight_eq_div_pow]
        simp only [List.length_cons] at hidx ⊢
        rw [pow_succ] at hidx
        omega
      rw [verifyAux_cons, if_neg (by omega)]
      rw [ih (index >>> 1) _ (by simp) hlt]
      rfl

lemma rootOfPath_mod (H : Bytes → Bytes) :
    ∀ path : List Bytes, ∀ index : Nat, ∀ leaf : Bytes,
      rootOfPath H index path leaf = rootOfPath H (index % 2 ^ path.length) path leaf := by
  intro path
  induction path with
  | nil => intro index leaf; rfl
  | cons p0 rest ih =>
    intro index leaf
    rw [rootOfPath, rootOfPath]
    have hm2 : index % 2 ^ (p0 :: rest).length % 2 = index % 2 := by
      simp only [List.length_cons]
      rw [Nat.mod_mod_of_dvd]
      exact dvd_pow_self 2 (by omega)
    rw [hm2]
    have hshift : (index % 2 ^ (p0 :: rest).length) >>> 1 = (index >>> 1) % 2 ^ rest.length := by
      simp only [List.length_cons, Nat.shiftRight_eq_div_pow, pow_one]
      rw [pow_succ, Nat.mul_comm (2 ^ rest.length) 2]
      exact Nat.mod_mul_right_div_self index 2 (2 ^ rest.length)
    rw [hshift, ih (index >>> 1), ← ih]

lemma rootOfPath_append (H : Bytes → Bytes) :
    ∀ path : List Bytes, ∀ s : Bytes, ∀ index : Nat, ∀ leaf : Bytes,
      rootOfPath H index (path ++ [s]) leaf =
        (if (index >>> path.length) % 2 = 0 then
          H (rootOfPath H index path leaf ++ s)
        else H (s ++ rootOfPath H index path leaf)) := by
  intro path
  induction path with
  | nil =>
    intro s index leaf
    simp only [List.nil_append, rootOfPath, Nat.shiftRight_zero, List.length_nil]
    split <;> rfl
  | cons p0 rest ih =>
    intro s index leaf
    rw [List.cons_append, rootOfPath, rootOfPath, ih]
    have hsh : index >>> 1 >>> rest.length = index >>> (p0 :: rest).length := by
      rw [← Nat.shiftRight_add]
      simp only [List.length_cons]
      rw [Nat.add_comm]
    rw [hsh]

lemma rootOfPath_pathTree (H : Bytes → Bytes) (k : Nat) :
    ∀ leafs : List Bytes, ∀ index : Nat,
      leafs.length = 2 ^ k → 1 ≤ k → index < leafs.length →
      rootOfPath H index (pathTree H index leafs) (leafs.getD index []) =
        commitTree H leafs := by
  induction k with
  | zero => omega
  | succ k ih =>
    intro leafs index hl _ hidx
    simp only [List.getD_eq_getElem?_getD] at ih ⊢
    rcases Nat.eq_or_lt_of_le (show 1 ≤ k + 1 by omega) with hk1 | hk2
    · have hl2 : leafs.length = 2 := by rw [hl, ← hk1]; norm_num
      obtain ⟨a, b, rfl⟩ := List.length_eq_two.mp hl2
      have hsingle : ∀ x : Bytes, commitTree H [x] = x := by
        intro x
        rw [commitTree]
        norm_num
      have hcommit : commitTree H [a, b] = H (a ++ b) := by
        rw [commitTree]
        norm_num
        rw [hsingle, hsingle]
      rw [pathTree, if_pos (by simp)]
      have hidx2 : index < 2 := by simpa using hidx
      interval_cases index
      · rw [rootOfPath, rootOfPath]
        simp [hcommit]
      · rw [rootOfPath, rootOfPath]
        simp [hcommit]
    · have hk : 1 ≤ k := by omega
      have hgt2 : ¬ leafs.length ≤ 2 := by
        rw [hl]
        have : 2 ^ 1 < 2 ^ (k + 1) := Nat.pow_lt_pow_right (by omega) (by omega)
        omega
      have hhalf : leafs.length / 2 = 2 ^ k := by rw [hl]; omega
      have htake : (leafs.take (leafs.length / 2)).length = 2 ^ k := by
        simp only [List.length_take]; omega
      have hdrop : (leafs.drop (leafs.length / 2)).length = 2 ^ k := by
        simp only [List.length_drop]; omega
      have hcommit : commitTree H leafs =
          H (commitTree H (leafs.take (leafs.length / 2)) ++
            commitTree H (leafs.drop (leafs.length / 2))) := by
        rw [commitTree, if_neg (by omega)]
      rw [pathTree, if_neg hgt2]
      by_cases hbr : index < leafs.length / 2
      · rw [if_pos hbr]
        rw [rootOfPath_append]
        rw [pathTree_length H k _ index htake hk]
        have hsh : index >>> k = 0 := by
          rw [Nat.shiftRight_eq_div_pow]
          rw [hhalf] at hbr
          exact Nat.div_eq_of_lt hbr
        rw [hsh]
        rw [if_pos (show (0 : Nat) % 2 = 0 from rfl)]
        have hgetD : leafs[index]?.getD [] =
            (List.take (leafs.length / 2) leafs)[index]?.getD [] := by
          rw [List.getElem?_take, if_pos hbr]
        rw [hgetD, ih _ index htake hk (by omega), hcommit]
      · rw [if_neg hbr]
        rw [rootOfPath_append]
        rw [pathTree_length H k _ (index - leafs.length / 2) hdrop hk]
        have hsh : index >>> k = 1 := by
          rw [Nat.shiftRight_eq_div_pow]
          rw [hhalf] at hbr
          rw [hl, pow_succ] at hidx
          exact Nat.div_eq_of_lt_le (by omega) (by omega)
        rw [hsh]
        rw [if_neg (show ¬ (1 : Nat) % 2 = 0 by norm_num)]
        have hmod : index % 2 ^ k = index - leafs.length / 2 := by
          rw [hhalf] at hbr ⊢
          rw [Nat.mod_eq_sub_mod (show index ≥ 2 ^ k by omega)]
          rw [hl, pow_succ] at hidx
          exact Nat.mod_eq_of_lt (by omega)
        have hlen : (pathTree H (index - leafs.length / 2)
            (leafs.drop (leafs.length / 2))).length = k :=
          pathTree_length H k _ _ hdrop hk
        have hcongr : rootOfPath H index
              (pathTree H (index - leafs.length / 2) (leafs.drop (leafs.length / 2)))
              (leafs[index]?.getD []) =
            rootOfPath H (index - leafs.length / 2)
              (pathTree H (index - leafs.length / 2) (leafs.drop (leafs.length / 2)))
              (leafs[index]?.getD []) := by
          conv_lhs => rw [rootOfPath_mod, hlen, hmod]
        rw [hcongr]
        have hgetD : leafs[index]?.getD [] =
            (List.drop (leafs.length / 2) leafs)[index - leafs.length / 2]?.getD [] := by
          rw [List.getElem?_drop]
          congr 2
          omega
        rw [hgetD, ih _ (index - leafs.length / 2) hdrop hk (by omega), hcommit]

lemma hash_data_array_pow2 {T : Type} (H : Bytes → Bytes) (enc : T → Bytes)
    (items : List T) (hne : items.length ≠ 0) :
    ∃ k, (hash_data_array H enc items).length = 2 ^ k ∧
      items.length ≤ (hash_data_array H enc items).length := by
  unfold hash_data_array
  simp only [List.length_map]
  split
  · obtain ⟨k, hk⟩ := nextPow2_pow2 items.length
    refine ⟨k, ?_, ?_⟩
    · simp only [List.length_append, List.length_map, List.length_replicate]
      have := le_nextPow2 items.length
      omega
    · simp only [List.length_append, List.length_map, List.length_replicate]
      omega
  · rename_i hland
    obtain ⟨k, hk⟩ := pow2_of_land_pred hne (by omega)
    exact ⟨k, by simpa using hk, by simp⟩

lemma hash_data_array_get {T : Type} (H : Bytes → Bytes) (enc : T → Bytes)
    (items : List T) (i : Nat) (hi : i < items.length) :
    (hash_data_array H enc items)[i]? = (items.map fun d => H (enc d))[i]? := by
  unfold hash_data_array
  dsimp only
  split
  · rw [List.getElem?_append, if_pos (by simpa using hi)]
  · rfl

end Merkle

/-- C4 (amended): the Merkle round-trip
`verify(commit(items), i, open(i, items), items[i]) = true` for every hash,
every item serializer, every list of at least two items and every in-range
index.  (For a single item the claim fails: `open_` never terminates — see
the counterexample.) -/
theorem C4_merkle_roundtrip {T : Type} (H : Bytes → Bytes) (enc : T → Bytes)
    (items : List T) (i : Nat) (h2 : 2 ≤ items.length) (hi : i < items.length) :
    merkleRoundTrip H enc items i = some true := by
  obtain ⟨it, hit⟩ : ∃ it, items[i]? = some it :=
    ⟨items[i], List.getElem?_eq_getElem hi⟩
  obtain ⟨k, hk, hge⟩ := Merkle.hash_data_array_pow2 H enc items (by omega)
  have hk1 : 1 ≤ k := by
    by_contra hzero
    have : k = 0 := by omega
    rw [this] at hk
    omega
  have hleaf : (Merkle.hash_data_array H enc items).getD i [] = H (enc it) := by
    rw [List.getD_eq_getElem?_getD, Merkle.hash_data_array_get H enc items i hi,
      List.getElem?_map, hit]
    rfl
  have hil : i < (Merkle.hash_data_array H enc items).length := by omega
  have hcommit := Merkle.commitAux_eq H k ((Merkle.hash_data_array H enc items).length + 1)
    (Merkle.hash_data_array H enc items) hk (by have := Nat.lt_two_pow k; omega)
  have hopen := Merkle.openAux_eq H k ((Merkle.hash_data_array H enc items).length + 1) i
    (Merkle.hash_data_array H enc items) hk hk1 hil (by have := Nat.lt_two_pow k; omega)
  have hplen := Merkle.pathTree_length H k (Merkle.hash_data_array H enc items) i hk hk1
  have hpne : Merkle.pathTree H i (Merkle.hash_data_array H enc items) ≠ [] := by
    intro hnil
    rw [hnil] at hplen
    simp at hplen
    omega
  have hverify := Merkle.verifyAux_eq H
    (Merkle.commitTree H (Merkle.hash_data_array H enc items))
    (Merkle.pathTree H i (Merkle.hash_data_array H enc items)) i (H (enc it)) hpne
    (by rw [hplen, ← hk]; omega)
  rw [merkleRoundTrip, hit]
  show (do
    let root ← Merkle.commit H enc items
    let path ← Merkle.openData H enc i items
    Merkle.verify H enc root i path it) = some true
  rw [Merkle.commit, hcommit]
  show (do
    let path ← Merkle.openData H enc i items
    Merkle.verify H enc (Merkle.commitTree H (Merkle.hash_data_array H enc items))
      i path it) = some true
  rw [Merkle.openData]
  rw [hopen]
  show Merkle.verify H enc (Merkle.commitTree H (Merkle.hash_data_array H enc items)) i
    (Merkle.pathTree H i (Merkle.hash_data_array H enc items)) it = some true
  rw [Merkle.verify, hverify]
  rw [← hleaf]
  rw [Merkle.rootOfPath_pathTree H k _ i hk hk1 hil]
  simp

/-- A concrete 32-byte-output hash stand-in used in witnesses and
counterexamples (Blake2bVar with 32-byte output always returns 32 bytes). -/
def hashZero : Bytes → Bytes := fun _ => List.replicate 32 0

/-- A concrete item serializer stand-in. -/
def encNat : Nat → Bytes := fun n => [n % 256]

/-- On a one-leaf array `open_` recurses with unchanged arguments, so no
amount of fuel produces a result: the source loops forever. -/
lemma openAux_singleton (H : Bytes → Bytes) (x : Bytes) :
    ∀ fuel index : Nat, Merkle.openAux H fuel index [x] = none := by
  intro fuel
  induction fuel with
  | zero => intro index; rfl
  | succ f ih =>
    intro index
    rw [Merkle.openAux]
    by_cases hidx : index ≥ 1
    · rw [if_neg (by simp), if_neg (by simp), if_pos (by simpa using hidx)]
    · rw [if_neg (by simp), if_neg (by simp), if_neg (by simpa using hidx),
        if_neg (by simp), if_neg (by simp)]
      simp only [List.length_cons, List.length_nil]
      rw [show (1 : Nat) / 2 = 0 from rfl, List.drop_zero]
      rw [ih (index - 0)]
      rfl

/-- C4 as stated is false at a one-item list: `Merkle::open` diverges on a
single leaf (the recursion repeats with identical arguments), so the
round-trip never returns `true`. -/
theorem C4_counterexample :
    ([5] : List Nat) ≠ [] ∧ 0 < ([5] : List Nat).length ∧
      merkleRoundTrip hashZero encNat [5] 0 = none := by
  refine ⟨by decide, by decide, ?_⟩
  rw [merkleRoundTrip]
  show (do
    let root ← Merkle.commit hashZero encNat [5]
    let path ← Merkle.openData hashZero encNat 0 [5]
    Merkle.verify hashZero encNat root 0 path (5 : Nat)) = none
  rw [Merkle.openData]
  show (do
    let root ← Merkle.commit hashZero encNat [5]
    let path ← Merkle.openAux hashZero 2 0 (Merkle.hash_data_array hashZero encNat [5])
    Merkle.verify hashZero encNat root 0 path (5 : Nat)) = none
  rw [show Merkle.hash_data_array hashZero encNat [5] = [List.replicate 32 0] from rfl]
  rw [openAux_singleton]
  rfl

theorem C4_witness :
    (2 ≤ ([3, 4] : List Nat).length ∧ 0 < ([3, 4] : List Nat).length) ∧
      merkleRoundTrip hashZero encNat [3, 4] 0 = some true :=
  ⟨⟨by decide, by decide⟩, C4_merkle_roundtrip hashZero encNat [3, 4] 0 (by decide) (by decide)⟩

/-- C5 (amended): when the item count is not a power of two
(`len & (len - 1) != 0`), `hash_data_array` extends the leaf array to the
next power of two, and every padding entry is the **empty byte string**
(`Vec::new()`), not the hash of the empty byte string. -/
theorem C5_padding_is_empty {T : Type} (H : Bytes → Bytes) (enc : T → Bytes)
    (items : List T) (hnp : items.length &&& (items.length - 1) ≠ 0) :
    (Merkle.hash_data_array H enc items).length = nextPow2 items.length ∧
      (∀ j, items.length ≤ j → j < (Merkle.hash_data_array H enc items).length →
        (Merkle.hash_data_array H enc items).getD j [] = []) := by
  unfold Merkle.hash_data_array
  dsimp only
  rw [if_pos (by simpa using hnp)]
  constructor
  · simp only [List.length_append, List.length_map, List.length_replicate]
    have := le_nextPow2 items.length
    omega
  · intro j hj hjl
    simp only [List.length_append, List.length_map, List.length_replicate] at hjl
    rw [List.getD_eq_getElem?_getD, List.getElem?_append_right (by simpa using hj)]
    rw [List.getElem?_replicate]
    rw [if_pos (by simp only [List.length_map]; omega)]
    rfl

/-- C5 as stated is false: with a (32-byte-output) hash, the padding entry of
a three-item array is the empty byte string, which is not the hash of the
empty byte string. -/
theorem C5_counterexample :
    (([1, 2, 3] : List Nat).length &&& (([1, 2, 3] : List Nat).length - 1) ≠ 0) ∧
      (Merkle.hash_data_array hashZero encNat [1, 2, 3]).length = 4 ∧
      (Merkle.hash_data_array hashZero encNat [1, 2, 3]).getD 3 [] = [] ∧
      (Merkle.hash_data_array hashZero encNat [1, 2, 3]).getD 3 [] ≠ hashZero [] := by
  refine ⟨by decide, by decide, by decide, by decide⟩

theorem C5_witness :
    (([1, 2, 3] : List Nat).length &&& (([1, 2, 3] : List Nat).length - 1) ≠ 0) ∧
      ((Merkle.hash_data_array hashZero encNat [1, 2, 3]).length =
          nextPow2 ([1, 2, 3] : List Nat).length ∧
        (∀ j, ([1, 2, 3] : List Nat).length ≤ j →
          j < (Merkle.hash_data_array hashZero encNat [1, 2, 3]).length →
          (Merkle.hash_data_array hashZero encNat [1, 2, 3]).getD j [] = [])) :=
  ⟨by decide, C5_padding_is_empty hashZero encNat [1, 2, 3] (by decide)⟩


/-! ## `src/polynomial.rs` — dense univariate polynomials

A `Polynomial` is its coefficient list in ascending degree order; every
coefficient is the canonical value of a `FieldElement` of the one common
field, so the embedding is a `List Nat` together with the modulus `p`. -/

/-- `Polynomial::degree` (src/polynomial.rs lines 52–68): `-1` for the empty
or all-zero list, otherwise the largest index holding a non-zero
coefficient, found by a forward scan. -/
def pdegree (l : List Nat) : Int :=
  if l.length = 0 then -1
  else if l.all (fun e => e == 0) then -1
  else ((l.enum.foldl (fun m ie => if ie.2 ≠ 0 then ie.1 else m) 0 : Nat) : Int)

/-- `Polynomial::leading_coefficient` (src/polynomial.rs lines 70–76);
call sites guarantee `degree ≥ 0`. -/
def pleadingCoeff (l : List Nat) : Nat := l.getD (pdegree l).toNat 0

/-- `Polynomial::evaluate` (src/polynomial.rs lines 78–86): ascending Horner,
state `(xi, value)` with `value += c * xi; xi *= point`. -/
def peval (p : Nat) (l : List Nat) (point : Nat) : Nat :=
  (l.foldl (fun st c => (fadd p st.1 (fmul p c st.2), fmul p st.2 point)) (0, 1)).1

/-- `Polynomial::evaluate_domain` (src/polynomial.rs lines 88–90). -/
def pevalDomain (p : Nat) (l : List Nat) (domain : List Nat) : List Nat :=
  domain.map (peval p l)

/-- `impl Add for &Polynomial` (src/polynomial.rs lines 144–168): a zero
operand returns a clone of the other; otherwise a zero-initialised array of
the larger size accumulates both coefficient lists. -/
def padd (p : Nat) (a b : List Nat) : List Nat :=
  if pdegree a = -1 then b
  else if pdegree b = -1 then a
  else (List.range (max a.length b.length)).map fun i =>
    fadd p (fadd p 0 (a.getD i 0)) (b.getD i 0)

/-- `impl Neg for &Polynomial` (src/polynomial.rs lines 170–177). -/
def pneg (p : Nat) (a : List Nat) : List Nat := a.map (fneg p)

/-- `impl Sub for &Polynomial` (src/polynomial.rs lines 179–185):
`self + (-rhs)`. -/
def psub (p : Nat) (a b : List Nat) : List Nat := padd p a (pneg p b)

/-- `impl Mul for &Polynomial` (src/polynomial.rs lines 187–207): schoolbook
convolution into a zero-initialised array of size `la + lb - 1`, skipping
rows whose coefficient is zero. -/
def pmul (p : Nat) (a b : List Nat) : List Nat :=
  if a.length = 0 ∨ b.length = 0 then []
  else
    a.enum.foldl
      (fun acc ie =>
        if ie.2 ≠ 0 then
          b.enum.foldl
            (fun acc2 je =>
              acc2.set (ie.1 + je.1)
                (fadd p (acc2.getD (ie.1 + je.1) 0) (fmul p ie.2 je.2)))
            acc
        else acc)
      (List.replicate (a.length + b.length - 1) 0)

/-- `Polynomial::interpolate_domain` (src/polynomial.rs lines 92–113):
Lagrange interpolation; `none` models the failed length assertions. -/
def interpolate_domain (p : Nat) (domain values : List Nat) : Option (List Nat) :=
  if domain.length ≠ values.length ∨ domain.length = 0 then none
  else
    some ((List.range domain.length).foldl
      (fun acc i =>
        padd p acc
          ((List.range domain.length).foldl
            (fun prod j =>
              if j = i then prod
              else
                pmul p (pmul p prod (psub p [0, 1] [domain.getD j 0]))
                  [finv p (fsub p (domain.getD i 0) (domain.getD j 0))])
            [values.getD i 0]))
      [])

/-- `Polynomial::test_colinearity` (src/polynomial.rs lines 136–141):
interpolate through the points and test `degree ≤ 1`. -/
def test_colinearity (p : Nat) (points : List (Nat × Nat)) : Option Bool := do
  let poly ← interpolate_domain p (points.map Prod.fst) (points.map Prod.snd)
  some (decide (pdegree poly ≤ 1))

/-- The loop of `divide` (src/polynomial.rs lines 26–42), one fuel unit per
iteration (`degree` iterations are requested; the loop breaks early once the
remainder degree drops below the divisor degree).  State: the quotient
coefficient array and the remainder. -/
def divideLoop (p : Nat) (denominator : List Nat) :
    Nat → List Nat → List Nat → Option (List Nat × List Nat)
  | 0, qc, remainder => some (qc, remainder)
  | n + 1, qc, remainder =>
    if pdegree remainder < pdegree denominator then some (qc, remainder)
    else do
      let coefficient ← fdiv p (pleadingCoeff remainder) (pleadingCoeff denominator)
      let shift := (pdegree remainder - pdegree denominator).toNat
      let coeffs := List.replicate shift 0 ++ [coefficient]
      let subtractee := pmul p coeffs denominator
      divideLoop p denominator n (qc.set shift coefficient) (psub p remainder subtractee)

/-- `divide` (src/polynomial.rs lines 9–45): `None` when the denominator is
the zero polynomial; quotient of the zero-division shortcut when
`deg(numerator) < deg(denominator)`; otherwise the long-division loop run for
`deg(numerator) - deg(denominator) + 1` iterations. -/
def divide (p : Nat) (numerator denominator : List Nat) :
    Option (List Nat × List Nat) :=
  if pdegree denominator = -1 then none
  else if pdegree numerator < pdegree denominator then some ([], numerator)
  else
    let degree := (pdegree numerator - pdegree denominator + 1).toNat
    (divideLoop p denominator degree (List.replicate degree 0) numerator).bind
      fun qr => some qr

/-- `impl Div for &Polynomial` (src/polynomial.rs lines 209–220): run
`divide`; panic (`none`) if it fails **or if the remainder is the zero
polynomial** (the source asserts `remainder.degree() != -1`); otherwise
return the quotient. -/
def divOp (p : Nat) (a b : List Nat) : Option (List Nat) := do
  let qr ← divide p a b
  if pdegree qr.2 = -1 then none
  else some qr.1

noncomputable def toP (p : Nat) : List Nat → Polynomial (ZMod p)
  | [] => 0
  | c :: rest => Polynomial.C (c : ZMod p) + Polynomial.X * toP p rest

lemma toP_coeff (p : Nat) : ∀ l : List Nat, ∀ n : Nat,
    (toP p l).coeff n = ((l.getD n 0 : Nat) : ZMod p) := by
  intro l
  induction l with
  | nil => intro n; simp [toP]
  | cons c rest ih =>
    intro n
    cases n with
    | zero =>
      simp [toP, Polynomial.coeff_add, Polynomial.coeff_X_mul_zero]
    | succ n =>
      simp [toP, Polynomial.coeff_add, Polynomial.coeff_X_mul, ih]

lemma fadd_cast (p a b : Nat) : ((fadd p a b : Nat) : ZMod p) = (a : ZMod p) + b := by
  rw [fadd, ZMod.natCast_mod]
  push_cast
  ring

lemma fmul_cast (p a b : Nat) : ((fmul p a b : Nat) : ZMod p) = (a : ZMod p) * b := by
  rw [fmul, ZMod.natCast_mod]
  push_cast
  ring

lemma fsub_cast (p a b : Nat) (hb : b ≤ p) :
    ((fsub p a b : Nat) : ZMod p) = (a : ZMod p) - b := by
  rw [fsub, ZMod.natCast_mod, Nat.cast_sub (by omega)]
  push_cast
  rw [ZMod.natCast_self]
  ring

lemma fneg_cast (p a : Nat) (ha : a ≤ p) :
    ((fneg p a : Nat) : ZMod p) = -(a : ZMod p) := by
  rw [fneg, ZMod.natCast_mod, Nat.cast_sub ha]
  rw [ZMod.natCast_self]
  ring

lemma fadd_lt (p a b : Nat) (hp : 0 < p) : fadd p a b < p := Nat.mod_lt _ hp
lemma fmul_lt (p a b : Nat) (hp : 0 < p) : fmul p a b < p := Nat.mod_lt _ hp
lemma fsub_lt (p a b : Nat) (hp : 0 < p) : fsub p a b < p := Nat.mod_lt _ hp
lemma fneg_lt (p a : Nat) (hp : 0 < p) : fneg p a < p := Nat.mod_lt _ hp

lemma xgcd_zero_left (p : Nat) (hp : 0 < p) : xgcd 0 p = (0, 1, p, false, false) := by
  rw [xgcd]
  obtain ⟨q, rfl⟩ : ∃ q, p = q + 1 := ⟨p - 1, by omega⟩
  rw [xgcdLoop_step (q + 1) 0 (q + 1) 1 0 0 1 false false false false (by omega)]
  norm_num [bezoutStep]
  rw [xgcdLoop_base]

/-- The value computed by `Field::inv` is the cast of the signed Bézout
coefficient. -/
lemma finv_eq_bezout (p a : Nat) (hp : 0 < p) :
    ((finv p a : Nat) : ZMod p) =
      ((ival (xgcd a p).1 (xgcd a p).2.2.2.1 : Int) : ZMod p) := by
  have hs := (xgcd_spec a p).2.2.1
  have hsle : (xgcd a p).1 ≤ p := by
    have : max 1 p = p := by omega
    omega
  rw [finv]
  cases hflag : (xgcd a p).2.2.2.1 with
  | false =>
    simp only [hflag, if_false, Bool.false_eq_true, ival, reduceIte]
    rw [ZMod.natCast_mod]
    push_cast
    rfl
  | true =>
    simp only [hflag, if_true, ival, reduceIte]
    rw [ZMod.natCast_mod, Nat.cast_sub hsle]
    push_cast
    rw [ZMod.natCast_self]
    ring

/-- Shared form of the inverse computation: the Bézout coefficient returned by
`xgcd b p` casts to the inverse of `b` in `ZMod p`. -/
lemma bezout_inv_cast (p b : Nat) [hp : Fact p.Prime] (hb : b < p) (hbpos : 0 < b) :
    ((ival (xgcd b p).1 (xgcd b p).2.2.2.1 : Int) : ZMod p) = (b : ZMod p)⁻¹ := by
  have hnd : ¬ p ∣ b := fun hdvd => by
    have := Nat.le_of_dvd hbpos hdvd
    omega
  have hcop : Nat.gcd b p = 1 :=
    Nat.coprime_comm.mp (((Nat.Prime.coprime_iff_not_dvd hp.out)).mpr hnd)
  have hbez := (xgcd_spec b p).1
  have hg := (xgcd_spec b p).2.1
  rw [hg, hcop] at hbez
  have hcast := congrArg (fun z : Int => (z : ZMod p)) hbez
  push_cast at hcast
  rw [ZMod.natCast_self, mul_zero, add_zero] at hcast
  exact eq_inv_of_mul_eq_one_left hcast

/-- `Field::inv` computes the modular inverse for a prime modulus. -/
lemma finv_cast (p a : Nat) [hp : Fact p.Prime] (ha : a < p) :
    ((finv p a : Nat) : ZMod p) = (a : ZMod p)⁻¹ := by
  rcases Nat.eq_zero_or_pos a with rfl | hapos
  · rw [finv, xgcd_zero_left p hp.out.pos]
    simp
  · rw [finv_eq_bezout p a hp.out.pos, bezout_inv_cast p a ha hapos]

/-- `Field::div` computes `a / b` in `ZMod p` for a prime modulus and a
non-zero canonical divisor. -/
lemma fdiv_cast (p a b : Nat) [hp : Fact p.Prime] (hb : b < p) (hbpos : 0 < b) :
    (fdiv p a b).map (fun v => ((v : Nat) : ZMod p)) = some ((a : ZMod p) / b) := by
  rw [fdiv, if_neg (by omega)]
  rw [show ∀ x : Nat, Option.map (fun v => ((v : Nat) : ZMod p)) (some x) = some ((x : Nat) : ZMod p) from fun x => rfl]
  congr 1
  have hinv := bezout_inv_cast p b hb hbpos
  cases hflag : (xgcd b p).2.2.2.1 with
  | false =>
    rw [hflag] at hinv
    simp only [ival, Bool.false_eq_true, reduceIte] at hinv
    push_cast at hinv
    simp only [Bool.false_eq_true, reduceIte]
    rw [ZMod.natCast_mod]
    push_cast
    rw [hinv, div_eq_mul_inv]
  | true =>
    rw [hflag] at hinv
    simp only [ival, reduceIte] at hinv
    push_cast at hinv
    simp only [reduceIte]
    have hle : a * (xgcd b p).1 % p ≤ p :=
      le_of_lt (Nat.mod_lt _ hp.out.pos)
    rw [ZMod.natCast_mod, Nat.cast_sub hle, ZMod.natCast_self, ZMod.natCast_mod]
    push_cast
    rw [div_eq_mul_inv, ← hinv]
    ring

lemma finv_lt (p a : Nat) (hp : 0 < p) : finv p a < p := Nat.mod_lt _ hp

lemma fdiv_lt (p a b v : Nat) (hp : 0 < p) (hv : fdiv p a b = some v) : v < p := by
  rw [fdiv] at hv
  split at hv
  · exact absurd hv (by simp)
  · simp only [Option.some.injEq] at hv
    subst hv
    exact Nat.mod_lt _ hp

lemma powLoop_lt (p e k : Nat) (hp : 0 < p) : ∀ i acc, powLoop p e k i acc < p := by
  intro i
  induction i with
  | zero =>
    intro acc
    simp only [powLoop]
    split <;> exact Nat.mod_lt _ hp
  | succ i ih => intro acc; exact ih _

lemma fpow_lt (p e k : Nat) (hp : 0 < p) : fpow p e k < p :=
  powLoop_lt p e k hp _ 1

/-- The square-and-multiply loop invariant: after processing bits `i..0`, the
result is `acc^(2^(i+1)) * e^(k mod 2^(i+1))` in `ZMod p`. -/
lemma powLoop_cast (p e k : Nat) : ∀ i acc,
    ((powLoop p e k i acc : Nat) : ZMod p) =
      (acc : ZMod p) ^ (2 ^ (i + 1)) * (e : ZMod p) ^ (k % 2 ^ (i + 1)) := by
  intro i
  induction i with
  | zero =>
    intro acc
    simp only [powLoop, Nat.testBit_zero]
    rcases Nat.mod_two_eq_zero_or_one k with h | h
    · rw [h]
      norm_num
      rw [h]
      ring
    · rw [h]
      norm_num
      rw [h]
      ring
  | succ i ih =>
    intro acc
    have hdecomp : k % 2 ^ (i + 1 + 1) =
        k % 2 ^ (i + 1) + 2 ^ (i + 1) * (k / 2 ^ (i + 1) % 2) := by
      rw [show (2 : Nat) ^ (i + 1 + 1) = 2 ^ (i + 1) * 2 by ring]
      exact Nat.mod_mul
    simp only [powLoop, Nat.testBit_to_div_mod]
    rw [ih]
    rcases Nat.mod_two_eq_zero_or_one (k / 2 ^ (i + 1)) with h | h
    · rw [h]
      norm_num
      rw [hdecomp, h, Nat.mul_zero, Nat.add_zero,
        show (2 : Nat) ^ (i + 1 + 1) = 2 ^ (i + 1) + 2 ^ (i + 1) by ring,
        pow_add]
      ring
    · rw [h]
      norm_num
      rw [hdecomp, h, Nat.mul_one,
        show (2 : Nat) ^ (i + 1 + 1) = 2 ^ (i + 1) + 2 ^ (i + 1) by ring,
        pow_add, pow_add]
      ring
lemma find?_reverse_range_spec (q : Nat → Bool) :
    ∀ n m, ((List.range n).reverse.find? q = some m) →
      ∀ j, m < j → j < n → q j = false := by
  intro n
  induction n with
  | zero => simp
  | succ n ih =>
    intro m hfind j hmj hjn
    rw [List.range_succ, List.reverse_append] at hfind
    simp only [List.reverse_singleton, List.singleton_append, List.find?_cons] at hfind
    cases hq : q n
    · rw [hq] at hfind
      rcases Nat.lt_or_ge j n with hj | hj
      · exact ih m hfind j hmj hj
      · have : j = n := by omega
        subst this
        exact hq
    · rw [hq] at hfind
      simp only [Option.some.injEq] at hfind
      omega

/-- For exponents below `2^128` the scanned top bit really bounds the
exponent: `k < 2^(topBit k + 1)`. -/
lemma lt_two_pow_topBit_succ (k : Nat) (hk : k < 2 ^ 128) :
    k < 2 ^ (topBit k + 1) := by
  unfold topBit
  cases hfind : ((List.range 128).reverse.find? (fun i => k.testBit i)) with
  | none =>
    have hall := List.find?_eq_none.mp hfind
    have hz : k = 0 := by
      apply Nat.eq_of_testBit_eq
      intro i
      rcases Nat.lt_or_ge i 128 with h | h
      · have := hall i (by simp [List.mem_reverse, List.mem_range, h])
        simpa using this
      · rw [Nat.testBit_eq_false_of_lt
          (lt_of_lt_of_le hk (Nat.pow_le_pow_right (by omega) h))]
        simp
    simp [hz]
  | some m =>
    simp only [Option.getD_some]
    apply Nat.lt_pow_two_of_testBit
    intro j hj
    rcases Nat.lt_or_ge j 128 with h | h
    · exact find?_reverse_range_spec _ 128 m hfind j (by omega) h
    · exact Nat.testBit_eq_false_of_lt
        (lt_of_lt_of_le hk (Nat.pow_le_pow_right (by omega) h))

/-- `FieldElement ^` computes modular exponentiation in `ZMod p` for
exponents below `2^128`. -/
lemma fpow_cast (p e k : Nat) (hk : k < 2 ^ 128) :
    ((fpow p e k : Nat) : ZMod p) = (e : ZMod p) ^ k := by
  rw [fpow, powLoop_cast, Nat.cast_one, one_pow, one_mul,
    Nat.mod_eq_of_lt (lt_two_pow_topBit_succ k hk)]

/-! ## Characterisation of the `degree` scan -/

lemma scan_zero : ∀ (l : List Nat) (n m : Nat), (∀ x ∈ l, x = 0) →
    (l.enumFrom n).foldl (fun m ie => if ie.2 ≠ 0 then ie.1 else m) m = m := by
  intro l
  induction l with
  | nil => intro n m _; rfl
  | cons a t ih =>
    intro n m hz
    have ha : a = 0 := hz a (List.mem_cons_self a t)
    simp only [List.enumFrom, List.foldl_cons, ha]
    rw [if_neg (by omega)]
    exact ih (n + 1) m (fun x hx => hz x (List.mem_cons_of_mem a hx))

lemma scan_last_nz : ∀ (l : List Nat) (n m : Nat), (∃ x ∈ l, x ≠ 0) →
    ∃ i, i < l.length ∧ l.getD i 0 ≠ 0 ∧
      (l.enumFrom n).foldl (fun m ie => if ie.2 ≠ 0 then ie.1 else m) m = n + i ∧
      (∀ j, i < j → j < l.length → l.getD j 0 = 0) := by
  intro l
  induction l with
  | nil => intro n m h; simp at h
  | cons a t ih =>
    intro n m hex
    by_cases ht : ∃ x ∈ t, x ≠ 0
    · obtain ⟨i, hil, hnz, hfold, habove⟩ := ih (n + 1) (if a ≠ 0 then n else m) ht
      refine ⟨i + 1, by simpa using hil, by simpa using hnz, ?_, ?_⟩
      · simp only [List.enumFrom, List.foldl_cons]
        rw [hfold]
        omega
      · intro j hij hjl
        cases j with
        | zero => omega
        | succ j =>
          simp only [List.getD_cons_succ]
          exact habove j (by omega) (by simpa using hjl)
    · push_neg at ht
      have ha : a ≠ 0 := by
        rcases hex with ⟨x, hx, hnz⟩
        rcases List.mem_cons.mp hx with rfl | hxt
        · exact hnz
        · exact absurd (ht x hxt) hnz
      refine ⟨0, by simp, by simpa using ha, ?_, ?_⟩
      · simp only [List.enumFrom, List.foldl_cons, if_pos ha]
        rw [scan_zero t (n + 1) n ht]
        omega
      · intro j h0j hjl
        cases j with
        | zero => omega
        | succ j =>
          have hjt : j < t.length := by simpa using hjl
          simp only [List.getD_cons_succ]
          rw [List.getD_eq_getElem t 0 hjt]
          exact ht _ (List.getElem_mem hjt)

lemma pdegree_neg_one_iff (l : List Nat) : pdegree l = -1 ↔ ∀ x ∈ l, x = 0 := by
  constructor
  · intro h x hx
    rw [pdegree] at h
    by_cases h0 : l.length = 0
    · rw [List.length_eq_zero] at h0
      subst h0
      simp at hx
    rw [if_neg h0] at h
    by_cases hz : l.all (fun e => e == 0)
    · simpa using (List.all_eq_true.mp hz) x hx
    · rw [if_neg hz] at h
      omega
  · intro h
    rw [pdegree]
    by_cases h0 : l.length = 0
    · rw [if_pos h0]
    · rw [if_neg h0, if_pos]
      exact List.all_eq_true.mpr fun x hx => by simpa using h x hx

lemma pdegree_spec (l : List Nat) (h : pdegree l ≠ -1) :
    0 ≤ pdegree l ∧ (pdegree l).toNat < l.length ∧
      l.getD (pdegree l).toNat 0 ≠ 0 ∧
      ∀ j, (pdegree l).toNat < j → j < l.length → l.getD j 0 = 0 := by
  by_cases h0 : l.length = 0
  · rw [pdegree, if_pos h0] at h
    exact absurd rfl h
  by_cases hz : l.all (fun e => e == 0)
  · rw [pdegree, if_neg h0, if_pos hz] at h
    exact absurd rfl h
  have hex : ∃ x ∈ l, x ≠ 0 := by
    rcases List.all_eq_true.not.mp hz with h'
    push_neg at h'
    obtain ⟨x, hx, hne⟩ := h'
    exact ⟨x, hx, by simpa using hne⟩
  obtain ⟨i, hil, hnz, hfold, habove⟩ := scan_last_nz l 0 0 hex
  have hpd : pdegree l = (i : Int) := by
    rw [pdegree, if_neg h0, if_neg hz]
    rw [show l.enum = l.enumFrom 0 from rfl, hfold]
    norm_num
  rw [hpd]
  refine ⟨by omega, by simpa using hil, by simpa using hnz, ?_⟩
  intro j hj hjl
  exact habove j (by simpa using hj) hjl

lemma pleadingCoeff_ne_zero (l : List Nat) (h : pdegree l ≠ -1) :
    pleadingCoeff l ≠ 0 := by
  have := (pdegree_spec l h).2.2.1
  rw [pleadingCoeff]
  exact this

lemma divideLoop_some (p : Nat) (denominator : List Nat)
    (hden : pleadingCoeff denominator ≠ 0) :
    ∀ fuel qc rem, ∃ qr, divideLoop p denominator fuel qc rem = some qr := by
  intro fuel
  induction fuel with
  | zero => intro qc rem; exact ⟨(qc, rem), rfl⟩
  | succ n ih =>
    intro qc rem
    simp only [divideLoop]
    split
    · exact ⟨(qc, rem), rfl⟩
    · rw [fdiv, if_neg hden]
      simp only [Option.bind_eq_bind, Option.some_bind]
      exact ih _ _

/-! ## `FRI::num_rounds` (src/fri.rs lines 38–51) -/

def numRoundsLoop (expansion_factor num_colinearity_tests : Nat) :
    Nat → Nat → Nat → Nat × Nat
  | 0, codeword_length, num_rounds => (codeword_length, num_rounds)
  | fuel + 1, codeword_length, num_rounds =>
    if codeword_length > expansion_factor ∧
        4 * num_colinearity_tests < codeword_length then
      numRoundsLoop expansion_factor num_colinearity_tests fuel
        (codeword_length / 2) (num_rounds + 1)
    else (codeword_length, num_rounds)

def num_rounds (domain_length expansion_factor num_colinearity_tests : Nat) :
    Nat :=
  let r := numRoundsLoop expansion_factor num_colinearity_tests domain_length
    domain_length 0
  if r.2 = 1 ∧ r.1 > expansion_factor then r.2 + 1 else r.2

def specRoundsLoop (expansion_factor num_colinearity_tests : Nat) :
    Nat → Nat → Nat → Nat
  | 0, _, r => r
  | fuel + 1, codeword_len, r =>
    if codeword_len > expansion_factor ∧
        4 * num_colinearity_tests < codeword_len then
      specRoundsLoop expansion_factor num_colinearity_tests fuel
        (codeword_len / 2) (r + 1)
    else r

def numRoundsSpec (domain_length expansion_factor num_colinearity_tests : Nat) :
    Nat :=
  specRoundsLoop expansion_factor num_colinearity_tests domain_length
    domain_length 0

lemma numRoundsLoop_snd (ef nct : Nat) : ∀ fuel cl r,
    (numRoundsLoop ef nct fuel cl r).2 = specRoundsLoop ef nct fuel cl r := by
  intro fuel
  induction fuel with
  | zero => intro cl r; rfl
  | succ fuel ih =>
    intro cl r
    simp only [numRoundsLoop, specRoundsLoop]
    split
    · exact ih _ _
    · rfl

lemma numRoundsLoop_fst (ef nct : Nat) : ∀ fuel cl r,
    (numRoundsLoop ef nct fuel cl r).1 =
      cl / 2 ^ ((numRoundsLoop ef nct fuel cl r).2 - r) ∧
      r ≤ (numRoundsLoop ef nct fuel cl r).2 := by
  intro fuel
  induction fuel with
  | zero => intro cl r; simp [numRoundsLoop]
  | succ fuel ih =>
    intro cl r
    simp only [numRoundsLoop]
    split
    · obtain ⟨h1, h2⟩ := ih (cl / 2) (r + 1)
      refine ⟨?_, by omega⟩
      rw [h1]
      rw [show (numRoundsLoop ef nct fuel (cl / 2) (r + 1)).2 - r =
        ((numRoundsLoop ef nct fuel (cl / 2) (r + 1)).2 - (r + 1)) + 1 by omega]
      rw [pow_succ, Nat.div_div_eq_div_mul]
      congr 1
      ring
    · simp

lemma numRoundsLoop_exit (ef nct : Nat) : ∀ fuel cl r, cl ≤ fuel →
    ¬((numRoundsLoop ef nct fuel cl r).1 > ef ∧
      4 * nct < (numRoundsLoop ef nct fuel cl r).1) := by
  intro fuel
  induction fuel with
  | zero =>
    intro cl r hcl
    simp only [numRoundsLoop]
    omega
  | succ fuel ih =>
    intro cl r hcl
    simp only [numRoundsLoop]
    split
    · exact ih (cl / 2) (r + 1) (by omega)
    · simpa using (by omega : ¬(cl > ef ∧ 4 * nct < cl) → ¬(cl > ef ∧ 4 * nct < cl)) (by assumption)

/-- C2 amended: the implementation equals the spec loop value, except that a
result of exactly one round is bumped to two whenever the halved codeword is
still longer than the expansion factor. -/
theorem C2_num_rounds (domain_length expansion_factor num_colinearity_tests : Nat) :
    num_rounds domain_length expansion_factor num_colinearity_tests =
      (if numRoundsSpec domain_length expansion_factor num_colinearity_tests = 1 ∧
          domain_length / 2 > expansion_factor then
        numRoundsSpec domain_length expansion_factor num_colinearity_tests + 1
      else numRoundsSpec domain_length expansion_factor num_colinearity_tests) := by
  simp only [num_rounds, numRoundsSpec]
  rw [← numRoundsLoop_snd]
  have hfst := (numRoundsLoop_fst expansion_factor num_colinearity_tests
    domain_length domain_length 0).1
  by_cases h1 : (numRoundsLoop expansion_factor num_colinearity_tests
      domain_length domain_length 0).2 = 1
  · rw [hfst, h1]
    norm_num
  · simp [h1]

theorem C2_counterexample :
    num_rounds 8 2 1 = 2 ∧ numRoundsSpec 8 2 1 = 1 ∧
      num_rounds 8 2 1 ≠ numRoundsSpec 8 2 1 := by decide
/-! ## Bridges from the embedded polynomial arithmetic to `Polynomial (ZMod p)` -/

lemma toP_zero_of_all_zero (p : Nat) (l : List Nat) (h : ∀ x ∈ l, x = 0) :
    toP p l = 0 := by
  induction l with
  | nil => rfl
  | cons c t ih =>
    rw [toP, h c (List.mem_cons_self c t),
      ih fun x hx => h x (List.mem_cons_of_mem c hx)]
    simp

lemma peval_fold (p x : Nat) : ∀ (l : List Nat) (v xi : Nat),
    (((l.foldl (fun st c => (fadd p st.1 (fmul p c st.2), fmul p st.2 x))
        (v, xi)).1 : Nat) : ZMod p) =
      (v : ZMod p) + (xi : ZMod p) * (toP p l).eval (x : ZMod p) := by
  intro l
  induction l with
  | nil => intro v xi; simp [toP]
  | cons c t ih =>
    intro v xi
    simp only [List.foldl_cons]
    rw [ih]
    rw [fadd_cast, fmul_cast, fmul_cast, toP]
    simp only [Polynomial.eval_add, Polynomial.eval_mul, Polynomial.eval_C,
      Polynomial.eval_X]
    ring

/-- `Polynomial::evaluate` computes polynomial evaluation in `ZMod p`. -/
lemma peval_cast (p : Nat) (l : List Nat) (x : Nat) :
    ((peval p l x : Nat) : ZMod p) = (toP p l).eval (x : ZMod p) := by
  rw [peval, peval_fold]
  simp

lemma peval_fold_lt (p x : Nat) (hp : 0 < p) : ∀ (l : List Nat) (v xi : Nat),
    v < p →
    ((l.foldl (fun st c => (fadd p st.1 (fmul p c st.2), fmul p st.2 x))
        (v, xi)).1 : Nat) < p := by
  intro l
  induction l with
  | nil => intro v xi hv; exact hv
  | cons c t ih =>
    intro v xi hv
    simp only [List.foldl_cons]
    exact ih _ _ (fadd_lt p _ _ hp)

lemma peval_lt (p : Nat) (l : List Nat) (x : Nat) (hp : 0 < p) :
    peval p l x < p := peval_fold_lt p x hp l 0 1 hp

lemma range_map_getD (m n : Nat) (f : Nat → Nat) :
    ((List.range m).map f).getD n 0 = if n < m then f n else 0 := by
  rw [List.getD_eq_getElem?_getD, List.getElem?_map]
  rcases Nat.lt_or_ge n m with h | h
  · rw [List.getElem?_range h]
    simp [h]
  · rw [List.getElem?_eq_none (by simpa using h)]
    simp [Nat.not_lt.mpr h]

/-- `Add for Polynomial` adds in the polynomial ring. -/
lemma padd_cast (p : Nat) (a b : List Nat) :
    toP p (padd p a b) = toP p a + toP p b := by
  rw [padd]
  by_cases hda : pdegree a = -1
  · rw [if_pos hda, toP_zero_of_all_zero p a ((pdegree_neg_one_iff a).mp hda)]
    simp
  rw [if_neg hda]
  by_cases hdb : pdegree b = -1
  · rw [if_pos hdb, toP_zero_of_all_zero p b ((pdegree_neg_one_iff b).mp hdb)]
    simp
  rw [if_neg hdb]
  apply Polynomial.ext
  intro n
  rw [toP_coeff, Polynomial.coeff_add, toP_coeff, toP_coeff, range_map_getD]
  by_cases hn : n < max a.length b.length
  · rw [if_pos hn, fadd_cast, fadd_cast]
    simp
  · rw [if_neg hn]
    rw [List.getD_eq_getElem?_getD, List.getElem?_eq_none (by omega),
      List.getD_eq_getElem?_getD (l := b), List.getElem?_eq_none (by omega)]
    simp

lemma padd_canon (p : Nat) (a b : List Nat) (hp : 0 < p)
    (ha : ∀ x ∈ a, x < p) (hb : ∀ x ∈ b, x < p) :
    ∀ x ∈ padd p a b, x < p := by
  intro x hx
  rw [padd] at hx
  by_cases hda : pdegree a = -1
  · rw [if_pos hda] at hx
    exact hb x hx
  rw [if_neg hda] at hx
  by_cases hdb : pdegree b = -1
  · rw [if_pos hdb] at hx
    exact ha x hx
  rw [if_neg hdb] at hx
  obtain ⟨i, _, rfl⟩ := List.mem_map.mp hx
  exact fadd_lt p _ _ hp

lemma pneg_cast (p : Nat) (a : List Nat) (ha : ∀ x ∈ a, x < p) :
    toP p (pneg p a) = -toP p a := by
  apply Polynomial.ext
  intro n
  rw [toP_coeff, Polynomial.coeff_neg, toP_coeff, pneg]
  rcases Nat.lt_or_ge n a.length with hn | hn
  · have h1 : (a.map (fneg p)).getD n 0 = fneg p a[n] := by
      rw [List.getD_eq_getElem?_getD, List.getElem?_map, List.getElem?_eq_getElem hn]
      rfl
    have h2 : a.getD n 0 = a[n] := List.getD_eq_getElem a 0 hn
    rw [h1, h2, fneg_cast p _ (le_of_lt (ha _ (List.getElem_mem hn)))]
  · have h1 : (a.map (fneg p)).getD n 0 = 0 := by
      rw [List.getD_eq_getElem?_getD, List.getElem?_eq_none (by simpa using hn)]
      rfl
    have h2 : a.getD n 0 = 0 := by
      rw [List.getD_eq_getElem?_getD, List.getElem?_eq_none (by omega)]
      rfl
    rw [h1, h2]
    simp

lemma pneg_canon (p : Nat) (a : List Nat) (hp : 0 < p) :
    ∀ x ∈ pneg p a, x < p := by
  intro x hx
  obtain ⟨y, _, rfl⟩ := List.mem_map.mp hx
  exact fneg_lt p y hp

/-- `Sub for Polynomial` subtracts in the polynomial ring. -/
lemma psub_cast (p : Nat) (a b : List Nat) (hb : ∀ x ∈ b, x < p) :
    toP p (psub p a b) = toP p a - toP p b := by
  rw [psub, padd_cast, pneg_cast p b hb]
  ring

lemma psub_canon (p : Nat) (a b : List Nat) (hp : 0 < p)
    (ha : ∀ x ∈ a, x < p) :
    ∀ x ∈ psub p a b, x < p :=
  padd_canon p a (pneg p b) hp ha (pneg_canon p b hp)

lemma cast_ne_zero_of_canon (p x : Nat) (hp : 1 < p) (hx : x < p) (hnz : x ≠ 0) :
    (x : ZMod p) ≠ 0 := by
  intro hc
  have := (ZMod.natCast_zmod_eq_zero_iff_dvd x p).mp hc
  have := Nat.le_of_dvd (by omega) this
  omega

lemma toP_degree_le (p : Nat) (l : List Nat) (d : Nat)
    (h : ∀ j, d < j → j < l.length → l.getD j 0 = 0) :
    (toP p l).degree ≤ (d : WithBot Nat) := by
  rw [Polynomial.degree_le_iff_coeff_zero]
  intro m hm
  have hdm : d < m := by exact_mod_cast hm
  rw [toP_coeff]
  rcases Nat.lt_or_ge m l.length with hml | hml
  · rw [h m hdm hml]
    simp
  · rw [List.getD_eq_getElem?_getD, List.getElem?_eq_none (by omega)]
    simp

/-- For canonical coefficient lists, `Polynomial::degree` computes the true
degree of the represented polynomial. -/
lemma toP_degree (p : Nat) (hp : 1 < p) (l : List Nat)
    (hl : ∀ x ∈ l, x < p) (h : pdegree l ≠ -1) :
    (toP p l).degree = ((pdegree l).toNat : WithBot Nat) := by
  obtain ⟨hd0, hdl, hnz, habove⟩ := pdegree_spec l h
  apply Polynomial.degree_eq_of_le_of_coeff_ne_zero
  · exact toP_degree_le p l _ habove
  · rw [toP_coeff]
    apply cast_ne_zero_of_canon p _ hp _ hnz
    have : l.getD (pdegree l).toNat 0 = l[(pdegree l).toNat] :=
      List.getD_eq_getElem l 0 hdl
    rw [this]
    exact hl _ (List.getElem_mem hdl)

lemma toP_eq_zero_iff (p : Nat) (hp : 1 < p) (l : List Nat)
    (hl : ∀ x ∈ l, x < p) : toP p l = 0 ↔ pdegree l = -1 := by
  constructor
  · intro hz
    by_contra h
    have hd := toP_degree p hp l hl h
    rw [hz] at hd
    simp at hd
  · intro h
    exact toP_zero_of_all_zero p l ((pdegree_neg_one_iff l).mp h)

lemma toP_natDegree (p : Nat) (hp : 1 < p) (l : List Nat)
    (hl : ∀ x ∈ l, x < p) (h : pdegree l ≠ -1) :
    (toP p l).natDegree = (pdegree l).toNat :=
  Polynomial.natDegree_eq_of_degree_eq_some (toP_degree p hp l hl h)

lemma getD_set_cast (p : Nat) (l : List Nat) (k n v : Nat) (hk : k < l.length) :
    (l.set k v).getD n 0 = if k = n then v else l.getD n 0 := by
  rw [List.getD_eq_getElem?_getD, List.getElem?_set]
  by_cases h : k = n
  · rw [if_pos h, if_pos h, if_pos hk]
    rfl
  · rw [if_neg h, if_neg h]
    exact (List.getD_eq_getElem?_getD l n 0).symm

lemma pmul_inner (p i ai : Nat) :
    ∀ (t : List Nat) (j0 : Nat) (acc : List Nat),
      i + j0 + t.length ≤ acc.length →
      ((t.enumFrom j0).foldl
          (fun acc2 je => acc2.set (i + je.1)
            (fadd p (acc2.getD (i + je.1) 0) (fmul p ai je.2))) acc).length =
        acc.length ∧
      ∀ n, ((((t.enumFrom j0).foldl
          (fun acc2 je => acc2.set (i + je.1)
            (fadd p (acc2.getD (i + je.1) 0) (fmul p ai je.2))) acc).getD n 0 :
            Nat) : ZMod p) =
        ((acc.getD n 0 : Nat) : ZMod p) +
          (if i + j0 ≤ n ∧ n < i + j0 + t.length then
            (ai : ZMod p) * ((t.getD (n - i - j0) 0 : Nat) : ZMod p) else 0) := by
  intro t
  induction t with
  | nil =>
    intro j0 acc hlen
    refine ⟨rfl, fun n => ?_⟩
    simp only [List.length_nil]
    rw [if_neg (by omega)]
    simp [List.enumFrom]
  | cons c t ih =>
    intro j0 acc hlen
    have hpos : i + j0 < acc.length := by
      simp only [List.length_cons] at hlen
      omega
    simp only [List.enumFrom, List.foldl_cons]
    obtain ⟨ihlen, ihval⟩ := ih (j0 + 1)
      (acc.set (i + j0) (fadd p (acc.getD (i + j0) 0) (fmul p ai c)))
      (by simp only [List.length_set, List.length_cons] at hlen ⊢; omega)
    refine ⟨by rw [ihlen, List.length_set], fun n => ?_⟩
    rw [ihval n, getD_set_cast p acc (i + j0) n _ hpos]
    simp only [List.length_cons]
    split_ifs with h1 h2 h3 h4 h5 h6 <;> try (exfalso; omega)
    · rw [show n - i - j0 = 0 by omega]
      simp only [List.getD_cons_zero]
      rw [fadd_cast, fmul_cast, h1]
      ring
    · rw [show n - i - j0 = (n - i - (j0 + 1)) + 1 by omega]
      simp only [List.getD_cons_succ]
    · rfl

lemma pmul_outer (p : Nat) (b : List Nat) :
    ∀ (t : List Nat) (i0 : Nat) (acc : List Nat),
      i0 + t.length + b.length ≤ acc.length + 1 →
      ((t.enumFrom i0).foldl
          (fun acc2 ie => if ie.2 ≠ 0 then
            b.enum.foldl
              (fun acc3 je => acc3.set (ie.1 + je.1)
                (fadd p (acc3.getD (ie.1 + je.1) 0) (fmul p ie.2 je.2))) acc2
          else acc2) acc).length = acc.length ∧
      ∀ n, ((((t.enumFrom i0).foldl
          (fun acc2 ie => if ie.2 ≠ 0 then
            b.enum.foldl
              (fun acc3 je => acc3.set (ie.1 + je.1)
                (fadd p (acc3.getD (ie.1 + je.1) 0) (fmul p ie.2 je.2))) acc2
          else acc2) acc).getD n 0 : Nat) : ZMod p) =
        ((acc.getD n 0 : Nat) : ZMod p) +
          ∑ i ∈ Finset.Ico i0 (i0 + t.length),
            (if i ≤ n ∧ n < i + b.length then
              ((t.getD (i - i0) 0 : Nat) : ZMod p) *
                ((b.getD (n - i) 0 : Nat) : ZMod p) else 0) := by
  intro t
  induction t with
  | nil =>
    intro i0 acc hlen
    refine ⟨rfl, fun n => ?_⟩
    simp [List.enumFrom]
  | cons c t ih =>
    intro i0 acc hlen
    simp only [List.enumFrom, List.foldl_cons]
    by_cases hc : c ≠ 0
    · have hb : i0 + 0 + b.length ≤ acc.length := by
        simp only [List.length_cons] at hlen
        omega
      obtain ⟨ilen, ival⟩ := pmul_inner p i0 c b 0 acc hb
      have hbound : i0 + 1 + t.length + b.length ≤
          (b.enum.foldl
            (fun acc3 je => acc3.set (i0 + je.1)
              (fadd p (acc3.getD (i0 + je.1) 0) (fmul p c je.2))) acc).length + 1 := by
        rw [show b.enum = b.enumFrom 0 from rfl, ilen]
        simp only [List.length_cons] at hlen
        omega
      obtain ⟨olen, oval⟩ := ih (i0 + 1) _ hbound
      constructor
      · simp only [if_pos hc] at *
        rw [olen, show b.enum = b.enumFrom 0 from rfl, ilen]
      · intro n
        simp only [if_pos hc] at *
        rw [oval n, show b.enum = b.enumFrom 0 from rfl, ival n]
        simp only [List.length_cons]
        rw [show i0 + (t.length + 1) = i0 + 1 + t.length by omega]
        rw [Finset.sum_eq_sum_Ico_succ_bot (show i0 < i0 + 1 + t.length by omega)]
        rw [show i0 - i0 = 0 by omega]
        simp only [List.getD_cons_zero, Nat.add_zero, Nat.sub_zero]
        have hcong : ∑ i ∈ Finset.Ico (i0 + 1) (i0 + 1 + t.length),
            (if i ≤ n ∧ n < i + b.length then
              (((c :: t).getD (i - i0) 0 : Nat) : ZMod p) *
                ((b.getD (n - i) 0 : Nat) : ZMod p) else 0) =
            ∑ i ∈ Finset.Ico (i0 + 1) (i0 + 1 + t.length),
            (if i ≤ n ∧ n < i + b.length then
              ((t.getD (i - (i0 + 1)) 0 : Nat) : ZMod p) *
                ((b.getD (n - i) 0 : Nat) : ZMod p) else 0) := by
          apply Finset.sum_congr rfl
          intro i hi
          simp only [Finset.mem_Ico] at hi
          rw [show i - i0 = (i - (i0 + 1)) + 1 by omega]
          simp only [List.getD_cons_succ]
        rw [hcong]
        ring
    · have hc0 : c = 0 := by omega
      rw [if_neg hc]
      have hbound : i0 + 1 + t.length + b.length ≤ acc.length + 1 := by
        simp only [List.length_cons] at hlen
        omega
      obtain ⟨olen, oval⟩ := ih (i0 + 1) acc hbound
      refine ⟨olen, fun n => ?_⟩
      rw [oval n]
      simp only [List.length_cons]
      rw [show i0 + (t.length + 1) = i0 + 1 + t.length by omega]
      rw [Finset.sum_eq_sum_Ico_succ_bot (show i0 < i0 + 1 + t.length by omega)]
      rw [show i0 - i0 = 0 by omega]
      have hcong : ∑ i ∈ Finset.Ico (i0 + 1) (i0 + 1 + t.length),
          (if i ≤ n ∧ n < i + b.length then
            (((c :: t).getD (i - i0) 0 : Nat) : ZMod p) *
              ((b.getD (n - i) 0 : Nat) : ZMod p) else 0) =
          ∑ i ∈ Finset.Ico (i0 + 1) (i0 + 1 + t.length),
          (if i ≤ n ∧ n < i + b.length then
            ((t.getD (i - (i0 + 1)) 0 : Nat) : ZMod p) *
              ((b.getD (n - i) 0 : Nat) : ZMod p) else 0) := by
        apply Finset.sum_congr rfl
        intro i hi
        simp only [Finset.mem_Ico] at hi
        rw [show i - i0 = (i - (i0 + 1)) + 1 by omega]
        simp only [List.getD_cons_succ]
      rw [hcong]
      simp only [List.getD_cons_zero, hc0, Nat.cast_zero, zero_mul, ite_self]
      ring

lemma pmul_inner_canon (p i ai : Nat) (hp : 0 < p) :
    ∀ (l : List (Nat × Nat)) (acc : List Nat), (∀ x ∈ acc, x < p) →
      ∀ x ∈ l.foldl (fun acc2 je => acc2.set (i + je.1)
        (fadd p (acc2.getD (i + je.1) 0) (fmul p ai je.2))) acc, x < p := by
  intro l
  induction l with
  | nil => intro acc hacc; exact hacc
  | cons je l ih =>
    intro acc hacc
    simp only [List.foldl_cons]
    apply ih
    intro x hx
    rcases List.mem_or_eq_of_mem_set hx with h | h
    · exact hacc x h
    · rw [h]
      exact fadd_lt p _ _ hp

lemma pmul_outer_canon (p : Nat) (b : List Nat) (hp : 0 < p) :
    ∀ (l : List (Nat × Nat)) (acc : List Nat), (∀ x ∈ acc, x < p) →
      ∀ x ∈ l.foldl
        (fun acc2 ie => if ie.2 ≠ 0 then
          b.enum.foldl
            (fun acc3 je => acc3.set (ie.1 + je.1)
              (fadd p (acc3.getD (ie.1 + je.1) 0) (fmul p ie.2 je.2))) acc2
        else acc2) acc, x < p := by
  intro l
  induction l with
  | nil => intro acc hacc; exact hacc
  | cons ie l ih =>
    intro acc hacc
    simp only [List.foldl_cons]
    apply ih
    by_cases hc : ie.2 ≠ 0
    · rw [if_pos hc]
      exact pmul_inner_canon p ie.1 ie.2 hp b.enum acc hacc
    · rw [if_neg hc]
      exact hacc

lemma pmul_canon (p : Nat) (a b : List Nat) (hp : 0 < p) :
    ∀ x ∈ pmul p a b, x < p := by
  rw [pmul]
  split
  · simp
  · apply pmul_outer_canon p b hp
    intro x hx
    rw [List.eq_of_mem_replicate hx]
    exact hp

lemma pmul_length (p : Nat) (a b : List Nat)
    (ha : a.length ≠ 0) (hb : b.length ≠ 0) :
    (pmul p a b).length = a.length + b.length - 1 := by
  rw [pmul, if_neg (by push_neg; exact ⟨ha, hb⟩)]
  obtain ⟨hl, _⟩ := pmul_outer p b a 0
    (List.replicate (a.length + b.length - 1) 0)
    (by simp only [List.length_replicate]; omega)
  rw [show a.enum = a.enumFrom 0 from rfl, hl, List.length_replicate]

/-- `Mul for Polynomial` multiplies in the polynomial ring. -/
lemma pmul_cast (p : Nat) (a b : List Nat) :
    toP p (pmul p a b) = toP p a * toP p b := by
  rw [pmul]
  by_cases h0 : a.length = 0 ∨ b.length = 0
  · rw [if_pos h0]
    rcases h0 with h | h
    · rw [List.length_eq_zero] at h
      subst h
      rw [show toP p [] = 0 from rfl]
      simp
    · rw [List.length_eq_zero] at h
      subst h
      rw [show toP p [] = 0 from rfl]
      simp
  · rw [if_neg h0]
    push_neg at h0
    obtain ⟨ha, hb⟩ := h0
    obtain ⟨_, hval⟩ := pmul_outer p b a 0
      (List.replicate (a.length + b.length - 1) 0)
      (by simp only [List.length_replicate]; omega)
    apply Polynomial.ext
    intro n
    rw [toP_coeff, Polynomial.coeff_mul,
      Finset.Nat.sum_antidiagonal_eq_sum_range_succ_mk]
    simp only [toP_coeff]
    rw [show a.enum = a.enumFrom 0 from rfl, hval n]
    have hrep : ((List.replicate (a.length + b.length - 1) 0).getD n 0) = 0 := by
      rcases Nat.lt_or_ge n (a.length + b.length - 1) with h | h
      · rw [List.getD_eq_getElem?_getD, List.getElem?_replicate, if_pos h]
        rfl
      · rw [List.getD_eq_getElem?_getD,
          List.getElem?_eq_none (by simp only [List.length_replicate]; omega)]
        rfl
    rw [hrep]
    simp only [Nat.cast_zero, zero_add, Nat.zero_add, Nat.sub_zero]
    have hBz : ∀ m, b.length ≤ m → ((b.getD m 0 : Nat) : ZMod p) = 0 := by
      intro m hm
      rw [List.getD_eq_getElem?_getD, List.getElem?_eq_none (by omega)]
      simp
    have hAz : ∀ m, a.length ≤ m → ((a.getD m 0 : Nat) : ZMod p) = 0 := by
      intro m hm
      rw [List.getD_eq_getElem?_getD, List.getElem?_eq_none (by omega)]
      simp
    have hstep1 : ∑ i ∈ Finset.Ico 0 a.length,
        (if i ≤ n ∧ n < i + b.length then
          ((a.getD i 0 : Nat) : ZMod p) * ((b.getD (n - i) 0 : Nat) : ZMod p)
        else 0) =
        ∑ i ∈ Finset.Ico 0 a.length,
        (if i ≤ n then
          ((a.getD i 0 : Nat) : ZMod p) * ((b.getD (n - i) 0 : Nat) : ZMod p)
        else 0) := by
      apply Finset.sum_congr rfl
      intro i hi
      by_cases hin : i ≤ n
      · by_cases hlt : n < i + b.length
        · rw [if_pos ⟨hin, hlt⟩, if_pos hin]
        · rw [if_neg (by tauto), if_pos hin, hBz (n - i) (by omega), mul_zero]
      · rw [if_neg (by tauto), if_neg hin]
    have hstep2 : ∑ i ∈ Finset.Ico 0 a.length,
        (if i ≤ n then
          ((a.getD i 0 : Nat) : ZMod p) * ((b.getD (n - i) 0 : Nat) : ZMod p)
        else 0) =
        ∑ i ∈ Finset.Ico 0 (a.length + n + 1),
        (if i ≤ n then
          ((a.getD i 0 : Nat) : ZMod p) * ((b.getD (n - i) 0 : Nat) : ZMod p)
        else 0) := by
      apply Finset.sum_subset (Finset.Ico_subset_Ico (by omega) (by omega))
      intro i hi hni
      simp only [Finset.mem_Ico] at hi hni
      have hia : a.length ≤ i := by omega
      by_cases hin : i ≤ n
      · rw [if_pos hin, hAz i hia, zero_mul]
      · rw [if_neg hin]
    have hstep3 : ∑ k ∈ Finset.range (n + 1),
        ((a.getD k 0 : Nat) : ZMod p) * ((b.getD (n - k) 0 : Nat) : ZMod p) =
        ∑ i ∈ Finset.Ico 0 (a.length + n + 1),
        (if i ≤ n then
          ((a.getD i 0 : Nat) : ZMod p) * ((b.getD (n - i) 0 : Nat) : ZMod p)
        else 0) := by
      rw [Finset.range_eq_Ico]
      have hc : ∀ k ∈ Finset.Ico 0 (n + 1),
          ((a.getD k 0 : Nat) : ZMod p) * ((b.getD (n - k) 0 : Nat) : ZMod p) =
          (if k ≤ n then
            ((a.getD k 0 : Nat) : ZMod p) * ((b.getD (n - k) 0 : Nat) : ZMod p)
          else 0) := by
        intro k hk
        simp only [Finset.mem_Ico] at hk
        rw [if_pos (by omega)]
      rw [Finset.sum_congr rfl hc]
      apply Finset.sum_subset (Finset.Ico_subset_Ico (by omega) (by omega))
      intro i hi hni
      simp only [Finset.mem_Ico] at hi hni
      rw [if_neg (by omega)]
    rw [hstep1, hstep2, hstep3]

/-- The inner Lagrange product step of `interpolate_domain`
(src/polynomial.rs lines 99–108), abbreviated for the proofs. -/
def lagrangeStep (p : Nat) (domain : List Nat) (i : Nat) :
    List Nat → Nat → List Nat :=
  fun prod j => if j = i then prod
    else pmul p (pmul p prod (psub p [0, 1] [domain.getD j 0]))
      [finv p (fsub p (domain.getD i 0) (domain.getD j 0))]

lemma toP_singleton (p y : Nat) : toP p [y] = Polynomial.C ((y : Nat) : ZMod p) := by
  rw [toP, toP]
  simp

lemma toP_X_sub (p c : Nat) (hc : c < p) :
    toP p (psub p [0, 1] [c]) = Polynomial.X - Polynomial.C ((c : Nat) : ZMod p) := by
  rw [psub_cast p _ _ (by
    intro x hx
    rw [List.mem_singleton.mp hx]
    exact hc)]
  rw [toP_singleton]
  congr 1
  rw [toP, toP, toP]
  simp

lemma interp_inner (p : Nat) [hp : Fact p.Prime] (domain values : List Nat)
    (hdom : ∀ x ∈ domain, x < p) (i : Nat)
    (hvi : values.getD i 0 < p) :
    ∀ j0, j0 ≤ domain.length →
      toP p ((List.range j0).foldl (lagrangeStep p domain i)
          [values.getD i 0]) =
        Polynomial.C ((values.getD i 0 : Nat) : ZMod p) *
          ∏ j ∈ (Finset.range j0).erase i,
            ((Polynomial.X - Polynomial.C ((domain.getD j 0 : Nat) : ZMod p)) *
              Polynomial.C ((((domain.getD i 0 : Nat) : ZMod p) -
                ((domain.getD j 0 : Nat) : ZMod p))⁻¹)) ∧
      (∀ x ∈ (List.range j0).foldl (lagrangeStep p domain i)
          [values.getD i 0], x < p) := by
  have hp1 : 1 < p := hp.out.one_lt
  intro j0
  induction j0 with
  | zero =>
    intro _
    refine ⟨?_, ?_⟩
    · simp [toP_singleton]
    · intro x hx
      rw [List.mem_singleton.mp hx]
      exact hvi
  | succ j0 ih =>
    intro hj0
    obtain ⟨ihval, ihcanon⟩ := ih (by omega)
    rw [List.range_succ, List.foldl_append, List.foldl_cons, List.foldl_nil]
    by_cases hji : j0 = i
    · rw [show lagrangeStep p domain i
          ((List.range j0).foldl (lagrangeStep p domain i)
            [values.getD i 0]) j0 =
          (List.range j0).foldl (lagrangeStep p domain i)
            [values.getD i 0] from by rw [lagrangeStep, if_pos hji]]
      refine ⟨?_, ihcanon⟩
      rw [ihval]
      congr 1
      rw [Finset.range_succ, hji, Finset.erase_insert (by simp)]
      rw [show (Finset.range i).erase i = Finset.range i from
        Finset.erase_eq_of_not_mem (by simp)]
    · rw [show lagrangeStep p domain i
          ((List.range j0).foldl (lagrangeStep p domain i)
            [values.getD i 0]) j0 =
          pmul p (pmul p ((List.range j0).foldl (lagrangeStep p domain i)
            [values.getD i 0]) (psub p [0, 1] [domain.getD j0 0]))
            [finv p (fsub p (domain.getD i 0) (domain.getD j0 0))] from
          by rw [lagrangeStep, if_neg hji]]
      constructor
      · rw [pmul_cast, pmul_cast, ihval,
          toP_X_sub p _ (by
            rcases Nat.lt_or_ge j0 domain.length with h | h
            · rw [List.getD_eq_getElem domain 0 h]
              exact hdom _ (List.getElem_mem h)
            · rw [List.getD_eq_getElem?_getD, List.getElem?_eq_none (by omega)]
              omega),
          toP_singleton]
        rw [finv_cast p _ (fsub_lt p _ _ (by omega)),
          fsub_cast p _ _ (by
            rcases Nat.lt_or_ge j0 domain.length with h | h
            · rw [List.getD_eq_getElem domain 0 h]
              exact le_of_lt (hdom _ (List.getElem_mem h))
            · rw [List.getD_eq_getElem?_getD, List.getElem?_eq_none (by omega)]
              omega)]
        rw [Finset.range_succ, Finset.erase_insert_of_ne hji,
          Finset.prod_insert (by simp)]
        ring
      · apply pmul_canon p _ _ (by omega)
lemma getD_canon (p : Nat) (l : List Nat) (h : ∀ x ∈ l, x < p)
    (hp : 0 < p) (n : Nat) : l.getD n 0 < p := by
  rcases Nat.lt_or_ge n l.length with hn | hn
  · rw [List.getD_eq_getElem l 0 hn]
    exact h _ (List.getElem_mem hn)
  · rw [List.getD_eq_getElem?_getD, List.getElem?_eq_none (by omega)]
    exact hp

lemma cast_inj_of_canon (p x y : Nat) (hp : 1 < p) (hx : x < p) (hy : y < p)
    (h : (x : ZMod p) = y) : x = y := by
  have : NeZero p := ⟨by omega⟩
  rw [← ZMod.val_cast_of_lt hx, ← ZMod.val_cast_of_lt hy, h]

lemma interp_outer (p : Nat) [hp : Fact p.Prime] (domain values : List Nat)
    (hdom : ∀ x ∈ domain, x < p) (hvals : ∀ x ∈ values, x < p) :
    ∀ i0, i0 ≤ domain.length →
      toP p ((List.range i0).foldl
        (fun acc i => padd p acc
          ((List.range domain.length).foldl (lagrangeStep p domain i)
            [values.getD i 0])) []) =
        ∑ i ∈ Finset.range i0,
          Polynomial.C ((values.getD i 0 : Nat) : ZMod p) *
            ∏ j ∈ (Finset.range domain.length).erase i,
              ((Polynomial.X -
                Polynomial.C ((domain.getD j 0 : Nat) : ZMod p)) *
                Polynomial.C ((((domain.getD i 0 : Nat) : ZMod p) -
                  ((domain.getD j 0 : Nat) : ZMod p))⁻¹)) ∧
      (∀ x ∈ (List.range i0).foldl
        (fun acc i => padd p acc
          ((List.range domain.length).foldl (lagrangeStep p domain i)
            [values.getD i 0])) [], x < p) := by
  have hp1 : 1 < p := hp.out.one_lt
  intro i0
  induction i0 with
  | zero =>
    intro _
    exact ⟨by simp [toP], by simp⟩
  | succ i0 ih =>
    intro hi0
    obtain ⟨ihval, ihcanon⟩ := ih (by omega)
    obtain ⟨tval, tcanon⟩ := interp_inner p domain values hdom i0
      (getD_canon p values hvals (by omega) i0)
      domain.length (le_refl _)
    rw [List.range_succ, List.foldl_append, List.foldl_cons, List.foldl_nil]
    constructor
    · rw [padd_cast, ihval, tval, Finset.sum_range_succ]
    · exact padd_canon p _ _ (by omega) ihcanon tcanon

/-- Characterisation of `Polynomial::interpolate_domain`: it succeeds on
equal-length non-empty inputs and returns the canonical Lagrange
interpolant. -/
lemma interpolate_domain_eq (p : Nat) [hp : Fact p.Prime]
    (domain values : List Nat)
    (hlen : domain.length = values.length) (hn : domain.length ≠ 0)
    (hdom : ∀ x ∈ domain, x < p) (hvals : ∀ x ∈ values, x < p) :
    ∃ L, interpolate_domain p domain values = some L ∧
      (∀ x ∈ L, x < p) ∧
      toP p L =
        ∑ i ∈ Finset.range domain.length,
          Polynomial.C ((values.getD i 0 : Nat) : ZMod p) *
            ∏ j ∈ (Finset.range domain.length).erase i,
              ((Polynomial.X -
                Polynomial.C ((domain.getD j 0 : Nat) : ZMod p)) *
                Polynomial.C ((((domain.getD i 0 : Nat) : ZMod p) -
                  ((domain.getD j 0 : Nat) : ZMod p))⁻¹)) := by
  obtain ⟨hval, hcanon⟩ :=
    interp_outer p domain values hdom hvals domain.length (le_refl _)
  refine ⟨_, ?_, hcanon, hval⟩
  rw [interpolate_domain, if_neg (by omega)]
  rfl

/-- The Lagrange interpolant hits the prescribed values on a domain of
pairwise distinct canonical points. -/
lemma interpolate_eval (p : Nat) [hp : Fact p.Prime]
    (domain values L : List Nat)
    (hdom : ∀ x ∈ domain, x < p)
    (hdist : ∀ i j, i < domain.length → j < domain.length → i ≠ j →
      domain.getD i 0 ≠ domain.getD j 0)
    (hL : toP p L =
        ∑ i ∈ Finset.range domain.length,
          Polynomial.C ((values.getD i 0 : Nat) : ZMod p) *
            ∏ j ∈ (Finset.range domain.length).erase i,
              ((Polynomial.X -
                Polynomial.C ((domain.getD j 0 : Nat) : ZMod p)) *
                Polynomial.C ((((domain.getD i 0 : Nat) : ZMod p) -
                  ((domain.getD j 0 : Nat) : ZMod p))⁻¹)))
    (m : Nat) (hm : m < domain.length) :
    (toP p L).eval ((domain.getD m 0 : Nat) : ZMod p) =
      ((values.getD m 0 : Nat) : ZMod p) := by
  have hp1 : 1 < p := hp.out.one_lt
  rw [hL, Polynomial.eval_finset_sum]
  rw [Finset.sum_eq_single_of_mem m (Finset.mem_range.mpr hm) ?_]
  · rw [Polynomial.eval_mul, Polynomial.eval_C, Polynomial.eval_prod]
    rw [Finset.prod_congr rfl (fun j hj => ?_), Finset.prod_const_one, mul_one]
    simp only [Finset.mem_erase, Finset.mem_range] at hj
    rw [Polynomial.eval_mul, Polynomial.eval_sub, Polynomial.eval_X,
      Polynomial.eval_C, Polynomial.eval_C]
    apply mul_inv_cancel₀
    intro hc
    rw [sub_eq_zero] at hc
    exact hdist m j hm hj.2 (fun h => hj.1 h.symm)
      (cast_inj_of_canon p _ _ hp1 (getD_canon p domain hdom (by omega) m)
        (getD_canon p domain hdom (by omega) j) hc)
  · intro i hi hne
    rw [Polynomial.eval_mul, Polynomial.eval_prod]
    rw [Finset.prod_eq_zero (show m ∈ (Finset.range domain.length).erase i from
      Finset.mem_erase.mpr ⟨fun h => hne h.symm, Finset.mem_range.mpr hm⟩) ?_,
      mul_zero]
    rw [Polynomial.eval_mul, Polynomial.eval_sub, Polynomial.eval_X,
      Polynomial.eval_C]
    simp

/-- The Lagrange interpolant has degree at most `n - 1`. -/
lemma interpolate_natDegree (p : Nat) (domain values L : List Nat)
    (hL : toP p L =
        ∑ i ∈ Finset.range domain.length,
          Polynomial.C ((values.getD i 0 : Nat) : ZMod p) *
            ∏ j ∈ (Finset.range domain.length).erase i,
              ((Polynomial.X -
                Polynomial.C ((domain.getD j 0 : Nat) : ZMod p)) *
                Polynomial.C ((((domain.getD i 0 : Nat) : ZMod p) -
                  ((domain.getD j 0 : Nat) : ZMod p))⁻¹))) :
    (toP p L).natDegree ≤ domain.length - 1 := by
  rw [hL]
  apply Polynomial.natDegree_sum_le_of_forall_le
  intro i hi
  refine le_trans Polynomial.natDegree_mul_le ?_
  rw [Polynomial.natDegree_C, zero_add]
  refine le_trans (Polynomial.natDegree_prod_le _ _) ?_
  refine le_trans (Finset.sum_le_card_nsmul _ _ 1 (fun j hj => ?_)) ?_
  · refine le_trans Polynomial.natDegree_mul_le ?_
    rw [Polynomial.natDegree_C, Nat.add_zero]
    exact Polynomial.natDegree_X_sub_C_le _
  · rw [smul_eq_mul, mul_one,
      Finset.card_erase_of_mem (Finset.mem_range.mp hi |> Finset.mem_range.mpr),
      Finset.card_range]

/-- `Polynomial::test_colinearity` accepts points with pairwise-distinct
canonical x-coordinates that lie on a common affine line. -/
lemma test_colinearity_true (p : Nat) [hp : Fact p.Prime]
    (pts : List (Nat × Nat)) (hlen : 2 ≤ pts.length)
    (hxc : ∀ q ∈ pts, q.1 < p) (hyc : ∀ q ∈ pts, q.2 < p)
    (hnodup : (pts.map Prod.fst).Nodup)
    (u v : ZMod p)
    (hline : ∀ k, k < pts.length →
      (((pts.map Prod.snd).getD k 0 : Nat) : ZMod p) =
        u + v * (((pts.map Prod.fst).getD k 0 : Nat) : ZMod p)) :
    test_colinearity p pts = some true := by
  have hp1 : 1 < p := hp.out.one_lt
  have hxlen : (pts.map Prod.fst).length = pts.length := List.length_map _ _
  have hylen : (pts.map Prod.snd).length = pts.length := List.length_map _ _
  have hdomc : ∀ x ∈ pts.map Prod.fst, x < p := by
    intro x hx
    obtain ⟨q, hq, rfl⟩ := List.mem_map.mp hx
    exact hxc q hq
  have hvalc : ∀ x ∈ pts.map Prod.snd, x < p := by
    intro x hx
    obtain ⟨q, hq, rfl⟩ := List.mem_map.mp hx
    exact hyc q hq
  obtain ⟨L, hsome, hLc, hLform⟩ := interpolate_domain_eq p
    (pts.map Prod.fst) (pts.map Prod.snd) (by omega) (by omega) hdomc hvalc
  have hdist : ∀ i j, i < (pts.map Prod.fst).length →
      j < (pts.map Prod.fst).length → i ≠ j →
      (pts.map Prod.fst).getD i 0 ≠ (pts.map Prod.fst).getD j 0 := by
    intro i j hi hj hne hc
    rw [List.getD_eq_getElem _ 0 hi, List.getD_eq_getElem _ 0 hj] at hc
    exact hne ((List.Nodup.getElem_inj_iff hnodup).mp hc)
  -- the interpolant coincides with the line
  have hGz : toP p L = Polynomial.C u + Polynomial.C v * Polynomial.X := by
    have hcast_nodup : ((pts.map Prod.fst).map
        (fun x => ((x : Nat) : ZMod p))).Nodup := by
      apply List.Nodup.map_on ?_ hnodup
      intro x hx y hy hxy
      exact cast_inj_of_canon p x y hp1 (hdomc x hx) (hdomc y hy) hxy
    have hcard : ((pts.map Prod.fst).map
        (fun x => ((x : Nat) : ZMod p))).toFinset.card = pts.length := by
      rw [List.toFinset_card_of_nodup hcast_nodup, List.length_map, List.length_map]
    have hzero : ∀ z ∈ ((pts.map Prod.fst).map
        (fun x => ((x : Nat) : ZMod p))).toFinset,
        (toP p L - (Polynomial.C u + Polynomial.C v * Polynomial.X)).eval z = 0 := by
      intro z hz
      obtain ⟨x, hx, rfl⟩ := List.mem_map.mp (List.mem_toFinset.mp hz)
      obtain ⟨i, hi, rfl⟩ := List.mem_iff_getElem.mp hx
      rw [Polynomial.eval_sub]
      rw [← List.getD_eq_getElem (pts.map Prod.fst) 0 hi]
      rw [interpolate_eval p (pts.map Prod.fst) (pts.map Prod.snd) L
        hdomc hdist hLform i (by omega)]
      rw [hline i (by omega)]
      simp only [Polynomial.eval_add, Polynomial.eval_mul, Polynomial.eval_C,
        Polynomial.eval_X]
      ring
    have hdeg : (toP p L - (Polynomial.C u + Polynomial.C v * Polynomial.X)).natDegree <
        ((pts.map Prod.fst).map (fun x => ((x : Nat) : ZMod p))).toFinset.card := by
      rw [hcard]
      have h1 : (toP p L).natDegree ≤ pts.length - 1 := by
        have := interpolate_natDegree p (pts.map Prod.fst) (pts.map Prod.snd) L hLform
        omega
      have h2 : (Polynomial.C u + Polynomial.C v * Polynomial.X).natDegree ≤ 1 := by
        refine le_trans (Polynomial.natDegree_add_le _ _) ?_
        rw [Polynomial.natDegree_C]
        refine max_le (by omega) (le_trans Polynomial.natDegree_mul_le ?_)
        rw [Polynomial.natDegree_C, Polynomial.natDegree_X]
      have := Polynomial.natDegree_sub_le (toP p L)
        (Polynomial.C u + Polynomial.C v * Polynomial.X)
      have hmax : (toP p L).natDegree ⊔
          (Polynomial.C u + Polynomial.C v * Polynomial.X).natDegree ≤
          max (pts.length - 1) 1 := max_le_max h1 h2
      have : max (pts.length - 1) 1 < pts.length := by omega
      omega
    have := Polynomial.eq_zero_of_natDegree_lt_card_of_eval_eq_zero'
      (toP p L - (Polynomial.C u + Polynomial.C v * Polynomial.X)) _ hzero hdeg
    have := sub_eq_zero.mp this
    exact this
  have hpd : pdegree L ≤ 1 := by
    by_cases hz : pdegree L = -1
    · omega
    · have hdeg := toP_natDegree p hp1 L hLc hz
      rw [hGz] at hdeg
      have h2 : (Polynomial.C u + Polynomial.C v * Polynomial.X).natDegree ≤ 1 := by
        refine le_trans (Polynomial.natDegree_add_le _ _) ?_
        rw [Polynomial.natDegree_C]
        refine max_le (by omega) (le_trans Polynomial.natDegree_mul_le ?_)
        rw [Polynomial.natDegree_C, Polynomial.natDegree_X]
      have := (pdegree_spec L hz).1
      omega
  rw [test_colinearity, hsome]
  simp [hpd]

/-- `evaluate_domain` of the Lagrange interpolant returns the original
values. -/
lemma interpolate_pevalDomain (p : Nat) [hp : Fact p.Prime]
    (domain values L : List Nat)
    (hlen : domain.length = values.length)
    (hdom : ∀ x ∈ domain, x < p) (hvals : ∀ x ∈ values, x < p)
    (hdist : ∀ i j, i < domain.length → j < domain.length → i ≠ j →
      domain.getD i 0 ≠ domain.getD j 0)
    (hLform : toP p L =
        ∑ i ∈ Finset.range domain.length,
          Polynomial.C ((values.getD i 0 : Nat) : ZMod p) *
            ∏ j ∈ (Finset.range domain.length).erase i,
              ((Polynomial.X -
                Polynomial.C ((domain.getD j 0 : Nat) : ZMod p)) *
                Polynomial.C ((((domain.getD i 0 : Nat) : ZMod p) -
                  ((domain.getD j 0 : Nat) : ZMod p))⁻¹))) :
    pevalDomain p L domain = values := by
  have hp1 : 1 < p := hp.out.one_lt
  apply List.ext_getElem
  · rw [pevalDomain, List.length_map, hlen]
  · intro i h1 h2
    simp only [pevalDomain] at h1 ⊢
    rw [List.getElem_map]
    apply cast_inj_of_canon p _ _ hp1 (peval_lt p L _ (by omega))
      (hvals _ (List.getElem_mem h2))
    rw [peval_cast]
    rw [List.length_map] at h1
    rw [← List.getD_eq_getElem domain 0 h1,
      ← List.getD_eq_getElem values 0 h2]
    exact interpolate_eval p domain values L hdom hdist hLform i h1

lemma pdegree_le_of_natDegree_le (p : Nat) (hp1 : 1 < p) (L : List Nat)
    (hLc : ∀ x ∈ L, x < p) (d : Nat) (h : (toP p L).natDegree ≤ d) :
    pdegree L ≤ (d : Int) := by
  by_cases hz : pdegree L = -1
  · omega
  · have := toP_natDegree p hp1 L hLc hz
    have := (pdegree_spec L hz).1
    omega

lemma toP_replicate_append (p c : Nat) :
    ∀ k, toP p (List.replicate k 0 ++ [c]) =
      Polynomial.C ((c : Nat) : ZMod p) * Polynomial.X ^ k := by
  intro k
  induction k with
  | zero => simp [toP_singleton]
  | succ k ih =>
    rw [List.replicate_succ, List.cons_append, toP, ih]
    rw [Nat.cast_zero, Polynomial.C_0]
    ring

lemma toP_set (p : Nat) (l : List Nat) (s c : Nat) (hs : s < l.length)
    (hz : l.getD s 0 = 0) :
    toP p (l.set s c) =
      toP p l + Polynomial.C ((c : Nat) : ZMod p) * Polynomial.X ^ s := by
  apply Polynomial.ext
  intro n
  rw [toP_coeff, Polynomial.coeff_add, toP_coeff, getD_set_cast p l s n c hs]
  rw [Polynomial.coeff_C_mul, Polynomial.coeff_X_pow]
  by_cases h : s = n
  · rw [if_pos h, if_pos h.symm, ← h, hz]
    simp
  · rw [if_neg h, if_neg (fun hc => h hc.symm)]
    simp

lemma pdegree_lt_of_degree_lt (p : Nat) (hp1 : 1 < p) (l : List Nat)
    (hl : ∀ x ∈ l, x < p) (d : Nat)
    (h : (toP p l).degree < (d : WithBot Nat)) : pdegree l < (d : Int) := by
  by_cases hz : pdegree l = -1
  · omega
  · have hdeg := toP_degree p hp1 l hl hz
    rw [hdeg] at h
    have hlt : (pdegree l).toNat < d := by exact_mod_cast h
    have := (pdegree_spec l hz).1
    omega

lemma pdegree_toNat_cast (l : List Nat) (h : pdegree l ≠ -1) :
    ((pdegree l).toNat : Int) = pdegree l := by
  have := (pdegree_spec l h).1
  omega

set_option maxHeartbeats 1000000 in
/-- The long-division loop of `divide`: with enough fuel it terminates with a
correct quotient/remainder pair for the accumulated state. -/
lemma divideLoop_spec (p : Nat) [hp : Fact p.Prime] (den : List Nat)
    (hdenc : ∀ x ∈ den, x < p) (hden : pdegree den ≠ -1) :
    ∀ (fuel : Nat) (qc rem : List Nat),
      (∀ x ∈ rem, x < p) →
      (∀ x ∈ qc, x < p) →
      pdegree rem - pdegree den < (fuel : Int) →
      (∀ j : Nat, (j : Int) ≤ pdegree rem - pdegree den → qc.getD j 0 = 0) →
      ((pdegree rem - pdegree den).toNat < qc.length ∨
        pdegree rem < pdegree den) →
      ∃ q r, divideLoop p den fuel qc rem = some (q, r) ∧
        (∀ x ∈ r, x < p) ∧ (∀ x ∈ q, x < p) ∧ q.length = qc.length ∧
        toP p q * toP p den + toP p r =
          toP p qc * toP p den + toP p rem ∧
        pdegree r < pdegree den := by
  have hp1 : 1 < p := hp.out.one_lt
  intro fuel
  induction fuel with
  | zero =>
    intro qc rem hremc hqcc hfuel hzero hlen
    exact ⟨qc, rem, rfl, hremc, hqcc, rfl, rfl, by omega⟩
  | succ fuel ih =>
    intro qc rem hremc hqcc hfuel hzero hlen
    simp only [divideLoop]
    by_cases hbr : pdegree rem < pdegree den
    · rw [if_pos hbr]
      exact ⟨qc, rem, rfl, hremc, hqcc, rfl, rfl, hbr⟩
    · rw [if_neg hbr]
      push_neg at hbr
      have hremne : pdegree rem ≠ -1 := by
        have := (pdegree_spec den hden).1
        omega
      have hplcD : pleadingCoeff den ≠ 0 := pleadingCoeff_ne_zero den hden
      have hplcDlt : pleadingCoeff den < p :=
        getD_canon p den hdenc (by omega) _
      have hplcR : pleadingCoeff rem ≠ 0 := pleadingCoeff_ne_zero rem hremne
      have hplcRlt : pleadingCoeff rem < p :=
        getD_canon p rem hremc (by omega) _
      -- the exact division of leading coefficients
      have hdivsome := fdiv_cast p (pleadingCoeff rem) (pleadingCoeff den)
        hplcDlt (by omega)
      obtain ⟨c, hc⟩ : ∃ c, fdiv p (pleadingCoeff rem) (pleadingCoeff den) =
          some c := by
        cases hfd : fdiv p (pleadingCoeff rem) (pleadingCoeff den) with
        | none => rw [hfd] at hdivsome; simp at hdivsome
        | some c => exact ⟨c, rfl⟩
      have hccast : ((c : Nat) : ZMod p) =
          ((pleadingCoeff rem : Nat) : ZMod p) /
            ((pleadingCoeff den : Nat) : ZMod p) := by
        rw [hc] at hdivsome
        simpa using hdivsome
      have hclt : c < p := fdiv_lt p _ _ c (by omega) hc
      have hcne : ((c : Nat) : ZMod p) ≠ 0 := by
        rw [hccast]
        apply div_ne_zero
        · exact cast_ne_zero_of_canon p _ hp1 hplcRlt hplcR
        · exact cast_ne_zero_of_canon p _ hp1 hplcDlt hplcD
      rw [hc]
      simp only [Option.bind_eq_bind, Option.some_bind]
      set s := (pdegree rem - pdegree den).toNat with hs
      have hsle : (s : Int) = pdegree rem - pdegree den := by
        have := (pdegree_spec den hden).1
        omega
      -- degrees and leading coefficients at the polynomial level
      have hDne : toP p den ≠ 0 := by
        rw [Ne, toP_eq_zero_iff p hp1 den hdenc]
        exact hden
      have hRne : toP p rem ≠ 0 := by
        rw [Ne, toP_eq_zero_iff p hp1 rem hremc]
        exact hremne
      have hsub_cast : toP p (pmul p (List.replicate s 0 ++ [c]) den) =
          Polynomial.C ((c : Nat) : ZMod p) * Polynomial.X ^ s * toP p den := by
        rw [pmul_cast, toP_replicate_append]
      have hlcR : (toP p rem).leadingCoeff =
          ((pleadingCoeff rem : Nat) : ZMod p) := by
        rw [Polynomial.leadingCoeff, toP_natDegree p hp1 rem hremc hremne,
          toP_coeff]
        rfl
      have hlcD : (toP p den).leadingCoeff =
          ((pleadingCoeff den : Nat) : ZMod p) := by
        rw [Polynomial.leadingCoeff, toP_natDegree p hp1 den hdenc hden,
          toP_coeff]
        rfl
      have hdegeq : (toP p rem).degree =
          (Polynomial.C ((c : Nat) : ZMod p) * Polynomial.X ^ s *
            toP p den).degree := by
        rw [Polynomial.degree_mul, Polynomial.degree_C_mul_X_pow s hcne,
          toP_degree p hp1 rem hremc hremne, toP_degree p hp1 den hdenc hden]
        rw [show ((s : WithBot Nat) + ((pdegree den).toNat : WithBot Nat)) =
          ((s + (pdegree den).toNat : Nat) : WithBot Nat) from by push_cast; rfl]
        congr 1
        have h1 := (pdegree_spec den hden).1
        have h2 := (pdegree_spec rem hremne).1
        omega
      have hlceq : (toP p rem).leadingCoeff =
          (Polynomial.C ((c : Nat) : ZMod p) * Polynomial.X ^ s *
            toP p den).leadingCoeff := by
        rw [Polynomial.leadingCoeff_mul, Polynomial.leadingCoeff_C_mul_X_pow,
          hlcR, hlcD, hccast]
        rw [div_mul_cancel₀]
        exact cast_ne_zero_of_canon p _ hp1 hplcDlt hplcD
      have hdrop : (toP p (psub p rem (pmul p (List.replicate s 0 ++ [c]) den))).degree <
          (toP p rem).degree := by
        rw [psub_cast p _ _ (pmul_canon p _ den (by omega)), hsub_cast]
        exact Polynomial.degree_sub_lt hdegeq hRne hlceq
      have hremc' : ∀ x ∈ psub p rem (pmul p (List.replicate s 0 ++ [c]) den),
          x < p := psub_canon p _ _ (by omega) hremc
      have hpd' : pdegree (psub p rem (pmul p (List.replicate s 0 ++ [c]) den)) <
          pdegree rem := by
        have hdr := toP_degree p hp1 rem hremc hremne
        rw [hdr] at hdrop
        have := pdegree_lt_of_degree_lt p hp1 _ hremc' (pdegree rem).toNat hdrop
        have := (pdegree_spec rem hremne).1
        omega
      have hslen : s < qc.length := by
        rcases hlen with h | h
        · exact h
        · omega
      have hqz : qc.getD s 0 = 0 := hzero s (by omega)
      obtain ⟨q, r, hql, hrc, hqec, hqlen, heq, hrdeg⟩ := ih (qc.set s c)
        (psub p rem (pmul p (List.replicate s 0 ++ [c]) den)) hremc'
        (by
          intro x hx
          rcases List.mem_or_eq_of_mem_set hx with h | h
          · exact hqcc x h
          · omega)
        (by omega)
        (by
          intro j hj
          rw [getD_set_cast p qc s j c hslen, if_neg (by omega)]
          exact hzero j (by omega))
        (by
          by_cases hfin : pdegree (psub p rem
              (pmul p (List.replicate s 0 ++ [c]) den)) < pdegree den
          · right; exact hfin
          · left
            rw [List.length_set]
            have := (pdegree_spec den hden).1
            omega)
      refine ⟨q, r, hql, hrc, hqec, by rw [hqlen, List.length_set], ?_, hrdeg⟩
      rw [heq, toP_set p qc s c hslen hqz,
        psub_cast p _ _ (pmul_canon p _ den (by omega)), hsub_cast]
      ring

lemma replicate_getD_zero (k j : Nat) : (List.replicate k (0 : Nat)).getD j 0 = 0 := by
  rw [List.getD_eq_getElem?_getD, List.getElem?_replicate]
  by_cases h : j < k
  · rw [if_pos h]
    rfl
  · rw [if_neg h]
    rfl

/-- C7: over a prime field with canonical coefficients, dividing by the zero
polynomial aborts; otherwise `divide` returns the true long-division
quotient/remainder pair, and the exposed `/` operator returns the quotient
exactly when the remainder is non-zero, aborting (assertion failure) when the
remainder is zero. -/
theorem C7_div_assertion (p : Nat) [hp : Fact p.Prime] (a b : List Nat)
    (ha : ∀ x ∈ a, x < p) (hb : ∀ x ∈ b, x < p) :
    (pdegree b = -1 → divOp p a b = none) ∧
    (pdegree b ≠ -1 → ∃ q r, divide p a b = some (q, r) ∧
      toP p a = toP p q * toP p b + toP p r ∧
      pdegree r < pdegree b ∧
      divOp p a b = (if pdegree r = -1 then none else some q)) := by
  have hp1 : 1 < p := hp.out.one_lt
  constructor
  · intro hz
    rw [divOp, divide, if_pos hz]
    rfl
  · intro hnz
    by_cases hlt : pdegree a < pdegree b
    · have hdiv : divide p a b = some ([], a) := by
        rw [divide, if_neg hnz, if_pos hlt]
      refine ⟨[], a, hdiv, ?_, hlt, ?_⟩
      · rw [show toP p ([] : List Nat) = 0 from rfl]
        ring
      · rw [divOp, hdiv]
        rfl
    · push_neg at hlt
      have hbnn := (pdegree_spec b hnz).1
      obtain ⟨q, r, hql, hrc, hqec, hqlen, heq, hrdeg⟩ :=
        divideLoop_spec p b hb hnz
          ((pdegree a - pdegree b + 1).toNat)
          (List.replicate ((pdegree a - pdegree b + 1).toNat) 0) a ha
          (by
            intro x hx
            rw [List.eq_of_mem_replicate hx]
            omega)
          (by omega)
          (fun j _ => replicate_getD_zero _ j)
          (by left; rw [List.length_replicate]; omega)
      have hdiv : divide p a b = some (q, r) := by
        rw [divide, if_neg hnz, if_neg (by omega)]
        show (divideLoop p b ((pdegree a - pdegree b + 1).toNat)
          (List.replicate ((pdegree a - pdegree b + 1).toNat) 0) a).bind
            (fun qr => some qr) = some (q, r)
        rw [hql]
        rfl
      refine ⟨q, r, hdiv, ?_, hrdeg, ?_⟩
      · rw [toP_zero_of_all_zero p _
          (fun x hx => List.eq_of_mem_replicate hx), zero_mul, zero_add] at heq
        exact heq.symm
      · rw [divOp, hdiv]
        rfl

/-- C7 witness: concrete divisions in F_7 exercising both the zero-divisor
abort and the successful path. -/
theorem C7_witness :
    divOp 7 [2, 1] [] = none ∧
    ∃ q r, divide 7 [1, 3] [3, 1] = some (q, r) ∧
      divOp 7 [1, 3] [3, 1] = (if pdegree r = -1 then none else some q) := by
  haveI : Fact (Nat.Prime 7) := ⟨by norm_num⟩
  have h := C7_div_assertion 7 [2, 1] [] (by decide) (by decide)
  have h2 := C7_div_assertion 7 [1, 3] [3, 1] (by decide) (by decide)
  refine ⟨h.1 (by decide), ?_⟩
  obtain ⟨q, r, hdiv, _, _, hop⟩ := h2.2 (by decide)
  exact ⟨q, r, hdiv, hop⟩

/-! ## `src/fri.rs` — the FRI protocol

The struct carries the canonical values of `offset` and `omega` and the three
size parameters; the prime modulus `p`, the Blake2b hash `H`, the field
element serializer `encE`, the proof-stream serializer `encPS` and the
SHAKE256 XOF `shake` are passed as parameters (external library functions).
Panics (index out of bounds, failed asserts, `unwrap`, division by zero,
integer overflow) are modelled as `none`; the `sample_indices` while loop
gets explicit fuel. -/

structure FRI where
  offset : Nat
  omega : Nat
  domain_length : Nat
  expansion_factor : Nat
  num_colinearity_tests : Nat

namespace FRI

/-- `FRI::eval_domain` (src/fri.rs lines 53–57). -/
def eval_domain (p : Nat) (f : FRI) : List Nat :=
  (List.range f.domain_length).map (fun i => fmul p f.offset (fpow p f.omega i))

/-- The codeword split-and-fold map of `FRI::commit`
(src/fri.rs lines 80–87). -/
def foldCodeword (p : Nat) (alpha omega offset : Nat) (codeword : List Nat) :
    Option (List Nat) :=
  (List.range (codeword.length / 2)).mapM (fun i => do
    let d1 ← fdiv p alpha (fmul p offset (fpow p omega i))
    let d2 ← fdiv p alpha (fmul p offset (fpow p omega i))
    some (fmul p
      (fadd p (fmul p (fadd p 1 d1) (codeword.getD i 0))
        (fmul p (fsub p 1 d2)
          (codeword.getD (codeword.length / 2 + i) 0)))
      (finv p 2)))

/-- The round loop of `FRI::commit` (src/fri.rs lines 70–91), one fuel unit
per loop iteration (`num_rounds` iterations are requested). -/
def commitLoop (p R : Nat) (H : Bytes → Bytes) (encE : Nat → Bytes)
    (encPS : List (PSObject (List Nat)) → Bytes) (shake : Bytes → Nat → Bytes) :
    Nat → Nat → List Nat → Nat → Nat → ProofStream (List Nat) →
      List (List Nat) →
      Option (List Nat × ProofStream (List Nat) × List (List Nat))
  | 0, _, codeword, _, _, ps, codewords => some (codeword, ps, codewords)
  | fuel + 1, r, codeword, omega, offset, ps, codewords => do
    let root ← Merkle.commit H encE codeword
    let ps := ProofStream.push_hash ps root
    if r = R - 1 then some (codeword, ps, codewords)
    else do
      let alpha := fsample p (ProofStream.prover_fiat_shamir shake encPS ps 32)
      let codewords := codewords ++ [codeword]
      let codeword' ← foldCodeword p alpha omega offset codeword
      commitLoop p R H encE encPS shake fuel (r + 1) codeword'
        (fpow p omega 2) (fpow p offset 2) ps codewords

/-- `FRI::commit` (src/fri.rs lines 59–96). -/
def commit (p : Nat) (f : FRI) (H : Bytes → Bytes) (encE : Nat → Bytes)
    (encPS : List (PSObject (List Nat)) → Bytes) (shake : Bytes → Nat → Bytes)
    (codeword : List Nat) (proof_stream : ProofStream (List Nat)) :
    Option (List (List Nat) × ProofStream (List Nat)) := do
  let R := num_rounds f.domain_length f.expansion_factor f.num_colinearity_tests
  let (codeword', ps1, codewords) ←
    commitLoop p R H encE encPS shake R 0 codeword f.omega f.offset
      proof_stream []
  some (codewords ++ [codeword'], ProofStream.push_obj ps1 codeword')

/-- `FRI::query` (src/fri.rs lines 98–128). -/
def query (p : Nat) (f : FRI) (H : Bytes → Bytes) (encE : Nat → Bytes)
    (current_codeword next_codeword : List Nat) (c_indices : List Nat)
    (proof_stream : ProofStream (List Nat)) :
    Option (List Nat × ProofStream (List Nat)) := do
  let a_indices := c_indices
  let b_indices := c_indices.map (fun i => i + current_codeword.length / 2)
  let ps1 ← (List.range f.num_colinearity_tests).foldlM (fun ps s => do
    let ai ← a_indices[s]?
    let bi ← b_indices[s]?
    let ci ← c_indices[s]?
    let av ← current_codeword[ai]?
    let bv ← current_codeword[bi]?
    let cv ← next_codeword[ci]?
    some (ProofStream.push_leafs ps [av, bv, cv])) proof_stream
  let ps2 ← (List.range f.num_colinearity_tests).foldlM (fun ps s => do
    let ai ← a_indices[s]?
    let bi ← b_indices[s]?
    let ci ← c_indices[s]?
    let p1 ← Merkle.openData H encE ai current_codeword
    let p2 ← Merkle.openData H encE bi current_codeword
    let p3 ← Merkle.openData H encE ci next_codeword
    some (ProofStream.push_path
      (ProofStream.push_path (ProofStream.push_path ps p1) p2) p3)) ps1
  some (a_indices ++ b_indices, ps2)

/-- `FRI::sample_index` (src/fri.rs lines 130–136): big-endian byte fold into
a `usize` accumulator, reduced modulo `size` (panic on a zero modulus). -/
def sample_index (byte_array : Bytes) (size : Nat) : Option Nat :=
  if size = 0 then none
  else some ((byte_array.foldl
    (fun acc b => (acc <<< 8) % 2 ^ 64 ^^^ b) 0) % size)

/-- `usize::to_le_bytes`. -/
def to_le_bytes (counter : Nat) : List Nat :=
  (List.range 8).map (fun k => counter / 2 ^ (8 * k) % 256)

/-- `usize::to_be_bytes`. -/
def to_be_bytes (counter : Nat) : List Nat :=
  (List.range 8).map (fun k => counter / 2 ^ (8 * (7 - k)) % 256)

/-- The byte-twiddling inside `sample_indices` (src/fri.rs lines 159–163):
the little-endian bytes of `counter` are written backwards into the tail of
`bytes`. -/
def writeTail (bytes : Bytes) (counter : Nat) : Bytes :=
  ((to_le_bytes counter).foldl
    (fun (st : Bytes × Nat) b => (st.1.set (st.2 - 1) b, st.2 - 1))
    (bytes, bytes.length)).1

/-- The while loop of `FRI::sample_indices` (src/fri.rs lines 154–169); the
loop need not terminate (it spins when not enough distinct reduced indices
exist), so it takes explicit fuel and `none` models divergence or a panic. -/
def sampleLoop (H : Bytes → Bytes) (size reduced_size number : Nat) :
    Nat → Bytes → Nat → List Nat → List Nat → Option (List Nat)
  | 0, _, _, _, _ => none
  | fuel + 1, bytes, counter, indices, reduced_indices =>
    if indices.length < number then do
      let index ← sample_index (H bytes) size
      if reduced_size = 0 then none
      else
        let reduced_index := index % reduced_size
        let counter' := counter + 1
        let bytes' := writeTail bytes counter'
        if reduced_indices.contains reduced_index then
          sampleLoop H size reduced_size number fuel bytes' counter'
            indices reduced_indices
        else
          sampleLoop H size reduced_size number fuel bytes' counter'
            (indices ++ [index]) (reduced_indices ++ [reduced_index])
    else some indices

/-- `FRI::sample_indices` (src/fri.rs lines 138–171). -/
def sample_indices (H : Bytes → Bytes) (seed : Bytes)
    (size reduced_size number fuel : Nat) : Option (List Nat) :=
  if number ≤ reduced_size then
    sampleLoop H size reduced_size number fuel (seed ++ to_be_bytes 0) 0 [] []
  else none

/-- The `enumerate` fold at the end of `FRI::prove`
(src/fri.rs lines 188–196). -/
def proveQueryLoop (p : Nat) (f : FRI) (H : Bytes → Bytes) (encE : Nat → Bytes)
    (codewords : List (List Nat)) :
    List (Nat × List Nat) → List Nat → ProofStream (List Nat) →
      Option (List Nat × ProofStream (List Nat))
  | [], indices, ps => some (indices, ps)
  | (i, codeword) :: rest, indices, ps =>
    if i < codewords.length - 1 then do
      if codeword.length / 2 = 0 then none
      else
        let indices' := indices.map (fun index => index % (codeword.length / 2))
        let next ← codewords[i + 1]?
        let (_, ps') ← query p f H encE codeword next indices' ps
        proveQueryLoop p f H encE codewords rest indices' ps'
    else proveQueryLoop p f H encE codewords rest indices ps

/-- `FRI::prove` (src/fri.rs lines 173–199). -/
def prove (p : Nat) (f : FRI) (H : Bytes → Bytes) (encE : Nat → Bytes)
    (encPS : List (PSObject (List Nat)) → Bytes) (shake : Bytes → Nat → Bytes)
    (fuel : Nat) (codeword : List Nat) (proof_stream : ProofStream (List Nat)) :
    Option (List Nat × ProofStream (List Nat)) := do
  if f.domain_length = codeword.length then do
    let (codewords, ps1) ← commit p f H encE encPS shake codeword proof_stream
    let cw1 ← codewords[1]?
    let last ← codewords.getLast?
    let top_level_indices ← sample_indices H
      (ProofStream.prover_fiat_shamir shake encPS ps1 32)
      cw1.length last.length f.num_colinearity_tests fuel
    let (_, ps2) ← proveQueryLoop p f H encE codewords codewords.enum
      top_level_indices ps1
    some (top_level_indices, ps2)
  else none

end FRI

namespace FRI

/-- The hash-and-alpha collection loop of `FRI::verify`
(src/fri.rs lines 210–219): `num_rounds` pulls, each of which must be a
`HASH`, interleaved with verifier Fiat–Shamir samplings. -/
def pullRootsAlphas (p : Nat) (shake : Bytes → Nat → Bytes)
    (encPS : List (PSObject (List Nat)) → Bytes) :
    Nat → ProofStream (List Nat) → List Bytes → List Nat →
      Option (List Bytes × List Nat × ProofStream (List Nat))
  | 0, ps, roots, alphas => some (roots, alphas, ps)
  | k + 1, ps, roots, alphas => do
    let (obj, ps1) ← ProofStream.pull ps
    match obj with
    | PSObject.HASH root =>
      pullRootsAlphas p shake encPS k ps1 (roots ++ [root])
        (alphas ++ [fsample p (ProofStream.verifier_fiat_shamir shake encPS ps1 32)])
    | _ => none

/-- The `match pull { PATH(p) => p, _ => panic }` pattern of `FRI::verify`
(src/fri.rs lines 302–305). -/
def pullPath (ps : ProofStream (List Nat)) :
    Option (List Bytes × ProofStream (List Nat)) := do
  let (obj, ps1) ← ProofStream.pull ps
  match obj with
  | PSObject.PATH pth => some (pth, ps1)
  | _ => none

/-- The colinearity-test loop of `FRI::verify` (src/fri.rs lines 276–299):
each iteration pulls a `LEAF` triple, extends the running `aa`/`bb`/`cc`
vectors (and, in round 0, `polynomial_values`), and runs the colinearity
check; a failed check returns `false` for the whole verification. -/
def colinLoop (p : Nat) (offset omega cx : Nat) (r : Nat)
    (a_indices b_indices : List Nat) :
    Nat → Nat → ProofStream (List Nat) → List (Nat × Nat) → List Nat →
      List Nat → List Nat →
      Option (Bool × ProofStream (List Nat) × List (Nat × Nat) ×
        List Nat × List Nat × List Nat)
  | 0, _, ps, pv, aa, bb, cc => some (true, ps, pv, aa, bb, cc)
  | k + 1, s, ps, pv, aa, bb, cc => do
    let (obj, ps1) ← ProofStream.pull ps
    match obj with
    | PSObject.LEAF leafs =>
      match leafs with
      | ay :: yb :: cy :: _ => do
        let aa := aa ++ [ay]
        let bb := bb ++ [yb]
        let cc := cc ++ [cy]
        let ai ← a_indices[s]?
        let bi ← b_indices[s]?
        let pv := if r = 0 then pv ++ [(ai, ay), (bi, yb)] else pv
        let ax := fmul p offset (fpow p omega ai)
        let bx := fmul p offset (fpow p omega bi)
        let colin ← test_colinearity p [(ax, ay), (bx, yb), (cx, cy)]
        if colin then
          colinLoop p offset omega cx r a_indices b_indices k (s + 1) ps1 pv aa bb cc
        else some (false, ps1, pv, aa, bb, cc)
      | _ => none
    | _ => none

/-- The authentication-path loop of `FRI::verify`
(src/fri.rs lines 301–328): three `PATH` pulls and Merkle verifications per
colinearity test; any failed verification returns `false`. -/
def pathLoop (H : Bytes → Bytes) (encE : Nat → Bytes)
    (root_r root_r1 : Bytes) (a_indices b_indices c_indices : List Nat)
    (aa bb cc : List Nat) :
    Nat → Nat → ProofStream (List Nat) →
      Option (Bool × ProofStream (List Nat))
  | 0, _, ps => some (true, ps)
  | k + 1, i, ps => do
    let (path1, ps1) ← pullPath ps
    let ai ← a_indices[i]?
    let av ← aa[i]?
    let v1 ← Merkle.verify H encE root_r ai path1 av
    if v1 then do
      let (path2, ps2) ← pullPath ps1
      let bi ← b_indices[i]?
      let bv ← bb[i]?
      let v2 ← Merkle.verify H encE root_r bi path2 bv
      if v2 then do
        let (path3, ps3) ← pullPath ps2
        let ci ← c_indices[i]?
        let cv ← cc[i]?
        let v3 ← Merkle.verify H encE root_r1 ci path3 cv
        if v3 then
          pathLoop H encE root_r root_r1 a_indices b_indices c_indices aa bb cc k (i + 1) ps3
        else some (false, ps3)
      else some (false, ps2)
    else some (false, ps1)

/-- The main round loop of `FRI::verify` (src/fri.rs lines 262–332). -/
def verifyRounds (p : Nat) (H : Bytes → Bytes) (encE : Nat → Bytes)
    (dl nct : Nat) (alphas : List Nat) (roots : List Bytes)
    (top : List Nat) :
    Nat → Nat → Nat → Nat → List (Nat × Nat) → ProofStream (List Nat) →
      Option (Bool × List (Nat × Nat) × ProofStream (List Nat))
  | 0, _, _, _, pv, ps => some (true, pv, ps)
  | k + 1, r, omega, offset, pv, ps => do
    if dl >>> (r + 1) = 0 then none
    else
      let c_indices := top.map (fun index => index % (dl >>> (r + 1)))
      let a_indices := c_indices
      let b_indices := a_indices.map (fun index => index + (dl >>> (r + 1)))
      let cx ← alphas[r]?
      let (ok1, ps1, pv1, aa, bb, cc) ← colinLoop p offset omega cx r
        a_indices b_indices nct 0 ps pv [] [] []
      if ok1 then do
        let root_r ← roots[r]?
        let root_r1 ← roots[r + 1]?
        let (ok2, ps2) ← pathLoop H encE root_r root_r1 a_indices b_indices
          c_indices aa bb cc nct 0 ps1
        if ok2 then
          verifyRounds p H encE dl nct alphas roots top k (r + 1) (fpow p omega 2) (fpow p offset 2) pv1 ps2
        else some (false, pv1, ps2)
      else some (false, pv1, ps1)

/-- `FRI::verify` (src/fri.rs lines 201–335). -/
def verify (p : Nat) (f : FRI) (H : Bytes → Bytes) (encE : Nat → Bytes)
    (encPS : List (PSObject (List Nat)) → Bytes) (shake : Bytes → Nat → Bytes)
    (fuel : Nat) (proof_stream : ProofStream (List Nat))
    (polynomial_values : List (Nat × Nat)) : Option Bool := do
  let R := num_rounds f.domain_length f.expansion_factor f.num_colinearity_tests
  let (roots, alphas, ps1) ← pullRootsAlphas p shake encPS R proof_stream [] []
  let (obj, ps2) ← ProofStream.pull ps1
  match obj with
  | PSObject.OBJ last_codeword => do
    let lastRoot ← roots.getLast?
    let lcommit ← Merkle.commit H encE last_codeword
    if lastRoot ≠ lcommit then some false
    else if f.expansion_factor = 0 then none
    else if last_codeword.length / f.expansion_factor = 0 then none
    else
      let degree := last_codeword.length / f.expansion_factor - 1
      if 2 ^ 31 ≤ degree then none
      else
        let last_omega := (List.range (R - 1)).foldl
          (fun w _ => fpow p w 2) f.omega
        let last_offset := (List.range (R - 1)).foldl
          (fun w _ => fpow p w 2) f.offset
        if finv p last_omega ≠
            fpow p last_omega (last_codeword.length - 1) then none
        else do
          let last_domain := (List.range last_codeword.length).map
            (fun i => fmul p last_offset (fpow p last_omega i))
          let poly ← interpolate_domain p last_domain last_codeword
          if pevalDomain p poly last_domain ≠ last_codeword then none
          else if pdegree poly > (degree : Int) then some false
          else do
            let top ← sample_indices H
              (ProofStream.verifier_fiat_shamir shake encPS ps2 32)
              (f.domain_length >>> 1) (f.domain_length >>> (R - 1))
              f.num_colinearity_tests fuel
            let (ok, _, _) ← verifyRounds p H encE f.domain_length
              f.num_colinearity_tests alphas roots top (R - 1) 0
              f.omega f.offset polynomial_values ps2
            if ok then some true else some false
  | _ => none

end FRI

/-- Tag test used to state malformed-stream conditions. -/
def isHash {T : Type} (o : PSObject T) : Bool :=
  match o with
  | PSObject.HASH _ => true
  | _ => false

/-- Proof-stream serializer stand-in for codeword streams. -/
def encPSL : List (PSObject (List Nat)) → Bytes := fun _ => []

/-- XOF stand-in returning all-zero bytes. -/
def shakeZero : Bytes → Nat → Bytes := fun _ n => List.replicate n 0

/-- Tag test for the last-codeword pull of `FRI::verify`. -/
def isObj {T : Type} (o : PSObject T) : Bool :=
  match o with
  | PSObject.OBJ _ => true
  | _ => false

/-- Tag test for the authentication-path pulls of `FRI::verify`. -/
def isPath {T : Type} (o : PSObject T) : Bool :=
  match o with
  | PSObject.PATH _ => true
  | _ => false

/-- Tag test for the colinearity pulls of `FRI::verify`: a `LEAF` carrying
at least the three probed values (anything else makes the match at
src/fri.rs lines 277-284 panic). -/
def isLeaf3 (o : PSObject (List Nat)) : Bool :=
  match o with
  | PSObject.LEAF l => decide (3 ≤ l.length)
  | _ => false

/-- `ProofStream::pull` on any stream whose cursor points at an object. -/
lemma pull_eq {T : Type} (ps : ProofStream T) (o : PSObject T)
    (h : ps.objects[ps.read_index]? = some o) :
    ProofStream.pull ps =
      some (o, { ps with read_index := ps.read_index + 1 }) := by
  rw [ProofStream.pull]
  simp only [h]

/-- The root-collection loop of `FRI::verify` aborts at the first pull
that meets a missing object or a non-`HASH` tag. -/
lemma pullRootsAlphas_stops (p : Nat) (shake : Bytes → Nat → Bytes)
    (encPS : List (PSObject (List Nat)) → Bytes) :
    ∀ (j n : Nat) (ps : ProofStream (List Nat))
      (roots : List Bytes) (alphas : List Nat),
      j < n →
      (∀ i, i < j →
        ((ps.objects[ps.read_index + i]?).map isHash).getD false = true) →
      ((ps.objects[ps.read_index + j]?).map isHash).getD false = false →
      FRI.pullRootsAlphas p shake encPS n ps roots alphas = none := by
  intro j
  induction j with
  | zero =>
    intro n ps roots alphas hn _ hbad
    obtain ⟨m, rfl⟩ : ∃ m, n = m + 1 := ⟨n - 1, by omega⟩
    rw [Nat.add_zero] at hbad
    cases hobj : ps.objects[ps.read_index]? with
    | none => simp [FRI.pullRootsAlphas, ProofStream.pull, hobj]
    | some o =>
      rw [hobj] at hbad
      have hiso : isHash o = false := by simpa using hbad
      cases o with
      | HASH b => simp [isHash] at hiso
      | PATH l => simp [FRI.pullRootsAlphas, ProofStream.pull, hobj]
      | LEAF l => simp [FRI.pullRootsAlphas, ProofStream.pull, hobj]
      | OBJ l => simp [FRI.pullRootsAlphas, ProofStream.pull, hobj]
  | succ j ih =>
    intro n ps roots alphas hn hgood hbad
    obtain ⟨m, rfl⟩ : ∃ m, n = m + 1 := ⟨n - 1, by omega⟩
    have h0 := hgood 0 (by omega)
    rw [Nat.add_zero] at h0
    cases hobj : ps.objects[ps.read_index]? with
    | none =>
      rw [hobj] at h0
      simp at h0
    | some o =>
      rw [hobj] at h0
      have hiso : isHash o = true := by simpa using h0
      cases o with
      | HASH b =>
        rw [FRI.pullRootsAlphas, pull_eq ps _ hobj]
        simp only [Option.bind_eq_bind, Option.some_bind]
        apply ih m _ _ _ (by omega)
        · intro i hi
          have hg := hgood (i + 1) (by omega)
          rw [show ps.read_index + (i + 1) = ps.read_index + 1 + i from by
            omega] at hg
          exact hg
        · have hb := hbad
          rw [show ps.read_index + (j + 1) = ps.read_index + 1 + j from by
            omega] at hb
          exact hb
      | PATH l => simp [isHash] at hiso
      | LEAF l => simp [isHash] at hiso
      | OBJ l => simp [isHash] at hiso

/-- The root-collection loop of `FRI::verify` succeeds on any run of
well-tagged `HASH` objects and advances the cursor past them. -/
lemma pullRootsAlphas_ok (p : Nat) (shake : Bytes → Nat → Bytes)
    (encPS : List (PSObject (List Nat)) → Bytes) :
    ∀ (n : Nat) (ps : ProofStream (List Nat))
      (roots : List Bytes) (alphas : List Nat),
      (∀ i, i < n →
        ((ps.objects[ps.read_index + i]?).map isHash).getD false = true) →
      ∃ (rootsOut : List Bytes) (alphasOut : List Nat),
        FRI.pullRootsAlphas p shake encPS n ps roots alphas =
          some (rootsOut, alphasOut,
            ⟨ps.objects, ps.read_index + n⟩) := by
  intro n
  induction n with
  | zero =>
    intro ps roots alphas _
    exact ⟨roots, alphas, rfl⟩
  | succ n ih =>
    intro ps roots alphas hgood
    have h0 := hgood 0 (by omega)
    rw [Nat.add_zero] at h0
    cases hobj : ps.objects[ps.read_index]? with
    | none =>
      rw [hobj] at h0
      simp at h0
    | some o =>
      rw [hobj] at h0
      have hiso : isHash o = true := by simpa using h0
      cases o with
      | HASH b =>
        rw [FRI.pullRootsAlphas, pull_eq ps _ hobj]
        simp only [Option.bind_eq_bind, Option.some_bind]
        obtain ⟨r', a', hrec⟩ := ih { ps with
            read_index := ps.read_index + 1 } (roots ++ [b])
          (alphas ++ [fsample p (ProofStream.verifier_fiat_shamir shake
            encPS { ps with read_index := ps.read_index + 1 } 32)])
          (by
            intro i hi
            have hg := hgood (i + 1) (by omega)
            rw [show ps.read_index + (i + 1) = ps.read_index + 1 + i from by
              omega] at hg
            exact hg)
        refine ⟨r', a', ?_⟩
        rw [hrec]
        rw [show ps.read_index + 1 + n = ps.read_index + (n + 1) from by
          omega]
      | PATH l => simp [isHash] at hiso
      | LEAF l => simp [isHash] at hiso
      | OBJ l => simp [isHash] at hiso

/-- C8 (amended): whenever `FRI::verify` meets a malformed proof stream —
a pull finding a missing object or a wrong tag — the run aborts with a
panic (modelled `none`) instead of returning `false`.  One clause per pull
site of src/fri.rs: a non-`HASH` at any position of the root-collection
phase reached after well-tagged earlier pulls (lines 213–218), a
non-`OBJ` where the last codeword is pulled (lines 221–224), a wrong tag
or short `LEAF` at the colinearity pulls (lines 277–284), and a
non-`PATH` at the authentication-path pulls (lines 302–305), in whatever
state those loops are reached. -/
theorem C8_malformed_aborts (p : Nat) (f : FRI) (H : Bytes → Bytes)
    (encE : Nat → Bytes) (encPS : List (PSObject (List Nat)) → Bytes)
    (shake : Bytes → Nat → Bytes) (fuel : Nat) :
    (∀ (ps : ProofStream (List Nat)) (pv : List (Nat × Nat)) (j : Nat),
      j < num_rounds f.domain_length f.expansion_factor
        f.num_colinearity_tests →
      (∀ i, i < j →
        ((ps.objects[ps.read_index + i]?).map isHash).getD false = true) →
      ((ps.objects[ps.read_index + j]?).map isHash).getD false = false →
      FRI.verify p f H encE encPS shake fuel ps pv = none) ∧
    (∀ (ps : ProofStream (List Nat)) (pv : List (Nat × Nat)),
      (∀ i, i < num_rounds f.domain_length f.expansion_factor
          f.num_colinearity_tests →
        ((ps.objects[ps.read_index + i]?).map isHash).getD false = true) →
      ((ps.objects[ps.read_index + num_rounds f.domain_length
          f.expansion_factor f.num_colinearity_tests]?).map
        isObj).getD false = false →
      FRI.verify p f H encE encPS shake fuel ps pv = none) ∧
    (∀ (offset omega cx r : Nat) (a_ind b_ind : List Nat) (n s : Nat)
        (ps : ProofStream (List Nat)) (pv : List (Nat × Nat))
        (aa bb cc : List Nat),
      ((ps.objects[ps.read_index]?).map isLeaf3).getD false = false →
      FRI.colinLoop p offset omega cx r a_ind b_ind (n + 1) s ps
        pv aa bb cc = none) ∧
    (∀ ps : ProofStream (List Nat),
      ((ps.objects[ps.read_index]?).map isPath).getD false = false →
      FRI.pullPath ps = none) ∧
    (∀ (rootr rootr1 : Bytes) (a_ind b_ind c_ind aa bb cc : List Nat)
        (n i : Nat) (ps : ProofStream (List Nat)),
      ((ps.objects[ps.read_index]?).map isPath).getD false = false →
      FRI.pathLoop H encE rootr rootr1 a_ind b_ind c_ind aa bb cc
        (n + 1) i ps = none) := by
  have hD : ∀ ps : ProofStream (List Nat),
      ((ps.objects[ps.read_index]?).map isPath).getD false = false →
      FRI.pullPath ps = none := by
    intro ps hbad
    simp only [FRI.pullPath]
    cases hobj : ps.objects[ps.read_index]? with
    | none => simp [ProofStream.pull, hobj]
    | some o =>
      rw [hobj] at hbad
      have hiso : isPath o = false := by simpa using hbad
      rw [pull_eq ps o hobj]
      simp only [Option.bind_eq_bind, Option.some_bind]
      cases o with
      | PATH l => simp [isPath] at hiso
      | HASH b => rfl
      | LEAF l => rfl
      | OBJ l => rfl
  refine ⟨?_, ?_, ?_, hD, ?_⟩
  · -- a malformed pull inside the root-collection phase
    intro ps pv j hj hgood hbad
    have hstop := pullRootsAlphas_stops p shake encPS j
      (num_rounds f.domain_length f.expansion_factor
        f.num_colinearity_tests) ps [] [] hj hgood hbad
    simp [FRI.verify, hstop]
  · -- a malformed pull where the last codeword is expected
    intro ps pv hgood hbad
    obtain ⟨r', a', hpra⟩ := pullRootsAlphas_ok p shake encPS
      (num_rounds f.domain_length f.expansion_factor
        f.num_colinearity_tests) ps [] [] hgood
    simp only [FRI.verify]
    rw [hpra]
    simp only [Option.bind_eq_bind, Option.some_bind]
    cases hobj : ps.objects[ps.read_index + num_rounds f.domain_length
        f.expansion_factor f.num_colinearity_tests]? with
    | none => simp [ProofStream.pull, hobj]
    | some o =>
      rw [hobj] at hbad
      have hiso : isObj o = false := by simpa using hbad
      rw [pull_eq ⟨ps.objects, ps.read_index + num_rounds f.domain_length
          f.expansion_factor f.num_colinearity_tests⟩ o hobj]
      simp only [Option.some_bind]
      cases o with
      | OBJ l => simp [isObj] at hiso
      | HASH b => rfl
      | PATH l => rfl
      | LEAF l => rfl
  · -- a malformed pull inside the colinearity loop
    intro offset omega cx r a_ind b_ind n s ps pv aa bb cc hbad
    rw [FRI.colinLoop]
    cases hobj : ps.objects[ps.read_index]? with
    | none => simp [ProofStream.pull, hobj]
    | some o =>
      rw [hobj] at hbad
      have hiso : isLeaf3 o = false := by simpa using hbad
      rw [pull_eq ps o hobj]
      simp only [Option.bind_eq_bind, Option.some_bind]
      cases o with
      | HASH b => rfl
      | PATH l => rfl
      | OBJ l => rfl
      | LEAF l =>
        rcases l with _ | ⟨a, _ | ⟨b, _ | ⟨c, t⟩⟩⟩
        · rfl
        · rfl
        · rfl
        · simp only [isLeaf3, List.length_cons,
            decide_eq_false_iff_not] at hiso
          omega
  · -- a malformed pull inside the authentication-path loop
    intro rootr rootr1 a_ind b_ind c_ind aa bb cc n i ps hbad
    rw [FRI.pathLoop]
    rw [hD ps hbad]
    simp only [Option.bind_eq_bind, Option.none_bind]

/-- C8 counterexample: a stream whose first object is an `OBJ` (wrong tag)
makes `FRI::verify` abort (`none`), refuting the claim that it returns
`false`. -/
theorem C8_counterexample :
    FRI.verify 17 ⟨1, 2, 8, 2, 1⟩ hashZero encNat encPSL shakeZero 10
      ⟨[PSObject.OBJ [1]], 0⟩ [] = none ∧
    FRI.verify 17 ⟨1, 2, 8, 2, 1⟩ hashZero encNat encPSL shakeZero 10
      ⟨[PSObject.OBJ [1]], 0⟩ [] ≠ some false := by
  constructor
  · decide
  · decide

/-- C8 witness: the amended theorem applied at every clause — a wrong tag
at the second root pull, at the last-codeword pull, at a colinearity
`LEAF` pull, at a `pullPath` call, and at an authentication-path pull. -/
theorem C8_witness :
    FRI.verify 17 ⟨1, 2, 8, 2, 1⟩ hashZero encNat encPSL shakeZero 10
      ⟨[PSObject.HASH [0], PSObject.OBJ [1]], 0⟩ [] = none ∧
    FRI.verify 17 ⟨1, 2, 8, 2, 1⟩ hashZero encNat encPSL shakeZero 10
      ⟨[PSObject.HASH [0], PSObject.HASH [1], PSObject.LEAF [2]], 0⟩ []
      = none ∧
    FRI.colinLoop 17 1 2 3 0 [0] [4] 1 0 ⟨[PSObject.OBJ [5]], 0⟩
      [] [] [] [] = none ∧
    FRI.pullPath (⟨[PSObject.LEAF [1, 2, 3]], 0⟩ :
      ProofStream (List Nat)) = none ∧
    FRI.pathLoop hashZero encNat [0] [1] [0] [4] [0] [5] [6] [7] 1 0
      ⟨[PSObject.HASH [9]], 0⟩ = none := by
  obtain ⟨hA, hB, hC, hD, hE⟩ := C8_malformed_aborts 17 ⟨1, 2, 8, 2, 1⟩
    hashZero encNat encPSL shakeZero 10
  refine ⟨?_, ?_, ?_, ?_, ?_⟩
  · exact hA ⟨[PSObject.HASH [0], PSObject.OBJ [1]], 0⟩ [] 1 (by decide)
      (by decide) (by decide)
  · exact hB ⟨[PSObject.HASH [0], PSObject.HASH [1],
      PSObject.LEAF [2]], 0⟩ [] (by decide) (by decide)
  · exact hC 1 2 3 0 [0] [4] 0 0 ⟨[PSObject.OBJ [5]], 0⟩ [] [] [] []
      (by decide)
  · exact hD ⟨[PSObject.LEAF [1, 2, 3]], 0⟩ (by decide)
  · exact hE [0] [1] [0] [4] [0] [5] [6] [7] 0 0
      ⟨[PSObject.HASH [9]], 0⟩ (by decide)

lemma numRoundsLoop_cond (ef nct : Nat) : ∀ fuel cl r j, r ≤ j →
    j < (numRoundsLoop ef nct fuel cl r).2 →
    ef < cl / 2 ^ (j - r) ∧ 4 * nct < cl / 2 ^ (j - r) := by
  intro fuel
  induction fuel with
  | zero =>
    intro cl r j hrj hj
    simp only [numRoundsLoop] at hj
    omega
  | succ fuel ih =>
    intro cl r j hrj hj
    simp only [numRoundsLoop] at hj ⊢
    split at hj
    · rcases Nat.eq_or_lt_of_le hrj with rfl | hlt
      · simpa using (by assumption : cl > ef ∧ 4 * nct < cl)
      · have h2 := ih (cl / 2) (r + 1) j (by omega) hj
        rw [Nat.div_div_eq_div_mul] at h2
        rw [show 2 * 2 ^ (j - (r + 1)) = 2 ^ (j - r) from by
          rw [← pow_succ']
          congr 1
          omega] at h2
        exact h2
    · simp at hj
      omega

lemma rounds_facts (dl ef nct : Nat)
    (hR2 : 2 ≤ num_rounds dl ef nct) :
    (∀ j, j ≤ num_rounds dl ef nct - 1 → ef < dl / 2 ^ j) ∧
    4 * nct < dl ∧
    nct ≤ dl / 2 ^ (num_rounds dl ef nct - 1) := by
  have hfst := numRoundsLoop_fst ef nct dl dl 0
  have hcond := numRoundsLoop_cond ef nct dl dl 0
  rw [num_rounds] at hR2 ⊢
  by_cases hbump : (numRoundsLoop ef nct dl dl 0).2 = 1 ∧
      (numRoundsLoop ef nct dl dl 0).1 > ef
  · rw [if_pos hbump] at hR2 ⊢
    obtain ⟨h1, hgt⟩ := hbump
    rw [hfst.1, h1] at hgt
    have hc0 := hcond 0 (by omega) (by omega)
    simp only [Nat.sub_zero, pow_zero, Nat.div_one] at hc0
    rw [h1]
    refine ⟨?_, hc0.2, ?_⟩
    · intro j hj
      interval_cases j
      · simpa using hc0.1
      · simpa using hgt
    · rw [show (2 : Nat) - 1 = 1 from rfl, pow_one]
      omega
  · rw [if_neg hbump] at hR2 ⊢
    refine ⟨?_, ?_, ?_⟩
    · intro j hj
      have := hcond j (by omega) (by omega)
      simpa using this.1
    · have := hcond 0 (by omega) (by omega)
      simpa using this.2
    · have := hcond ((numRoundsLoop ef nct dl dl 0).2 - 1) (by omega) (by omega)
      simp only [Nat.sub_zero] at this
      omega


/-- Iterated squaring, as performed on `omega` and `offset` by the round
loops of `FRI::commit` and `FRI::verify`. -/
def iterSq (p x : Nat) (r : Nat) : Nat :=
  (List.range r).foldl (fun w _ => fpow p w 2) x

lemma iterSq_zero (p x : Nat) : iterSq p x 0 = x := rfl

lemma iterSq_succ (p x r : Nat) :
    iterSq p x (r + 1) = fpow p (iterSq p x r) 2 := by
  rw [iterSq, iterSq, List.range_succ, List.foldl_append, List.foldl_cons,
    List.foldl_nil]

lemma iterSq_lt (p x r : Nat) (hp : 0 < p) (hx : x < p) : iterSq p x r < p := by
  induction r with
  | zero => exact hx
  | succ r _ => rw [iterSq_succ]; exact fpow_lt p _ _ hp

lemma iterSq_cast (p x : Nat) : ∀ r,
    ((iterSq p x r : Nat) : ZMod p) = ((x : Nat) : ZMod p) ^ (2 ^ r) := by
  intro r
  induction r with
  | zero => simp [iterSq_zero]
  | succ r ih =>
    rw [iterSq_succ, fpow_cast p _ 2 (by norm_num), ih, ← pow_mul, ← pow_succ]

section FriOrder

variable (p : Nat) [hp : Fact p.Prime]

lemma omega_ne_zero (w : ZMod p) (k : Nat) (h1 : w ^ 2 ^ k = 1) : w ≠ 0 := by
  intro h0
  rw [h0, zero_pow (by positivity)] at h1
  exact zero_ne_one h1

/-- The squared generators keep the expected two-power orders. -/
lemma iterSq_orderOf (w : ZMod p) (k : Nat) (hk : 1 ≤ k)
    (h1 : w ^ 2 ^ k = 1) (h2 : w ^ 2 ^ (k - 1) = -1) (hp2 : 2 < p) :
    ∀ r, r + 1 ≤ k → orderOf (w ^ 2 ^ r) = 2 ^ (k - r) := by
  intro r hr
  have hne : (w ^ 2 ^ r) ^ 2 ^ (k - r - 1) = -1 := by
    rw [← pow_mul, ← pow_add]
    rw [show r + (k - r - 1) = k - 1 by omega]
    exact h2
  have hone : (w ^ 2 ^ r) ^ 2 ^ (k - r) = 1 := by
    rw [← pow_mul, ← pow_add]
    rw [show r + (k - r) = k by omega]
    exact h1
  have hneg_ne : (-1 : ZMod p) ≠ 1 := by
    intro hc
    have : ((2 : Nat) : ZMod p) = 0 := by
      push_cast
      linear_combination -hc
    rw [ZMod.natCast_zmod_eq_zero_iff_dvd] at this
    have := Nat.le_of_dvd (by omega) this
    omega
  have := orderOf_eq_prime_pow (x := w ^ 2 ^ r) (n := k - r - 1) (p := 2)
    (by rw [hne]; exact fun hc => hneg_ne hc) (by
      rw [show k - r - 1 + 1 = k - r by omega]
      exact hone)
  rw [show k - r - 1 + 1 = k - r by omega] at this
  exact this

end FriOrder

/-- The evaluation domains `{offset * omega^i}` used by `FRI::commit`,
`FRI::query` and `FRI::verify`. -/
def domList (p off om n : Nat) : List Nat :=
  (List.range n).map (fun i => fmul p off (fpow p om i))

lemma domList_length (p off om n : Nat) : (domList p off om n).length = n := by
  rw [domList, List.length_map, List.length_range]

lemma domList_getD (p off om n i : Nat) (hi : i < n) :
    (domList p off om n).getD i 0 = fmul p off (fpow p om i) := by
  rw [domList, List.getD_eq_getElem?_getD, List.getElem?_map,
    List.getElem?_range hi]
  rfl

lemma domList_canon (p off om n : Nat) (hp : 0 < p) :
    ∀ x ∈ domList p off om n, x < p := by
  intro x hx
  obtain ⟨i, _, rfl⟩ := List.mem_map.mp hx
  exact fmul_lt p _ _ hp

lemma domList_cast (p off om n i : Nat) (hi : i < n) (hn : n ≤ 2 ^ 128) :
    (((domList p off om n).getD i 0 : Nat) : ZMod p) =
      ((off : Nat) : ZMod p) * ((om : Nat) : ZMod p) ^ i := by
  rw [domList_getD p off om n i hi, fmul_cast, fpow_cast p om i (by omega)]

section FriDomain

variable (p : Nat) [hp : Fact p.Prime]

lemma domList_ne_zero (off om n i : Nat) (hi : i < n) (hn : n ≤ 2 ^ 128)
    (hoff : ((off : Nat) : ZMod p) ≠ 0) (hom : ((om : Nat) : ZMod p) ≠ 0) :
    (domList p off om n).getD i 0 ≠ 0 := by
  intro h0
  have := domList_cast p off om n i hi hn
  rw [h0] at this
  simp only [Nat.cast_zero] at this
  exact mul_ne_zero hoff (pow_ne_zero i hom) this.symm

lemma domList_distinct (off om n : Nat) (hn : n ≤ 2 ^ 128)
    (hoff : ((off : Nat) : ZMod p) ≠ 0)
    (hord : orderOf ((om : Nat) : ZMod p) = n) :
    ∀ i j, i < n → j < n → i ≠ j →
      (domList p off om n).getD i 0 ≠ (domList p off om n).getD j 0 := by
  intro i j hi hj hij hc
  have hci := domList_cast p off om n i hi hn
  have hcj := domList_cast p off om n j hj hn
  rw [hc, hcj] at hci
  have hpow : ((om : Nat) : ZMod p) ^ j = ((om : Nat) : ZMod p) ^ i :=
    mul_left_cancel₀ hoff hci
  exact hij (pow_injOn_Iio_orderOf (by rw [hord]; exact hi)
    (by rw [hord]; exact hj) hpow.symm)

end FriDomain

/-! ### Coefficient lists over `ZMod p` and the even/odd split of the fold -/

noncomputable def toPZ {γ : Type} [Semiring γ] : List γ → Polynomial γ
  | [] => 0
  | c :: rest => Polynomial.C c + Polynomial.X * toPZ rest

lemma toPZ_coeff {γ : Type} [Semiring γ] : ∀ (l : List γ) (n : Nat),
    (toPZ l).coeff n = l.getD n 0 := by
  intro l
  induction l with
  | nil => intro n; simp [toPZ]
  | cons c rest ih =>
    intro n
    cases n with
    | zero => simp [toPZ, Polynomial.coeff_add, Polynomial.coeff_X_mul_zero]
    | succ n => simp [toPZ, Polynomial.coeff_add, Polynomial.coeff_X_mul, ih]

lemma toP_eq_toPZ (p : Nat) : ∀ l : List Nat,
    toP p l = toPZ (l.map (fun x => ((x : Nat) : ZMod p))) := by
  intro l
  induction l with
  | nil => rfl
  | cons c t ih => rw [toP, List.map_cons, toPZ, ih]

lemma toPZ_natDegree_le {γ : Type} [Semiring γ] (l : List γ) (d : Nat)
    (hd : l.length ≤ d + 1) : (toPZ l).natDegree ≤ d := by
  apply Polynomial.natDegree_le_iff_coeff_eq_zero.mpr
  intro m hm
  rw [toPZ_coeff, List.getD_eq_getElem?_getD, List.getElem?_eq_none (by omega)]
  rfl

def deinter {γ : Type} : List γ → List γ × List γ
  | [] => ([], [])
  | a :: t => (a :: (deinter t).2, (deinter t).1)

lemma deinter_length {γ : Type} : ∀ l : List γ,
    (deinter l).1.length = (l.length + 1) / 2 ∧
    (deinter l).2.length = l.length / 2 := by
  intro l
  induction l with
  | nil => simp [deinter]
  | cons a t ih =>
    simp only [deinter, List.length_cons]
    exact ⟨by omega, by omega⟩

lemma deinter_eval {γ : Type} [CommRing γ] : ∀ (n : Nat) (l : List γ)
    (_ : l.length ≤ n) (x : γ),
    (toPZ l).eval x =
      (toPZ (deinter l).1).eval (x ^ 2) +
        x * (toPZ (deinter l).2).eval (x ^ 2) := by
  intro n
  induction n with
  | zero =>
    intro l hl x
    have hnil : l = [] := List.length_eq_zero.mp (by omega)
    subst hnil
    simp [toPZ, deinter]
  | succ n ih =>
    intro l hl x
    match l with
    | [] => simp [toPZ, deinter]
    | [a] => simp [toPZ, deinter]
    | a :: b :: t =>
      show (toPZ (a :: b :: t)).eval x = _
      rw [toPZ, toPZ]
      simp only [deinter]
      rw [toPZ, toPZ]
      simp only [Polynomial.eval_add, Polynomial.eval_mul, Polynomial.eval_C,
        Polynomial.eval_X]
      have ht : (toPZ t).eval x =
          (toPZ (deinter t).1).eval (x ^ 2) +
            x * (toPZ (deinter t).2).eval (x ^ 2) := by
        apply ih
        simp only [List.length_cons] at hl
        omega
      rw [ht]
      ring

def zipAddC {γ : Type} [Add γ] : List γ → List γ → List γ
  | [], ys => ys
  | x :: xs, [] => x :: xs
  | x :: xs, y :: ys => (x + y) :: zipAddC xs ys

lemma zipAddC_length {γ : Type} [Add γ] : ∀ (a b : List γ),
    (zipAddC a b).length = max a.length b.length := by
  intro a
  induction a with
  | nil => intro b; simp [zipAddC]
  | cons x xs ih =>
    intro b
    cases b with
    | nil => simp [zipAddC]
    | cons y ys =>
      simp only [zipAddC, List.length_cons, ih]
      omega

lemma zipAddC_toPZ {γ : Type} [CommRing γ] : ∀ (a b : List γ),
    toPZ (zipAddC a b) = toPZ a + toPZ b := by
  intro a
  induction a with
  | nil => intro b; simp [zipAddC, toPZ]
  | cons x xs ih =>
    intro b
    cases b with
    | nil => simp [zipAddC, toPZ]
    | cons y ys =>
      simp only [zipAddC]
      rw [toPZ, toPZ, toPZ, ih, Polynomial.C_add]
      ring

lemma scale_toPZ {γ : Type} [CommRing γ] (c : γ) : ∀ l : List γ,
    toPZ (l.map (fun x => c * x)) = Polynomial.C c * toPZ l := by
  intro l
  induction l with
  | nil => simp [toPZ]
  | cons a t ih =>
    simp only [List.map_cons]
    rw [toPZ, toPZ, ih]
    rw [Polynomial.C_mul]
    ring

/-- One fold round at the coefficient level: even part plus `alpha` times the
odd part. -/
noncomputable def foldList {γ : Type} [CommRing γ] (alpha : γ) (l : List γ) :
    List γ :=
  zipAddC (deinter l).1 ((deinter l).2.map (fun x => alpha * x))

lemma foldList_length {γ : Type} [CommRing γ] (alpha : γ) (l : List γ) :
    (foldList alpha l).length = (l.length + 1) / 2 := by
  rw [foldList, zipAddC_length, List.length_map, (deinter_length l).1,
    (deinter_length l).2]
  omega

lemma foldList_eval {γ : Type} [CommRing γ] (alpha : γ) (l : List γ) (y : γ) :
    (toPZ (foldList alpha l)).eval y =
      (toPZ (deinter l).1).eval y + alpha * (toPZ (deinter l).2).eval y := by
  rw [foldList, zipAddC_toPZ, scale_toPZ]
  simp

/-- The FRI fold algebra: the split-and-fold combination of values on `x` and
`-x` equals the even-odd recombination at `x^2`. -/
lemma fold_identity {γ : Type} [Field γ] (x alpha e o : γ) (hx : x ≠ 0)
    (h2 : (2 : γ) ≠ 0) :
    ((1 + alpha / x) * (e + x * o) + (1 - alpha / x) * (e - x * o)) * 2⁻¹ =
      e + alpha * o := by
  field_simp
  ring

/-! ### Reusable Merkle facts for power-of-two leaf counts -/

lemma hash_data_array_of_pow2 {T : Type} (H : Bytes → Bytes) (enc : T → Bytes)
    (items : List T) (m : Nat) (hl : items.length = 2 ^ m) :
    Merkle.hash_data_array H enc items = items.map (fun d => H (enc d)) := by
  rw [Merkle.hash_data_array]
  rw [if_neg]
  simp only [List.length_map, hl, ne_eq, Decidable.not_not]
  exact pow2_land_pred m

lemma merkle_commit_pow2 {T : Type} (H : Bytes → Bytes) (enc : T → Bytes)
    (items : List T) (m : Nat) (hl : items.length = 2 ^ m) :
    Merkle.commit H enc items =
      some (Merkle.commitTree H (items.map (fun d => H (enc d)))) := by
  rw [Merkle.commit, hash_data_array_of_pow2 H enc items m hl]
  exact Merkle.commitAux_eq H m _ _ (by simpa using hl)
    (by simp only [List.length_map, hl]; have := Nat.lt_two_pow m; omega)

/-- The full Merkle round trip used by the FRI completeness proof, with the
three calls exposed separately. -/
lemma merkle_rt {T : Type} (H : Bytes → Bytes) (enc : T → Bytes)
    (items : List T) (m : Nat) (hm : 1 ≤ m) (hl : items.length = 2 ^ m)
    (i : Nat) (hi : i < items.length) (it : T) (hit : items[i]? = some it) :
    ∃ path, Merkle.openData H enc i items = some path ∧
      (∀ root, Merkle.commit H enc items = some root →
        Merkle.verify H enc root i path it = some true) := by
  have hhda := hash_data_array_of_pow2 H enc items m hl
  have hdal : (Merkle.hash_data_array H enc items).length = 2 ^ m := by
    rw [hhda, List.length_map, hl]
  have hil : i < (Merkle.hash_data_array H enc items).length := by
    rw [hdal, ← hl]
    exact hi
  have hleaf : (Merkle.hash_data_array H enc items).getD i [] = H (enc it) := by
    rw [List.getD_eq_getElem?_getD, Merkle.hash_data_array_get H enc items i hi,
      List.getElem?_map, hit]
    rfl
  have hopen := Merkle.openAux_eq H m ((Merkle.hash_data_array H enc items).length + 1)
    i (Merkle.hash_data_array H enc items) hdal hm hil
    (by rw [hdal]; have := Nat.lt_two_pow m; omega)
  have hplen := Merkle.pathTree_length H m (Merkle.hash_data_array H enc items) i hdal hm
  have hpne : Merkle.pathTree H i (Merkle.hash_data_array H enc items) ≠ [] := by
    intro hnil
    rw [hnil] at hplen
    simp at hplen
    omega
  refine ⟨Merkle.pathTree H i (Merkle.hash_data_array H enc items), ?_, ?_⟩
  · rw [Merkle.openData]
    exact hopen
  · intro root hroot
    rw [merkle_commit_pow2 H enc items m hl] at hroot
    have hverify := Merkle.verifyAux_eq H root
      (Merkle.pathTree H i (Merkle.hash_data_array H enc items)) i (H (enc it)) hpne
      (by rw [hplen, ← hdal]; exact hil)
    rw [Merkle.verify, hverify, ← hleaf,
      Merkle.rootOfPath_pathTree H m _ i hdal hm hil]
    rw [← hhda] at hroot
    simp only [Option.some.injEq] at hroot
    rw [← hroot]
    simp

/-! ### Output facts for `sample_indices` -/

lemma sample_index_lt (b : Bytes) (size v : Nat)
    (h : FRI.sample_index b size = some v) : v < size := by
  rw [FRI.sample_index] at h
  split at h
  · exact absurd h (by simp)
  · simp only [Option.some.injEq] at h
    subst h
    exact Nat.mod_lt _ (by omega)

lemma sampleLoop_out (H : Bytes → Bytes) (size rsize number : Nat) :
    ∀ (fuel : Nat) (bytes : Bytes) (counter : Nat)
      (indices rind out : List Nat),
      FRI.sampleLoop H size rsize number fuel bytes counter indices rind =
        some out →
      (∀ x ∈ indices, x < size) → indices.length ≤ number →
      (∀ x ∈ out, x < size) ∧ out.length = number := by
  intro fuel
  induction fuel with
  | zero =>
    intro bytes counter indices rind out h
    exact absurd h (by simp [FRI.sampleLoop])
  | succ fuel ih =>
    intro bytes counter indices rind out h hlt hlen
    rw [FRI.sampleLoop] at h
    split at h
    · obtain ⟨v, hv, h2⟩ : ∃ v, FRI.sample_index (H bytes) size = some v ∧ _ := by
        cases hsi : FRI.sample_index (H bytes) size with
        | none => rw [hsi] at h; exact absurd h (by simp)
        | some v => exact ⟨v, rfl, by rw [hsi] at h; exact h⟩
      simp only [Option.bind_eq_bind, Option.some_bind] at h2
      split at h2
      · exact absurd h2 (by simp)
      · split at h2
        · exact ih _ _ _ _ _ h2 hlt (by omega)
        · exact ih _ _ _ _ _ h2
            (by
              intro x hx
              rcases List.mem_append.mp hx with hx | hx
              · exact hlt x hx
              · rw [List.mem_singleton.mp hx]
                exact sample_index_lt (H bytes) size v hv)
            (by
              simp only [List.length_append, List.length_singleton]
              omega)
    · simp only [Option.some.injEq] at h
      subst h
      exact ⟨hlt, by omega⟩

lemma sample_indices_out (H : Bytes → Bytes) (seed : Bytes)
    (size rsize number fuel : Nat) (out : List Nat)
    (h : FRI.sample_indices H seed size rsize number fuel = some out) :
    (∀ x ∈ out, x < size) ∧ out.length = number := by
  rw [FRI.sample_indices] at h
  split at h
  · exact sampleLoop_out H size rsize number fuel _ 0 [] [] out h
      (by simp) (by simp)
  · exact absurd h (by simp)

lemma mapM_eq_map_of {α β : Type} (f : β → Option α) (g : β → α) :
    ∀ l : List β, (∀ x ∈ l, f x = some (g x)) →
      l.mapM f = some (l.map g) := by
  intro l
  induction l with
  | nil => intro _; rfl
  | cons a t ih =>
    intro h
    rw [List.mapM_cons, h a (List.mem_cons_self a t),
      ih (fun x hx => h x (List.mem_cons_of_mem a hx))]
    rfl

lemma push_objects {T : Type} (ps : ProofStream T) (obj : PSObject T) :
    (ProofStream.push ps obj).objects = ps.objects ++ [obj] ∧
    (ProofStream.push ps obj).read_index = ps.read_index := ⟨rfl, rfl⟩

lemma mapM_range_spec {α : Type} (f : Nat → Option α) (n : Nat) (d : α)
    (Phi : Nat → α → Prop)
    (h : ∀ i, i < n → ∃ y, f i = some y ∧ Phi i y) :
    ∃ out : List α, (List.range n).mapM f = some out ∧ out.length = n ∧
      ∀ i, i < n → Phi i (out.getD i d) := by
  have hg : ∃ g : Nat → α, ∀ i, i < n → f i = some (g i) ∧ Phi i (g i) := by
    refine ⟨fun i => if hi : i < n then Classical.choose (h i hi) else d, ?_⟩
    intro i hi
    simp only [dif_pos hi]
    exact Classical.choose_spec (h i hi)
  obtain ⟨g, hg⟩ := hg
  refine ⟨(List.range n).map g, ?_, by simp, ?_⟩
  · apply mapM_eq_map_of
    intro x hx
    rw [List.mem_range] at hx
    exact (hg x hx).1
  · intro i hi
    have : ((List.range n).map g).getD i d = g i := by
      rw [List.getD_eq_getElem?_getD, List.getElem?_map, List.getElem?_range hi]
      rfl
    rw [this]
    exact (hg i hi).2

/-- The fold map of `FRI::commit` succeeds whenever the domain points are
non-zero, and the folded values satisfy the split-and-fold formula in
`ZMod p`. -/
lemma foldCodeword_spec (p : Nat) [hp : Fact p.Prime] (hp2 : 2 < p)
    (alpha om off : Nat) (cw : List Nat)
    (hx : ∀ i, i < cw.length / 2 →
      fmul p off (fpow p om i) ≠ 0) :
    ∃ cw', FRI.foldCodeword p alpha om off cw = some cw' ∧
      cw'.length = cw.length / 2 ∧ (∀ x ∈ cw', x < p) ∧
      ∀ i, i < cw.length / 2 →
        ((cw'.getD i 0 : Nat) : ZMod p) =
          ((1 + ((alpha : Nat) : ZMod p) /
              ((fmul p off (fpow p om i) : Nat) : ZMod p)) *
              ((cw.getD i 0 : Nat) : ZMod p) +
            (1 - ((alpha : Nat) : ZMod p) /
              ((fmul p off (fpow p om i) : Nat) : ZMod p)) *
              ((cw.getD (cw.length / 2 + i) 0 : Nat) : ZMod p)) * 2⁻¹ := by
  have hp1 : 1 < p := hp.out.one_lt
  have hstep : ∀ i, i < cw.length / 2 →
      ∃ y, (do
        let d1 ← fdiv p alpha (fmul p off (fpow p om i))
        let d2 ← fdiv p alpha (fmul p off (fpow p om i))
        some (fmul p
          (fadd p (fmul p (fadd p 1 d1) (cw.getD i 0))
            (fmul p (fsub p 1 d2)
              (cw.getD (cw.length / 2 + i) 0)))
          (finv p 2))) = some y ∧
        (y < p ∧ ((y : Nat) : ZMod p) =
          ((1 + ((alpha : Nat) : ZMod p) /
              ((fmul p off (fpow p om i) : Nat) : ZMod p)) *
              ((cw.getD i 0 : Nat) : ZMod p) +
            (1 - ((alpha : Nat) : ZMod p) /
              ((fmul p off (fpow p om i) : Nat) : ZMod p)) *
              ((cw.getD (cw.length / 2 + i) 0 : Nat) : ZMod p)) * 2⁻¹) := by
    intro i hi
    have hxc : fmul p off (fpow p om i) < p := fmul_lt p _ _ (by omega)
    have hxpos : 0 < fmul p off (fpow p om i) :=
      Nat.pos_of_ne_zero (hx i hi)
    have hfd := fdiv_cast p alpha (fmul p off (fpow p om i)) hxc hxpos
    obtain ⟨dv, hdv⟩ : ∃ dv, fdiv p alpha (fmul p off (fpow p om i)) =
        some dv := by
      cases hc : fdiv p alpha (fmul p off (fpow p om i)) with
      | none => rw [hc] at hfd; exact absurd hfd (by simp)
      | some dv => exact ⟨dv, rfl⟩
    have hdcast : ((dv : Nat) : ZMod p) =
        ((alpha : Nat) : ZMod p) /
          ((fmul p off (fpow p om i) : Nat) : ZMod p) := by
      rw [hdv] at hfd
      simpa using hfd
    have hdlt : dv < p := fdiv_lt p _ _ dv (by omega) hdv
    refine ⟨_, by rw [hdv]; rfl, ?_, ?_⟩
    · exact fmul_lt p _ _ (by omega)
    · rw [fmul_cast, fadd_cast, fmul_cast, fadd_cast, fmul_cast,
        fsub_cast p 1 dv (by omega), finv_cast p 2 (by omega), hdcast]
      push_cast
      ring
  obtain ⟨out, hout, hlen, hphi⟩ := mapM_range_spec _ (cw.length / 2) 0 _ hstep
  refine ⟨out, ?_, hlen, ?_, ?_⟩
  · rw [FRI.foldCodeword, ← hout]
  · intro x hxm
    obtain ⟨i, hi, rfl⟩ := List.mem_iff_getElem.mp hxm
    have := (hphi i (by omega)).1
    rw [List.getD_eq_getElem out 0 hi] at this
    exact this
  · intro i hi
    exact (hphi i hi).2

/-- One fold round, value level: the split-and-fold combination of the two
codeword entries at `i` and `n/2 + i` is the evaluation of the folded
coefficient list at the squared domain point. -/
lemma fold_round_eval (p : Nat) [hp : Fact p.Prime] (hp2 : 2 < p)
    (lz : List (ZMod p)) (alpha om off : Nat) (cw : List Nat) (n2 : Nat)
    (heven : cw.length = 2 * n2) (hsmall : cw.length < 2 ^ 128)
    (hom_ne : ((om : Nat) : ZMod p) ≠ 0)
    (hoff_ne : ((off : Nat) : ZMod p) ≠ 0)
    (hhalf : ((om : Nat) : ZMod p) ^ n2 = -1)
    (heval : ∀ i, i < cw.length →
      ((cw.getD i 0 : Nat) : ZMod p) =
        (toPZ lz).eval (((off : Nat) : ZMod p) * ((om : Nat) : ZMod p) ^ i))
    (i : Nat) (hi : i < n2) :
    ((1 + ((alpha : Nat) : ZMod p) /
        ((fmul p off (fpow p om i) : Nat) : ZMod p)) *
        ((cw.getD i 0 : Nat) : ZMod p) +
      (1 - ((alpha : Nat) : ZMod p) /
        ((fmul p off (fpow p om i) : Nat) : ZMod p)) *
        ((cw.getD (cw.length / 2 + i) 0 : Nat) : ZMod p)) * 2⁻¹ =
      (toPZ (foldList ((alpha : Nat) : ZMod p) lz)).eval
        ((((off : Nat) : ZMod p) * ((om : Nat) : ZMod p) ^ i) ^ 2) := by
  have hp1 : 1 < p := hp.out.one_lt
  have hxc : ((fmul p off (fpow p om i) : Nat) : ZMod p) =
      ((off : Nat) : ZMod p) * ((om : Nat) : ZMod p) ^ i := by
    rw [fmul_cast, fpow_cast p om i (by omega)]
  set x : ZMod p := ((off : Nat) : ZMod p) * ((om : Nat) : ZMod p) ^ i with hxdef
  have hx0 : x ≠ 0 := mul_ne_zero hoff_ne (pow_ne_zero i hom_ne)
  have h2 : (2 : ZMod p) ≠ 0 := by
    have := cast_ne_zero_of_canon p 2 hp1 hp2 (by omega)
    simpa using this
  have hA : ((cw.getD i 0 : Nat) : ZMod p) = (toPZ lz).eval x :=
    heval i (by omega)
  have hB : ((cw.getD (cw.length / 2 + i) 0 : Nat) : ZMod p) =
      (toPZ lz).eval (-x) := by
    rw [heval (cw.length / 2 + i) (by omega)]
    congr 1
    rw [show cw.length / 2 + i = n2 + i by omega, pow_add, hhalf, hxdef]
    ring
  have hPx := deinter_eval lz.length lz (le_refl _) x
  have hPnx := deinter_eval lz.length lz (le_refl _) (-x)
  rw [neg_sq] at hPnx
  rw [hxc, hA, hB, hPx, hPnx, foldList_eval]
  rw [show Polynomial.eval (x ^ 2) (toPZ (deinter lz).1) +
      -x * Polynomial.eval (x ^ 2) (toPZ (deinter lz).2) =
      Polynomial.eval (x ^ 2) (toPZ (deinter lz).1) -
      x * Polynomial.eval (x ^ 2) (toPZ (deinter lz).2) from by ring]
  exact fold_identity x ((alpha : Nat) : ZMod p)
    ((toPZ (deinter lz).1).eval (x ^ 2))
    ((toPZ (deinter lz).2).eval (x ^ 2)) hx0 h2

set_option maxHeartbeats 1600000 in
/-- The full specification of the round loop of `FRI::commit`: it succeeds,
pushes one `HASH` per round, collects the intermediate codewords, and every
round's codeword is the evaluation of an explicit coefficient list (of
controlled length) on the current coset, consecutive lists being related by
the Fiat–Shamir fold. -/
lemma commitLoop_spec (p : Nat) [hp : Fact p.Prime] (hp2 : 2 < p)
    (H : Bytes → Bytes) (encE : Nat → Bytes)
    (encPS : List (PSObject (List Nat)) → Bytes) (shake : Bytes → Nat → Bytes)
    (w o : ZMod p) (k e R : Nat)
    (hw1 : w ^ 2 ^ k = 1) (hwhalf : w ^ 2 ^ (k - 1) = -1) (hk1 : 1 ≤ k)
    (ho : o ≠ 0) (hk31 : k ≤ 31)
    (hRe : e + (R - 1) < k) :
    ∀ (cnt r : Nat), r + cnt = R → 1 ≤ cnt →
    ∀ (cw : List Nat) (om off : Nat) (ps : ProofStream (List Nat))
      (cws : List (List Nat)) (lz : List (ZMod p)),
      om < p → off < p →
      ((om : Nat) : ZMod p) = w ^ 2 ^ r →
      ((off : Nat) : ZMod p) = o ^ 2 ^ r →
      cw.length = 2 ^ (k - r) →
      (∀ x ∈ cw, x < p) →
      (∀ i, i < 2 ^ (k - r) →
        ((cw.getD i 0 : Nat) : ZMod p) =
          (toPZ lz).eval
            (((off : Nat) : ZMod p) * ((om : Nat) : ZMod p) ^ i)) →
      lz.length ≤ 2 ^ (k - r - e) →
      ∃ (cwF : Nat → List Nat) (lzF : Nat → List (ZMod p))
        (roots : List Bytes) (psOut : ProofStream (List Nat)),
        FRI.commitLoop p R H encE encPS shake cnt r cw om off ps cws =
          some (cwF (R - 1), psOut,
            cws ++ (List.range (cnt - 1)).map (fun t => cwF (r + t))) ∧
        cwF r = cw ∧ lzF r = lz ∧
        roots.length = cnt ∧
        psOut.objects = ps.objects ++ roots.map PSObject.HASH ∧
        psOut.read_index = ps.read_index ∧
        (∀ j, r ≤ j → j < R →
          (cwF j).length = 2 ^ (k - j) ∧
          (∀ x ∈ cwF j, x < p) ∧
          (∀ i, i < 2 ^ (k - j) →
            (((cwF j).getD i 0 : Nat) : ZMod p) =
              (toPZ (lzF j)).eval ((o ^ 2 ^ j) * (w ^ 2 ^ j) ^ i)) ∧
          (lzF j).length ≤ 2 ^ (k - j - e) ∧
          Merkle.commit H encE (cwF j) = some (roots.getD (j - r) [])) ∧
        (∀ j, r ≤ j → j + 1 < R →
          lzF (j + 1) =
            foldList ((fsample p (shake (encPS (ps.objects ++
                ((roots.take (j - r + 1)).map PSObject.HASH))) 32) : Nat) :
                ZMod p)
              (lzF j)) := by
  have hp1 : 1 < p := hp.out.one_lt
  have hw0 : w ≠ 0 := omega_ne_zero p w k hw1
  intro cnt
  induction cnt with
  | zero => omega
  | succ cnt ih =>
    intro r hr _ cw om off ps cws lz hom hoff homc hoffc hcwlen hcwc hcweval hlzlen
    have hkr : k - r ≥ 1 := by omega
    have hroot := merkle_commit_pow2 H encE cw (k - r) hcwlen
    simp only [FRI.commitLoop]
    rw [hroot]
    simp only [Option.bind_eq_bind, Option.some_bind]
    by_cases hlast : r = R - 1
    · rw [if_pos hlast]
      have hcnt0 : cnt = 0 := by omega
      subst hcnt0
      refine ⟨fun _ => cw, fun _ => lz,
        [Merkle.commitTree H (cw.map fun d => H (encE d))],
        ProofStream.push_hash ps (Merkle.commitTree H (cw.map fun d => H (encE d))),
        ?_, rfl, rfl, rfl, ?_, rfl, ?_, ?_⟩
      · simp
      · simp [ProofStream.push_hash, ProofStream.push]
      · intro j hj1 hj2
        have hjr : j = r := by omega
        subst hjr
        refine ⟨hcwlen, hcwc, ?_, hlzlen, ?_⟩
        · intro i hi
          rw [hcweval i hi, homc, hoffc]
        · rw [show j - j = 0 from by omega]
          rw [hroot]
          rfl
      · intro j hj1 hj2
        omega
    · rw [if_neg hlast]
      have hcnt1 : 1 ≤ cnt := by omega
      have hrlt : r + 1 ≤ R - 1 := by omega
      -- the divisor points are non-zero
      have hom_ne : ((om : Nat) : ZMod p) ≠ 0 := by
        rw [homc]
        exact pow_ne_zero _ hw0
      have hoff_ne : ((off : Nat) : ZMod p) ≠ 0 := by
        rw [hoffc]
        exact pow_ne_zero _ ho
      have hdiv_ne : ∀ i, i < cw.length / 2 → fmul p off (fpow p om i) ≠ 0 := by
        intro i hi h0
        have hc : ((fmul p off (fpow p om i) : Nat) : ZMod p) = 0 := by
          rw [h0]
          simp
        rw [fmul_cast, fpow_cast p om i (by
          have : cw.length ≤ 2 ^ 31 := by
            rw [hcwlen]
            exact Nat.pow_le_pow_right (by omega) (by omega)
          have h128 : (2 : Nat) ^ 31 < 2 ^ 128 :=
            Nat.pow_lt_pow_right (by omega) (by omega)
          omega)] at hc
        exact mul_ne_zero hoff_ne (pow_ne_zero i hom_ne) hc
      obtain ⟨cw2, hfold, hcw2len, hcw2c, hcw2eval⟩ :=
        foldCodeword_spec p hp2
          (fsample p (ProofStream.prover_fiat_shamir shake encPS
            (ProofStream.push_hash ps
              (Merkle.commitTree H (cw.map fun d => H (encE d)))) 32))
          om off cw hdiv_ne
      rw [hfold]
      simp only [Option.some_bind]
      -- facts for the recursive call
      have hn2 : cw.length / 2 = 2 ^ (k - (r + 1)) := by
        rw [hcwlen]
        rw [show k - r = (k - (r + 1)) + 1 from by omega, pow_succ]
        omega
      have heven : cw.length = 2 * (2 ^ (k - (r + 1))) := by
        rw [hcwlen, show k - r = (k - (r + 1)) + 1 from by omega, pow_succ]
        ring
      have hsmall : cw.length < 2 ^ 128 := by
        rw [hcwlen]
        calc (2 : Nat) ^ (k - r) ≤ 2 ^ 31 :=
              Nat.pow_le_pow_right (by omega) (by omega)
          _ < 2 ^ 128 := Nat.pow_lt_pow_right (by omega) (by omega)
      have hhalf : ((om : Nat) : ZMod p) ^ (2 ^ (k - (r + 1))) = -1 := by
        rw [homc, ← pow_mul, ← pow_add]
        rw [show r + (k - (r + 1)) = k - 1 from by omega]
        exact hwhalf
      have hcw2eval' : ∀ i, i < 2 ^ (k - (r + 1)) →
          ((cw2.getD i 0 : Nat) : ZMod p) =
            (toPZ (foldList
              ((fsample p (ProofStream.prover_fiat_shamir shake encPS
                (ProofStream.push_hash ps
                  (Merkle.commitTree H (cw.map fun d => H (encE d)))) 32) :
                  Nat) : ZMod p) lz)).eval
              (((fpow p off 2 : Nat) : ZMod p) *
                ((fpow p om 2 : Nat) : ZMod p) ^ i) := by
        intro i hi
        rw [hcw2eval i (by omega)]
        rw [fold_round_eval p hp2 lz _ om off cw (2 ^ (k - (r + 1)))
          heven hsmall hom_ne hoff_ne hhalf
          (fun i2 hi2 => hcweval i2 (by omega)) i hi]
        rw [fpow_cast p off 2 (by norm_num), fpow_cast p om 2 (by norm_num)]
        ring_nf
      obtain ⟨cwF, lzF, roots, psOut, hloop, hcwFr, hlzFr, hrootlen,
          hobjs, hridx, hprops, hfolds⟩ :=
        ih (r + 1) (by omega) hcnt1 cw2 (fpow p om 2) (fpow p off 2)
          (ProofStream.push_hash ps
            (Merkle.commitTree H (cw.map fun d => H (encE d))))
          (cws ++ [cw]) (foldList
            ((fsample p (ProofStream.prover_fiat_shamir shake encPS
              (ProofStream.push_hash ps
                (Merkle.commitTree H (cw.map fun d => H (encE d)))) 32) :
                Nat) : ZMod p) lz)
          (fpow_lt p om 2 (by omega)) (fpow_lt p off 2 (by omega))
          (by rw [fpow_cast p om 2 (by norm_num), homc, ← pow_mul, ← pow_succ])
          (by rw [fpow_cast p off 2 (by norm_num), hoffc, ← pow_mul, ← pow_succ])
          (by rw [hcw2len, heven]; omega)
          hcw2c hcw2eval'
          (by
            rw [foldList_length]
            have h2 : (2 : Nat) ^ (k - r - e) = 2 * 2 ^ (k - r - e - 1) := by
              rw [← pow_succ']
              congr 1
              omega
            have h3 : k - (r + 1) - e = k - r - e - 1 := by omega
            have h4 := hlzlen
            rw [h2] at h4
            rw [h3]
            omega)
      refine ⟨fun j => if j = r then cw else cwF j,
        fun j => if j = r then lz else lzF j,
        Merkle.commitTree H (cw.map fun d => H (encE d)) :: roots,
        psOut, ?_, by simp, by simp, by simp [hrootlen], ?_, ?_, ?_, ?_⟩
      · rw [hloop]
        simp only []
        rw [if_neg (show ¬ (R - 1 = r) from by omega)]
        congr 2
        rw [show cnt + 1 - 1 = (cnt - 1) + 1 from by omega,
          List.range_succ_eq_map]
        simp only [List.map_cons, List.map_map]
        beta_reduce
        rw [if_pos (show r + 0 = r from by omega)]
        have hmapeq : List.map (fun t => cwF (r + 1 + t)) (List.range (cnt - 1)) =
            List.map ((fun t => if r + t = r then cw else cwF (r + t)) ∘ Nat.succ)
              (List.range (cnt - 1)) := by
          apply List.map_congr_left
          intro t _
          simp only [Function.comp_apply]
          rw [if_neg (by omega)]
          congr 1
          omega
        rw [List.append_assoc, List.singleton_append, hmapeq]
      · rw [hobjs]
        simp [ProofStream.push_hash, ProofStream.push]
      · rw [hridx]
        rfl
      · intro j hj1 hj2
        simp only []
        by_cases hjr : j = r
        · subst hjr
          rw [if_pos rfl, if_pos rfl]
          refine ⟨hcwlen, hcwc, ?_, hlzlen, ?_⟩
          · intro i hi
            rw [hcweval i hi, homc, hoffc]
          · rw [show j - j = 0 from by omega, List.getD_cons_zero, hroot]
        · rw [if_neg hjr, if_neg hjr]
          obtain ⟨h1, h2, h3, h4, h5⟩ := hprops j (by omega) hj2
          refine ⟨h1, h2, h3, h4, ?_⟩
          rw [show j - r = (j - (r + 1)) + 1 from by omega, List.getD_cons_succ]
          exact h5
      · intro j hj1 hj2
        simp only []
        by_cases hjr : j = r
        · subst hjr
          rw [if_neg (by omega), if_pos rfl, hlzFr]
          rw [show j - j + 1 = 1 from by omega]
          rw [show (Merkle.commitTree H (cw.map fun d => H (encE d)) ::
            roots).take 1 = [Merkle.commitTree H (cw.map fun d => H (encE d))]
            from rfl]
          rfl
        · rw [if_neg (by omega), if_neg hjr]
          rw [hfolds j (by omega) hj2]
          have hps1 : (ProofStream.push_hash ps
              (Merkle.commitTree H (cw.map fun d => H (encE d)))).objects =
              ps.objects ++ [PSObject.HASH
                (Merkle.commitTree H (cw.map fun d => H (encE d)))] := rfl
          rw [hps1]
          rw [show j - r + 1 = (j - (r + 1) + 1) + 1 from by omega]
          rw [show (Merkle.commitTree H (cw.map fun d => H (encE d)) ::
            roots).take ((j - (r + 1) + 1) + 1) =
            Merkle.commitTree H (cw.map fun d => H (encE d)) ::
              roots.take (j - (r + 1) + 1) from rfl]
          rw [List.map_cons, List.append_assoc, List.singleton_append]
lemma getElem?_append_len {T : Type} (pre : List T) (x : T) (rest : List T) :
    (pre ++ x :: rest)[pre.length]? = some x := by
  rw [List.getElem?_append_right (le_refl _)]
  simp

lemma pull_at {T : Type} (objs : List (PSObject T)) (i : Nat) (o : PSObject T)
    (h : objs[i]? = some o) :
    ProofStream.pull ⟨objs, i⟩ = some (o, ⟨objs, i + 1⟩) := by
  rw [ProofStream.pull]
  simp only [h]

lemma foldlM_pushes (f : ProofStream (List Nat) → Nat → Option (ProofStream (List Nat)))
    (g : Nat → List (PSObject (List Nat))) :
    ∀ (l : List Nat) (ps : ProofStream (List Nat)),
      (∀ s ∈ l, ∀ ps' : ProofStream (List Nat),
        f ps' s = some ⟨ps'.objects ++ g s, ps'.read_index⟩) →
      l.foldlM f ps =
        some ⟨ps.objects ++ (l.map g).join, ps.read_index⟩ := by
  intro l
  induction l with
  | nil =>
    intro ps _
    simp [List.foldlM]
  | cons a t ih =>
    intro ps h
    rw [List.foldlM_cons, h a (List.mem_cons_self a t)]
    show (t.foldlM f ⟨ps.objects ++ g a, ps.read_index⟩) = _
    rw [ih ⟨ps.objects ++ g a, ps.read_index⟩
      (fun s hs ps' => h s (List.mem_cons_of_mem a hs) ps')]
    simp [List.append_assoc]

set_option maxHeartbeats 800000 in
/-- Specification of `FRI::query`: it succeeds on in-range indices over
power-of-two codewords, appends exactly the expected `LEAF` and `PATH`
objects, and every pushed path authenticates the corresponding leaf value
against the codeword's Merkle root. -/
lemma query_spec (p : Nat) (f : FRI) (H : Bytes → Bytes) (encE : Nat → Bytes)
    (current next : List Nat) (c_indices : List Nat)
    (ps : ProofStream (List Nat)) (mcur mnext : Nat)
    (hclen : current.length = 2 ^ mcur) (hm : 1 ≤ mcur)
    (hnlen : next.length = 2 ^ mnext) (hmn : 1 ≤ mnext)
    (hilen : c_indices.length = f.num_colinearity_tests)
    (hibnd : ∀ x ∈ c_indices, x < current.length / 2)
    (hnext_ge : current.length / 2 ≤ next.length) :
    ∃ paF pbF pcF : Nat → List Bytes,
      FRI.query p f H encE current next c_indices ps =
        some (c_indices ++ c_indices.map (fun i => i + current.length / 2),
          ⟨ps.objects ++
            ((List.range f.num_colinearity_tests).map (fun s =>
              [PSObject.LEAF [current.getD (c_indices.getD s 0) 0,
                current.getD (c_indices.getD s 0 + current.length / 2) 0,
                next.getD (c_indices.getD s 0) 0]])).join ++
            ((List.range f.num_colinearity_tests).map (fun s =>
              [PSObject.PATH (paF s), PSObject.PATH (pbF s),
                PSObject.PATH (pcF s)])).join,
            ps.read_index⟩) ∧
      (∀ s, s < f.num_colinearity_tests →
        (∀ root, Merkle.commit H encE current = some root →
          Merkle.verify H encE root (c_indices.getD s 0) (paF s)
            (current.getD (c_indices.getD s 0) 0) = some true) ∧
        (∀ root, Merkle.commit H encE current = some root →
          Merkle.verify H encE root (c_indices.getD s 0 + current.length / 2)
            (pbF s)
            (current.getD (c_indices.getD s 0 + current.length / 2) 0) =
              some true) ∧
        (∀ root, Merkle.commit H encE next = some root →
          Merkle.verify H encE root (c_indices.getD s 0) (pcF s)
            (next.getD (c_indices.getD s 0) 0) = some true)) := by
  have hcpos : 0 < current.length := by
    rw [hclen]
    positivity
  have hidx : ∀ s, s < f.num_colinearity_tests →
      c_indices.getD s 0 < current.length / 2 := by
    intro s hs
    have hsl : s < c_indices.length := by omega
    rw [List.getD_eq_getElem c_indices 0 hsl]
    exact hibnd _ (List.getElem_mem hsl)
  -- choose the three authentication paths for every test index
  have hpa : ∃ paF : Nat → List Bytes, ∀ s, s < f.num_colinearity_tests →
      Merkle.openData H encE (c_indices.getD s 0) current = some (paF s) ∧
      (∀ root, Merkle.commit H encE current = some root →
        Merkle.verify H encE root (c_indices.getD s 0) (paF s)
          (current.getD (c_indices.getD s 0) 0) = some true) := by
    have hex : ∀ s, s < f.num_colinearity_tests →
        ∃ pa, Merkle.openData H encE (c_indices.getD s 0) current = some pa ∧
        (∀ root, Merkle.commit H encE current = some root →
          Merkle.verify H encE root (c_indices.getD s 0) pa
            (current.getD (c_indices.getD s 0) 0) = some true) := by
      intro s hs
      have hib : c_indices.getD s 0 < current.length := by
        have := hidx s hs
        omega
      obtain ⟨path, hpath, hver⟩ := merkle_rt H encE current mcur hm hclen
        (c_indices.getD s 0) hib (current.getD (c_indices.getD s 0) 0)
        (by rw [List.getElem?_eq_getElem hib, List.getD_eq_getElem current 0 hib])
      exact ⟨path, hpath, hver⟩
    refine ⟨fun s => if hs : s < f.num_colinearity_tests then
      Classical.choose (hex s hs) else [], ?_⟩
    intro s hs
    simp only [dif_pos hs]
    exact Classical.choose_spec (hex s hs)
  have hpb : ∃ pbF : Nat → List Bytes, ∀ s, s < f.num_colinearity_tests →
      Merkle.openData H encE (c_indices.getD s 0 + current.length / 2)
        current = some (pbF s) ∧
      (∀ root, Merkle.commit H encE current = some root →
        Merkle.verify H encE root (c_indices.getD s 0 + current.length / 2)
          (pbF s)
          (current.getD (c_indices.getD s 0 + current.length / 2) 0) =
            some true) := by
    have hex : ∀ s, s < f.num_colinearity_tests →
        ∃ pb, Merkle.openData H encE (c_indices.getD s 0 + current.length / 2)
          current = some pb ∧
        (∀ root, Merkle.commit H encE current = some root →
          Merkle.verify H encE root (c_indices.getD s 0 + current.length / 2)
            pb (current.getD (c_indices.getD s 0 + current.length / 2) 0) =
              some true) := by
      intro s hs
      have hib : c_indices.getD s 0 + current.length / 2 < current.length := by
        have := hidx s hs
        omega
      obtain ⟨path, hpath, hver⟩ := merkle_rt H encE current mcur hm hclen
        _ hib (current.getD (c_indices.getD s 0 + current.length / 2) 0)
        (by rw [List.getElem?_eq_getElem hib, List.getD_eq_getElem current 0 hib])
      exact ⟨path, hpath, hver⟩
    refine ⟨fun s => if hs : s < f.num_colinearity_tests then
      Classical.choose (hex s hs) else [], ?_⟩
    intro s hs
    simp only [dif_pos hs]
    exact Classical.choose_spec (hex s hs)
  have hpc : ∃ pcF : Nat → List Bytes, ∀ s, s < f.num_colinearity_tests →
      Merkle.openData H encE (c_indices.getD s 0) next = some (pcF s) ∧
      (∀ root, Merkle.commit H encE next = some root →
        Merkle.verify H encE root (c_indices.getD s 0) (pcF s)
          (next.getD (c_indices.getD s 0) 0) = some true) := by
    have hex : ∀ s, s < f.num_colinearity_tests →
        ∃ pc, Merkle.openData H encE (c_indices.getD s 0) next = some pc ∧
        (∀ root, Merkle.commit H encE next = some root →
          Merkle.verify H encE root (c_indices.getD s 0) pc
            (next.getD (c_indices.getD s 0) 0) = some true) := by
      intro s hs
      have hib : c_indices.getD s 0 < next.length := by
        have := hidx s hs
        omega
      obtain ⟨path, hpath, hver⟩ := merkle_rt H encE next mnext hmn hnlen
        _ hib (next.getD (c_indices.getD s 0) 0)
        (by rw [List.getElem?_eq_getElem hib, List.getD_eq_getElem next 0 hib])
      exact ⟨path, hpath, hver⟩
    refine ⟨fun s => if hs : s < f.num_colinearity_tests then
      Classical.choose (hex s hs) else [], ?_⟩
    intro s hs
    simp only [dif_pos hs]
    exact Classical.choose_spec (hex s hs)
  obtain ⟨paF, hpaF⟩ := hpa
  obtain ⟨pbF, hpbF⟩ := hpb
  obtain ⟨pcF, hpcF⟩ := hpc
  refine ⟨paF, pbF, pcF, ?_, fun s hs =>
    ⟨(hpaF s hs).2, (hpbF s hs).2, (hpcF s hs).2⟩⟩
  simp only [FRI.query]
  have hloop1 := foldlM_pushes
    (fun ps s => do
      let ai ← c_indices[s]?
      let bi ← (c_indices.map (fun i => i + current.length / 2))[s]?
      let ci ← c_indices[s]?
      let av ← current[ai]?
      let bv ← current[bi]?
      let cv ← next[ci]?
      some (ProofStream.push_leafs ps [av, bv, cv]))
    (fun s => [PSObject.LEAF [current.getD (c_indices.getD s 0) 0,
      current.getD (c_indices.getD s 0 + current.length / 2) 0,
      next.getD (c_indices.getD s 0) 0]])
    (List.range f.num_colinearity_tests) ps ?_
  swap
  · intro s hsm ps'
    beta_reduce
    rw [List.mem_range] at hsm
    have hsl : s < c_indices.length := by omega
    have hci : c_indices[s]? = some (c_indices.getD s 0) := by
      rw [List.getElem?_eq_getElem hsl, List.getD_eq_getElem c_indices 0 hsl]
    have hbi : (c_indices.map (fun i => i + current.length / 2))[s]? =
        some (c_indices.getD s 0 + current.length / 2) := by
      rw [List.getElem?_map, hci]
      rfl
    have hai_lt : c_indices.getD s 0 < current.length := by
      have := hidx s hsm
      omega
    have hbi_lt : c_indices.getD s 0 + current.length / 2 < current.length := by
      have := hidx s hsm
      omega
    have hci_lt : c_indices.getD s 0 < next.length := by
      have := hidx s hsm
      omega
    rw [hci, hbi]
    simp only [Option.bind_eq_bind, Option.some_bind]
    rw [List.getElem?_eq_getElem hai_lt, List.getElem?_eq_getElem hbi_lt,
      List.getElem?_eq_getElem hci_lt]
    simp only [Option.some_bind]
    rw [← List.getD_eq_getElem current 0 hai_lt,
      ← List.getD_eq_getElem current 0 hbi_lt,
      ← List.getD_eq_getElem next 0 hci_lt]
    rfl
  rw [hloop1]
  simp only [Option.bind_eq_bind, Option.some_bind]
  have hloop2 := foldlM_pushes
    (fun ps s =>
      (c_indices[s]?).bind fun ai =>
      ((c_indices.map (fun i => i + current.length / 2))[s]?).bind fun bi =>
      (c_indices[s]?).bind fun ci =>
      (Merkle.openData H encE ai current).bind fun p1 =>
      (Merkle.openData H encE bi current).bind fun p2 =>
      (Merkle.openData H encE ci next).bind fun p3 =>
      some (ProofStream.push_path
        (ProofStream.push_path (ProofStream.push_path ps p1) p2) p3))
    (fun s => [PSObject.PATH (paF s), PSObject.PATH (pbF s),
      PSObject.PATH (pcF s)])
    (List.range f.num_colinearity_tests)
    ⟨ps.objects ++ ((List.range f.num_colinearity_tests).map (fun s =>
      [PSObject.LEAF [current.getD (c_indices.getD s 0) 0,
        current.getD (c_indices.getD s 0 + current.length / 2) 0,
        next.getD (c_indices.getD s 0) 0]])).join, ps.read_index⟩ ?_
  swap
  · intro s hsm ps'
    beta_reduce
    rw [List.mem_range] at hsm
    have hsl : s < c_indices.length := by omega
    have hci : c_indices[s]? = some (c_indices.getD s 0) := by
      rw [List.getElem?_eq_getElem hsl, List.getD_eq_getElem c_indices 0 hsl]
    have hbi : (c_indices.map (fun i => i + current.length / 2))[s]? =
        some (c_indices.getD s 0 + current.length / 2) := by
      rw [List.getElem?_map, hci]
      rfl
    rw [hci, hbi]
    simp only [Option.some_bind]
    rw [(hpaF s hsm).1, (hpbF s hsm).1, (hpcF s hsm).1]
    simp only [Option.some_bind]
    simp [ProofStream.push_path, ProofStream.push, List.append_assoc]
  rw [hloop2]
  simp [List.append_assoc]


/-- The `LEAF` objects pushed by `FRI::query` during round `j` of the
prover's query phase, in terms of the top-level indices. -/
def leafSeg (cws : List (List Nat)) (top : List Nat) (k nct : Nat) (j : Nat) :
    List (PSObject (List Nat)) :=
  ((List.range nct).map (fun s =>
    [PSObject.LEAF [(cws.getD j []).getD (top.getD s 0 % 2 ^ (k - j - 1)) 0,
      (cws.getD j []).getD (top.getD s 0 % 2 ^ (k - j - 1) + 2 ^ (k - j - 1)) 0,
      (cws.getD (j + 1) []).getD (top.getD s 0 % 2 ^ (k - j - 1)) 0]])).join

/-- The `PATH` objects pushed by `FRI::query` during round `j` of the
prover's query phase. -/
def pathSeg (nct : Nat) (paF pbF pcF : Nat → Nat → List Bytes) (j : Nat) :
    List (PSObject (List Nat)) :=
  ((List.range nct).map (fun s =>
    [PSObject.PATH (paF j s), PSObject.PATH (pbF j s),
      PSObject.PATH (pcF j s)])).join

set_option maxHeartbeats 1600000 in
/-- Specification of the `enumerate` fold at the end of `FRI::prove`: over
power-of-two codewords it succeeds, appends per-round `LEAF` and `PATH`
segments determined by the top-level indices reduced modulo the halved
domain sizes, and every path authenticates its leaf value. -/
lemma proveQueryLoop_spec (p : Nat) (f : FRI) (H : Bytes → Bytes)
    (encE : Nat → Bytes) (cws : List (List Nat)) (top : List Nat) (k R : Nat)
    (hR : cws.length = R) (hkR : R ≤ k)
    (hlen : ∀ i, i < R → (cws.getD i []).length = 2 ^ (k - i))
    (htop : top.length = f.num_colinearity_tests) :
    ∀ (cnt i : Nat), i + cnt = R →
    ∀ (ind : List Nat) (ps : ProofStream (List Nat)),
      ind.length = f.num_colinearity_tests →
      (∀ j, j < f.num_colinearity_tests →
        ind.getD j 0 = top.getD j 0 % 2 ^ (k - i)) →
      ∃ (paF pbF pcF : Nat → Nat → List Bytes) (indF : List Nat),
        FRI.proveQueryLoop p f H encE cws
            (List.enumFrom i (cws.drop i)) ind ps =
          some (indF, ⟨ps.objects ++ ((List.range (cnt - 1)).map (fun t =>
            leafSeg cws top k f.num_colinearity_tests (i + t) ++
            pathSeg f.num_colinearity_tests paF pbF pcF (i + t))).join,
            ps.read_index⟩) ∧
        (∀ j s, i ≤ j → j + 1 < R → s < f.num_colinearity_tests →
          (∀ root, Merkle.commit H encE (cws.getD j []) = some root →
            Merkle.verify H encE root (top.getD s 0 % 2 ^ (k - j - 1))
              (paF j s)
              ((cws.getD j []).getD (top.getD s 0 % 2 ^ (k - j - 1)) 0) =
                some true) ∧
          (∀ root, Merkle.commit H encE (cws.getD j []) = some root →
            Merkle.verify H encE root
              (top.getD s 0 % 2 ^ (k - j - 1) + 2 ^ (k - j - 1)) (pbF j s)
              ((cws.getD j []).getD
                (top.getD s 0 % 2 ^ (k - j - 1) + 2 ^ (k - j - 1)) 0) =
                some true) ∧
          (∀ root, Merkle.commit H encE (cws.getD (j + 1) []) = some root →
            Merkle.verify H encE root (top.getD s 0 % 2 ^ (k - j - 1))
              (pcF j s)
              ((cws.getD (j + 1) []).getD
                (top.getD s 0 % 2 ^ (k - j - 1)) 0) = some true)) := by
  intro cnt
  induction cnt with
  | zero =>
    intro i hi ind ps hindl hindp
    have hiR : i = R := by omega
    subst hiR
    have hdrop : cws.drop i = [] := List.drop_eq_nil_of_le (by omega)
    refine ⟨fun _ _ => [], fun _ _ => [], fun _ _ => [], ind, ?_, ?_⟩
    · rw [hdrop]
      simp [FRI.proveQueryLoop, List.enumFrom]
    · intro j s hij hjR hs
      omega
  | succ cnt ih =>
    intro i hi ind ps hindl hindp
    have hiR : i < R := by omega
    have hiR' : i < cws.length := by omega
    have hdrop : cws.drop i = cws[i] :: cws.drop (i + 1) :=
      List.drop_eq_getElem_cons hiR'
    rw [hdrop]
    show ∃ _ _ _ _, FRI.proveQueryLoop p f H encE cws
        ((i, cws[i]) :: List.enumFrom (i + 1) (cws.drop (i + 1))) ind ps =
      _ ∧ _
    by_cases hlast : i < R - 1
    case neg =>
      -- the final codeword: the loop skips it and finishes
      have hieq : i = R - 1 := by omega
      have hcnt0 : cnt = 0 := by omega
      subst hcnt0
      have hdrop2 : cws.drop (i + 1) = [] := List.drop_eq_nil_of_le (by omega)
      refine ⟨fun _ _ => [], fun _ _ => [], fun _ _ => [], ind, ?_, ?_⟩
      · rw [FRI.proveQueryLoop, if_neg (by omega), hdrop2]
        simp [FRI.proveQueryLoop, List.enumFrom]
      · intro j s hij hjR hs
        omega
    case pos =>
      have hcnt1 : 1 ≤ cnt := by omega
      have hki : 2 ≤ k - i := by omega
      have hcur : cws.getD i [] = cws[i] := List.getD_eq_getElem cws [] hiR'
      have hcurlen : (cws[i] : List Nat).length = 2 ^ (k - i) := by
        rw [← hcur]
        exact hlen i hiR
      have hhalf : (cws[i] : List Nat).length / 2 = 2 ^ (k - i - 1) := by
        rw [hcurlen]
        rw [show (2 : Nat) ^ (k - i) = 2 ^ (k - i - 1) * 2 from by
          rw [← pow_succ]
          congr 1
          omega]
        exact Nat.mul_div_cancel _ (by omega)
      have hi1R : i + 1 < R := by omega
      have hi1R' : i + 1 < cws.length := by omega
      have hnxt : cws.getD (i + 1) [] = cws[i + 1] :=
        List.getD_eq_getElem cws [] hi1R'
      have hnxtlen : (cws[i + 1] : List Nat).length = 2 ^ (k - (i + 1)) := by
        rw [← hnxt]
        exact hlen (i + 1) hi1R
      -- the reduced index list fed to query and to the recursive call
      set ind' : List Nat :=
        ind.map (fun index => index % ((cws[i] : List Nat).length / 2)) with hind'
      have hind'l : ind'.length = f.num_colinearity_tests := by
        rw [hind', List.length_map, hindl]
      have hind'p : ∀ j, j < f.num_colinearity_tests →
          ind'.getD j 0 = top.getD j 0 % 2 ^ (k - i - 1) := by
        intro j hj
        have hjl : j < ind.length := by omega
        rw [hind']
        rw [List.getD_eq_getElem _ 0 (by rw [List.length_map]; omega),
          List.getElem_map, ← List.getD_eq_getElem ind 0 hjl, hindp j hj,
          hhalf]
        exact Nat.mod_mod_of_dvd _ (pow_dvd_pow 2 (by omega))
      have hind'p1 : ∀ j, j < f.num_colinearity_tests →
          ind'.getD j 0 = top.getD j 0 % 2 ^ (k - (i + 1)) := by
        intro j hj
        rw [hind'p j hj, show k - i - 1 = k - (i + 1) from by omega]
      -- run query on this round
      obtain ⟨qpa, qpb, qpc, hq, hqprops⟩ := query_spec p f H encE
        cws[i] cws[i + 1] ind' ps (k - i) (k - (i + 1)) hcurlen (by omega)
        hnxtlen (by omega) hind'l
        (by
          intro x hx
          rw [hind'] at hx
          obtain ⟨y, hy, rfl⟩ := List.mem_map.mp hx
          exact Nat.mod_lt _ (by rw [hhalf]; positivity))
        (by rw [hhalf, hnxtlen, show k - (i + 1) = k - i - 1 from by omega])
      -- run the rest of the loop
      obtain ⟨paF', pbF', pcF', indF, hrec, hprops'⟩ := ih (i + 1) (by omega)
        ind' ⟨ps.objects ++
          ((List.range f.num_colinearity_tests).map (fun s =>
            [PSObject.LEAF [(cws[i] : List Nat).getD (ind'.getD s 0) 0,
              (cws[i] : List Nat).getD
                (ind'.getD s 0 + (cws[i] : List Nat).length / 2) 0,
              (cws[i + 1] : List Nat).getD (ind'.getD s 0) 0]])).join ++
          ((List.range f.num_colinearity_tests).map (fun s =>
            [PSObject.PATH (qpa s), PSObject.PATH (qpb s),
              PSObject.PATH (qpc s)])).join, ps.read_index⟩
        hind'l hind'p1
      refine ⟨(fun j s => if j = i then qpa s else paF' j s),
        (fun j s => if j = i then qpb s else pbF' j s),
        (fun j s => if j = i then qpc s else pcF' j s), indF, ?_, ?_⟩
      · -- evaluate one unfolding of the loop
        rw [FRI.proveQueryLoop, if_pos (by omega),
          if_neg (show ¬ (cws[i] : List Nat).length / 2 = 0 from by
            rw [hhalf]; positivity)]
        rw [show cws[i + 1]? = some cws[i + 1] from
          List.getElem?_eq_getElem hi1R']
        simp only [Option.bind_eq_bind, Option.some_bind]
        rw [← hind', hq]
        simp only [Option.some_bind]
        show FRI.proveQueryLoop p f H encE cws
          (List.enumFrom (i + 1) (cws.drop (i + 1))) ind' _ = _
        rw [hrec]
        dsimp only
        -- identify the object lists
        have hleaf : ((List.range f.num_colinearity_tests).map (fun s =>
            [PSObject.LEAF [(cws[i] : List Nat).getD (ind'.getD s 0) 0,
              (cws[i] : List Nat).getD
                (ind'.getD s 0 + (cws[i] : List Nat).length / 2) 0,
              (cws[i + 1] : List Nat).getD (ind'.getD s 0) 0]])).join =
            leafSeg cws top k f.num_colinearity_tests i := by
          rw [leafSeg]
          refine congrArg _ (List.map_congr_left ?_)
          intro s hs
          rw [List.mem_range] at hs
          rw [hind'p s hs, hhalf, hcur, hnxt]
        have hpath : ((List.range f.num_colinearity_tests).map (fun s =>
            [PSObject.PATH (qpa s), PSObject.PATH (qpb s),
              PSObject.PATH (qpc s)])).join =
            pathSeg f.num_colinearity_tests
              (fun j s => if j = i then qpa s else paF' j s)
              (fun j s => if j = i then qpb s else pbF' j s)
              (fun j s => if j = i then qpc s else pcF' j s) i := by
          rw [pathSeg]
          refine congrArg _ (List.map_congr_left ?_)
          intro s hs
          beta_reduce
          rw [if_pos rfl, if_pos rfl, if_pos rfl]
        have htail : ((List.range (cnt - 1)).map (fun t =>
            leafSeg cws top k f.num_colinearity_tests (i + 1 + t) ++
            pathSeg f.num_colinearity_tests paF' pbF' pcF' (i + 1 + t))).join =
            ((List.range (cnt - 1)).map ((fun t =>
            leafSeg cws top k f.num_colinearity_tests (i + t) ++
            pathSeg f.num_colinearity_tests
              (fun j s => if j = i then qpa s else paF' j s)
              (fun j s => if j = i then qpb s else pbF' j s)
              (fun j s => if j = i then qpc s else pcF' j s)
              (i + t)) ∘ Nat.succ)).join := by
          refine congrArg _ (List.map_congr_left ?_)
          intro t ht
          simp only [Function.comp]
          beta_reduce
          have harg : i + 1 + t = i + (t + 1) := by omega
          rw [harg]
          refine congrArg₂ _ rfl ?_
          rw [pathSeg, pathSeg]
          refine congrArg _ (List.map_congr_left ?_)
          intro s hs
          beta_reduce
          rw [if_neg (by omega), if_neg (by omega), if_neg (by omega)]
        rw [hleaf, hpath, htail]
        rw [show cnt + 1 - 1 = (cnt - 1) + 1 from by omega,
          List.range_succ_eq_map, List.map_cons]
        simp only [List.join, List.map_map]
        rw [List.flatten_cons]
        beta_reduce
        rw [show i + 0 = i from by omega]
        simp [List.append_assoc]
      · -- the authentication properties
        intro j s hij hjR hs
        by_cases hji : j = i
        · subst hji
          obtain ⟨h1, h2, h3⟩ := hqprops s hs
          beta_reduce
          rw [if_pos rfl, if_pos rfl, if_pos rfl]
          refine ⟨?_, ?_, ?_⟩
          · intro root hroot
            have := h1 root (by rw [← hcur]; exact hroot)
            rw [hind'p s hs] at this
            rw [hcur]
            exact this
          · intro root hroot
            have := h2 root (by rw [← hcur]; exact hroot)
            rw [hind'p s hs, hhalf] at this
            rw [hcur]
            exact this
          · intro root hroot
            have := h3 root (by rw [← hnxt]; exact hroot)
            rw [hind'p s hs] at this
            rw [hnxt]
            exact this
        · obtain ⟨h1, h2, h3⟩ := hprops' j s (by omega) hjR hs
          beta_reduce
          rw [if_neg hji, if_neg hji, if_neg hji]
          exact ⟨h1, h2, h3⟩


set_option maxHeartbeats 1600000 in
/-- Characterization of a successful run of `FRI::prove` on an evaluated
low-degree codeword: the proof stream consists of the per-round Merkle
roots, the last codeword, and the per-round `LEAF`/`PATH` query segments,
with the folded codewords tracking folds of the underlying coefficient
lists and every path authenticating its leaf. -/
lemma prove_spec (p : Nat) [hp : Fact p.Prime] (hp2 : 2 < p)
    (f : FRI) (H : Bytes → Bytes) (encE : Nat → Bytes)
    (encPS : List (PSObject (List Nat)) → Bytes) (shake : Bytes → Nat → Bytes)
    (fuel : Nat) (k e R : Nat)
    (hRdef : R = num_rounds f.domain_length f.expansion_factor
      f.num_colinearity_tests)
    (hdl : f.domain_length = 2 ^ k)
    (hom : f.omega < p) (hoff : f.offset < p)
    (hw1 : ((f.omega : Nat) : ZMod p) ^ 2 ^ k = 1)
    (hwhalf : ((f.omega : Nat) : ZMod p) ^ 2 ^ (k - 1) = -1)
    (hk1 : 1 ≤ k) (ho : ((f.offset : Nat) : ZMod p) ≠ 0) (hk31 : k ≤ 31)
    (hRe : e + (R - 1) < k) (hR2 : 2 ≤ R)
    (cw : List Nat) (lz : List (ZMod p))
    (hcwlen : cw.length = 2 ^ k) (hcwc : ∀ x ∈ cw, x < p)
    (hrep : ∀ i, i < 2 ^ k → ((cw.getD i 0 : Nat) : ZMod p) =
      (toPZ lz).eval
        (((f.offset : Nat) : ZMod p) * ((f.omega : Nat) : ZMod p) ^ i))
    (hlzlen : lz.length ≤ 2 ^ (k - e))
    (idxs : List Nat) (st : ProofStream (List Nat))
    (hprove : FRI.prove p f H encE encPS shake fuel cw ⟨[], 0⟩ =
      some (idxs, st)) :
    ∃ (cwF : Nat → List Nat) (lzF : Nat → List (ZMod p))
      (roots : List Bytes) (paF pbF pcF : Nat → Nat → List Bytes),
      cwF 0 = cw ∧ lzF 0 = lz ∧ roots.length = R ∧
      (∀ j, j < R →
        (cwF j).length = 2 ^ (k - j) ∧
        (∀ x ∈ cwF j, x < p) ∧
        (∀ i, i < 2 ^ (k - j) →
          (((cwF j).getD i 0 : Nat) : ZMod p) =
            (toPZ (lzF j)).eval
              ((((f.offset : Nat) : ZMod p) ^ 2 ^ j) *
                (((f.omega : Nat) : ZMod p) ^ 2 ^ j) ^ i)) ∧
        (lzF j).length ≤ 2 ^ (k - j - e) ∧
        Merkle.commit H encE (cwF j) = some (roots.getD j [])) ∧
      (∀ j, j + 1 < R →
        lzF (j + 1) =
          foldList ((fsample p (shake (encPS
              ((roots.take (j + 1)).map PSObject.HASH)) 32) : Nat) : ZMod p)
            (lzF j)) ∧
      FRI.sample_indices H (shake (encPS (roots.map PSObject.HASH ++
          [PSObject.OBJ (cwF (R - 1))])) 32)
        (cwF 1).length (cwF (R - 1)).length f.num_colinearity_tests fuel =
        some idxs ∧
      idxs.length = f.num_colinearity_tests ∧
      (∀ x ∈ idxs, x < 2 ^ (k - 1)) ∧
      st.objects = (roots.map PSObject.HASH ++
        [PSObject.OBJ (cwF (R - 1))]) ++
        ((List.range (R - 1)).map (fun t =>
          leafSeg ((List.range R).map cwF) idxs k f.num_colinearity_tests t ++
          pathSeg f.num_colinearity_tests paF pbF pcF t)).join ∧
      st.read_index = 0 ∧
      (∀ j s, j + 1 < R → s < f.num_colinearity_tests →
        Merkle.verify H encE (roots.getD j [])
          (idxs.getD s 0 % 2 ^ (k - j - 1)) (paF j s)
          ((cwF j).getD (idxs.getD s 0 % 2 ^ (k - j - 1)) 0) = some true ∧
        Merkle.verify H encE (roots.getD j [])
          (idxs.getD s 0 % 2 ^ (k - j - 1) + 2 ^ (k - j - 1)) (pbF j s)
          ((cwF j).getD
            (idxs.getD s 0 % 2 ^ (k - j - 1) + 2 ^ (k - j - 1)) 0) =
          some true ∧
        Merkle.verify H encE (roots.getD (j + 1) [])
          (idxs.getD s 0 % 2 ^ (k - j - 1)) (pcF j s)
          ((cwF (j + 1)).getD (idxs.getD s 0 % 2 ^ (k - j - 1)) 0) =
          some true) := by
  -- run the commit phase
  obtain ⟨cwF, lzF, roots, psOut, hcl, hcw0, hlz0, hrlen, hpsobj, hpsidx,
      hfacts, hfold⟩ :=
    commitLoop_spec p hp2 H encE encPS shake ((f.omega : Nat) : ZMod p)
      ((f.offset : Nat) : ZMod p) k e R hw1 hwhalf hk1 ho hk31 hRe R 0
      (by omega) (by omega) cw f.omega f.offset ⟨[], 0⟩ [] lz hom hoff
      (by rw [pow_zero, pow_one]) (by rw [pow_zero, pow_one])
      (by simpa using hcwlen) hcwc (by simpa using hrep) (by simpa using hlzlen)
  have hdc : f.domain_length = cw.length := by rw [hdl, hcwlen]
  -- clean up the codeword list produced by commit
  have hcwsBig : (([] : List (List Nat)) ++
      (List.range (R - 1)).map (fun t => cwF (0 + t))) ++ [cwF (R - 1)] =
      (List.range R).map cwF := by
    rw [List.nil_append]
    have h1 : (List.range (R - 1)).map (fun t => cwF (0 + t)) =
        (List.range (R - 1)).map cwF :=
      List.map_congr_left (fun t _ => by beta_reduce; rw [Nat.zero_add])
    rw [h1]
    have h2 : R = (R - 1) + 1 := by omega
    conv_rhs => rw [h2, List.range_succ]
    rw [List.map_append, List.map_singleton]
  have hget : ∀ j, j < R → ((List.range R).map cwF).getD j [] = cwF j := by
    intro j hj
    rw [List.getD_eq_getElem _ _ (by simpa using hj)]
    simp
  -- unfold prove and commit in the success hypothesis
  simp only [FRI.prove, FRI.commit] at hprove
  rw [if_pos hdc, ← hRdef, hcl] at hprove
  simp only [Option.bind_eq_bind, Option.some_bind] at hprove
  rw [hcwsBig] at hprove
  have h1q : ((List.range R).map cwF)[1]? = some (cwF 1) := by
    rw [List.getElem?_map, List.getElem?_range (by omega)]
    rfl
  have hlq : ((List.range R).map cwF).getLast? = some (cwF (R - 1)) := by
    rw [List.getLast?_eq_getElem?]
    have hlen : ((List.range R).map cwF).length = R := by simp
    rw [hlen, List.getElem?_map, List.getElem?_range (by omega)]
    rfl
  rw [h1q, hlq] at hprove
  simp only [Option.some_bind] at hprove
  -- the top-level index sampling must have succeeded
  cases hsi : FRI.sample_indices H
      (ProofStream.prover_fiat_shamir shake encPS
        (ProofStream.push_obj psOut (cwF (R - 1))) 32)
      (cwF 1).length (cwF (R - 1)).length f.num_colinearity_tests fuel with
  | none =>
    rw [hsi] at hprove
    simp only [Option.bind_eq_bind, Option.none_bind] at hprove
    exact absurd hprove (by simp)
  | some top =>
    rw [hsi] at hprove
    simp only [Option.some_bind] at hprove
    obtain ⟨htopbnd, htoplen⟩ := sample_indices_out H _ _ _ _ _ _ hsi
    have hcw1len : (cwF 1).length = 2 ^ (k - 1) :=
      (hfacts 1 (by omega) (by omega)).1
    have hcwRlen : (cwF (R - 1)).length = 2 ^ (k - (R - 1)) :=
      (hfacts (R - 1) (by omega) (by omega)).1
    -- run the query loop
    obtain ⟨paF, pbF, pcF, indF, hql, hqprops⟩ :=
      proveQueryLoop_spec p f H encE ((List.range R).map cwF) top k R
        (by simp) (by omega)
        (by
          intro i hi
          rw [hget i hi]
          exact (hfacts i (by omega) hi).1)
        htoplen R 0 (by omega) top
        (ProofStream.push_obj psOut (cwF (R - 1))) htoplen
        (by
          intro j hj
          have hjl : j < top.length := by omega
          rw [List.getD_eq_getElem top 0 hjl]
          refine (Nat.mod_eq_of_lt ?_).symm
          have := htopbnd _ (List.getElem_mem hjl)
          rw [hcw1len] at this
          calc top[j] < 2 ^ (k - 1) := this
            _ ≤ 2 ^ (k - 0) := Nat.pow_le_pow_right (by omega) (by omega))
    rw [List.drop_zero] at hql
    have hqe : ((List.range R).map cwF).enum =
        List.enumFrom 0 ((List.range R).map cwF) := rfl
    rw [hqe, hql] at hprove
    simp only [Option.some_bind] at hprove
    simp only [Option.some.injEq, Prod.mk.injEq] at hprove
    obtain ⟨hti, hst⟩ := hprove
    subst hti
    subst hst
    -- clean forms of the stream pieces
    have hpsArg : (ProofStream.push_obj psOut (cwF (R - 1))).objects =
        roots.map PSObject.HASH ++ [PSObject.OBJ (cwF (R - 1))] := by
      show psOut.objects ++ [PSObject.OBJ (cwF (R - 1))] = _
      rw [hpsobj]
      rfl
    have hpsArgIdx : (ProofStream.push_obj psOut (cwF (R - 1))).read_index
        = 0 := by
      show psOut.read_index = 0
      rw [hpsidx]
    refine ⟨cwF, lzF, roots, paF, pbF, pcF, hcw0, hlz0, hrlen, ?_, ?_, ?_,
      ?_, ?_, ?_, ?_, ?_⟩
    · intro j hj
      exact hfacts j (by omega) hj
    · intro j hj
      have := hfold j (by omega) hj
      simpa using this
    · -- the sampling call, with the seed written out
      rw [← hsi]
      congr 1
      show _ = shake
        (encPS (ProofStream.push_obj psOut (cwF (R - 1))).objects) 32
      rw [hpsArg]
    · exact htoplen
    · intro x hx
      have := htopbnd x hx
      rwa [hcw1len] at this
    · -- the object list of the output stream
      show (ProofStream.push_obj psOut (cwF (R - 1))).objects ++ _ = _
      rw [hpsArg]
      refine congrArg _ ?_
      refine congrArg _ (List.map_congr_left ?_)
      intro t ht
      beta_reduce
      rw [Nat.zero_add]
    · show (ProofStream.push_obj psOut (cwF (R - 1))).read_index = 0
      exact hpsArgIdx
    · intro j s hjR hs
      obtain ⟨h1, h2, h3⟩ := hqprops j s (by omega) hjR hs
      have hc1 : Merkle.commit H encE (((List.range R).map cwF).getD j []) =
          some (roots.getD j []) := by
        rw [hget j (by omega)]
        exact (hfacts j (by omega) (by omega)).2.2.2.2
      have hc2 : Merkle.commit H encE
          (((List.range R).map cwF).getD (j + 1) []) =
          some (roots.getD (j + 1) []) := by
        rw [hget (j + 1) (by omega)]
        exact (hfacts (j + 1) (by omega) (by omega)).2.2.2.2
      refine ⟨?_, ?_, ?_⟩
      · have := h1 _ hc1
        rwa [hget j (by omega)] at this
      · have := h2 _ hc1
        rwa [hget j (by omega)] at this
      · have := h3 _ hc2
        rwa [hget (j + 1) (by omega)] at this


/-- Replay of the root-and-alpha collection loop of `FRI::verify` on a
stream whose prefix is a list of `HASH` objects. -/
lemma pullRootsAlphas_spec (p : Nat) (shake : Bytes → Nat → Bytes)
    (encPS : List (PSObject (List Nat)) → Bytes)
    (roots : List Bytes) (rest : List (PSObject (List Nat))) :
    ∀ (n m : Nat), m + n = roots.length →
      FRI.pullRootsAlphas p shake encPS n
        ⟨roots.map PSObject.HASH ++ rest, m⟩ (roots.take m)
        ((List.range m).map (fun r => fsample p (shake (encPS
          ((roots.take (r + 1)).map PSObject.HASH)) 32))) =
      some (roots, (List.range roots.length).map (fun r =>
          fsample p (shake (encPS
            ((roots.take (r + 1)).map PSObject.HASH)) 32)),
        ⟨roots.map PSObject.HASH ++ rest, roots.length⟩) := by
  intro n
  induction n with
  | zero =>
    intro m hm
    have hmr : m = roots.length := by omega
    subst hmr
    rw [List.take_length]
    rfl
  | succ n ih =>
    intro m hm
    have hm' : m < roots.length := by omega
    have hobj : (roots.map PSObject.HASH ++ rest)[m]? =
        some (PSObject.HASH roots[m]) := by
      rw [List.getElem?_append_left (by simpa using hm'), List.getElem?_map,
        List.getElem?_eq_getElem hm']
      rfl
    rw [FRI.pullRootsAlphas, pull_at _ _ _ hobj]
    simp only [Option.bind_eq_bind, Option.some_bind]
    have htk : roots.take m ++ [roots[m]] = roots.take (m + 1) := by
      rw [List.take_succ, List.getElem?_eq_getElem hm']
      rfl
    have hvfs : ProofStream.verifier_fiat_shamir shake encPS
        ⟨roots.map PSObject.HASH ++ rest, m + 1⟩ 32 =
        shake (encPS ((roots.take (m + 1)).map PSObject.HASH)) 32 := by
      rw [ProofStream.verifier_fiat_shamir]
      show shake (encPS ((roots.map PSObject.HASH ++ rest).take (m + 1)))
        32 = _
      rw [List.take_append_eq_append_take,
        show m + 1 - (roots.map PSObject.HASH).length = 0 from by
          simp
          omega,
        List.take_zero, List.append_nil, ← List.map_take]
    have hal : ((List.range m).map (fun r => fsample p (shake (encPS
          ((roots.take (r + 1)).map PSObject.HASH)) 32))) ++
        [fsample p (ProofStream.verifier_fiat_shamir shake encPS
          ⟨roots.map PSObject.HASH ++ rest, m + 1⟩ 32)] =
        (List.range (m + 1)).map (fun r => fsample p (shake (encPS
          ((roots.take (r + 1)).map PSObject.HASH)) 32)) := by
      rw [hvfs, List.range_succ, List.map_append, List.map_singleton]
    show FRI.pullRootsAlphas p shake encPS n
        ⟨roots.map PSObject.HASH ++ rest, m + 1⟩
        (roots.take m ++ [roots[m]]) _ = _
    rw [htk, hal]
    exact ih (m + 1) (by omega)

set_option maxHeartbeats 1600000 in
/-- Replay of the colinearity-test loop of `FRI::verify` on a stream whose
next objects are the expected `LEAF` triples, when every test passes. -/
lemma colinLoop_spec (p : Nat) (offset omega cx r : Nat)
    (a_indices b_indices : List Nat)
    (objs : List (PSObject (List Nat))) (base : Nat) (nct : Nat)
    (av bv cv ai bi : Nat → Nat)
    (ha : ∀ t, t < nct → a_indices[t]? = some (ai t))
    (hb : ∀ t, t < nct → b_indices[t]? = some (bi t))
    (hobj : ∀ t, t < nct → objs[base + t]? =
      some (PSObject.LEAF [av t, bv t, cv t]))
    (htest : ∀ t, t < nct → test_colinearity p
      [(fmul p offset (fpow p omega (ai t)), av t),
       (fmul p offset (fpow p omega (bi t)), bv t),
       (cx, cv t)] = some true) :
    ∀ (n s : Nat), s + n = nct →
    ∀ (pv : List (Nat × Nat)) (aa bb cc : List Nat),
      ∃ pvOut, FRI.colinLoop p offset omega cx r a_indices b_indices n s
        ⟨objs, base + s⟩ pv aa bb cc =
        some (true, ⟨objs, base + nct⟩, pvOut,
          aa ++ (List.range' s n).map av,
          bb ++ (List.range' s n).map bv,
          cc ++ (List.range' s n).map cv) := by
  intro n
  induction n with
  | zero =>
    intro s hs pv aa bb cc
    have hsn : s = nct := by omega
    refine ⟨pv, ?_⟩
    show some (true, (⟨objs, base + s⟩ : ProofStream (List Nat)), pv,
      aa, bb, cc) = _
    rw [hsn, show List.range' nct 0 = ([] : List Nat) from rfl]
    simp only [List.map_nil, List.append_nil]
  | succ n ih =>
    intro s hs pv aa bb cc
    have hsn : s < nct := by omega
    obtain ⟨pvOut, hrec⟩ := ih (s + 1) (by omega)
      (if r = 0 then pv ++ [(ai s, av s), (bi s, bv s)] else pv)
      (aa ++ [av s]) (bb ++ [bv s]) (cc ++ [cv s])
    refine ⟨pvOut, ?_⟩
    rw [FRI.colinLoop, pull_at _ _ _ (hobj s hsn)]
    simp only [Option.bind_eq_bind, Option.some_bind]
    rw [ha s hsn, hb s hsn]
    rw [Option.some_bind]
    beta_reduce
    rw [Option.some_bind]
    beta_reduce
    rw [htest s hsn, Option.some_bind]
    beta_reduce
    rw [if_pos rfl]
    rw [show base + s + 1 = base + (s + 1) from by omega, hrec]
    have hra : aa ++ (List.range' s (n + 1)).map av =
        (aa ++ [av s]) ++ (List.range' (s + 1) n).map av := by
      rw [show List.range' s (n + 1) = s :: List.range' (s + 1) n from rfl,
        List.map_cons, List.append_cons]
    have hrb : bb ++ (List.range' s (n + 1)).map bv =
        (bb ++ [bv s]) ++ (List.range' (s + 1) n).map bv := by
      rw [show List.range' s (n + 1) = s :: List.range' (s + 1) n from rfl,
        List.map_cons, List.append_cons]
    have hrc : cc ++ (List.range' s (n + 1)).map cv =
        (cc ++ [cv s]) ++ (List.range' (s + 1) n).map cv := by
      rw [show List.range' s (n + 1) = s :: List.range' (s + 1) n from rfl,
        List.map_cons, List.append_cons]
    rw [hra, hrb, hrc]

/-- Replay of the authentication-path loop of `FRI::verify` on a stream
whose next objects are the expected `PATH` objects, when every Merkle
verification succeeds. -/
lemma pathLoop_spec (H : Bytes → Bytes) (encE : Nat → Bytes)
    (rootr rootr1 : Bytes) (a_indices b_indices c_indices : List Nat)
    (aa bb cc : List Nat)
    (objs : List (PSObject (List Nat))) (base : Nat) (nct : Nat)
    (ai bi ci av bv cv : Nat → Nat) (pa pb pc : Nat → List Bytes)
    (ha : ∀ t, t < nct → a_indices[t]? = some (ai t))
    (hb : ∀ t, t < nct → b_indices[t]? = some (bi t))
    (hc : ∀ t, t < nct → c_indices[t]? = some (ci t))
    (haa : ∀ t, t < nct → aa[t]? = some (av t))
    (hbb : ∀ t, t < nct → bb[t]? = some (bv t))
    (hcc : ∀ t, t < nct → cc[t]? = some (cv t))
    (hobj1 : ∀ t, t < nct → objs[base + 3 * t]? =
      some (PSObject.PATH (pa t)))
    (hobj2 : ∀ t, t < nct → objs[base + 3 * t + 1]? =
      some (PSObject.PATH (pb t)))
    (hobj3 : ∀ t, t < nct → objs[base + 3 * t + 2]? =
      some (PSObject.PATH (pc t)))
    (hv1 : ∀ t, t < nct →
      Merkle.verify H encE rootr (ai t) (pa t) (av t) = some true)
    (hv2 : ∀ t, t < nct →
      Merkle.verify H encE rootr (bi t) (pb t) (bv t) = some true)
    (hv3 : ∀ t, t < nct →
      Merkle.verify H encE rootr1 (ci t) (pc t) (cv t) = some true) :
    ∀ (n i : Nat), i + n = nct →
      FRI.pathLoop H encE rootr rootr1 a_indices b_indices c_indices
        aa bb cc n i ⟨objs, base + 3 * i⟩ =
      some (true, ⟨objs, base + 3 * nct⟩) := by
  intro n
  induction n with
  | zero =>
    intro i hi
    have hin : i = nct := by omega
    subst hin
    rfl
  | succ n ih =>
    intro i hi
    have hin : i < nct := by omega
    rw [FRI.pathLoop]
    rw [show FRI.pullPath ⟨objs, base + 3 * i⟩ =
        some (pa i, ⟨objs, base + 3 * i + 1⟩) from by
      rw [FRI.pullPath, pull_at _ _ _ (hobj1 i hin)]
      rfl]
    simp only [Option.bind_eq_bind, Option.some_bind]
    rw [ha i hin]
    simp only [Option.some_bind]
    rw [haa i hin]
    simp only [Option.some_bind]
    rw [hv1 i hin]
    simp only [Option.some_bind, if_true]
    rw [show FRI.pullPath ⟨objs, base + 3 * i + 1⟩ =
        some (pb i, ⟨objs, base + 3 * i + 2⟩) from by
      rw [FRI.pullPath, pull_at _ _ _ (hobj2 i hin)]
      rfl]
    simp only [Option.some_bind]
    rw [hb i hin]
    simp only [Option.some_bind]
    rw [hbb i hin]
    simp only [Option.some_bind]
    rw [hv2 i hin]
    simp only [Option.some_bind, if_true]
    rw [show FRI.pullPath ⟨objs, base + 3 * i + 2⟩ =
        some (pc i, ⟨objs, base + 3 * i + 3⟩) from by
      rw [FRI.pullPath, pull_at _ _ _ (hobj3 i hin)]
      rfl]
    simp only [Option.some_bind]
    rw [hc i hin]
    simp only [Option.some_bind]
    rw [hcc i hin]
    simp only [Option.some_bind]
    rw [hv3 i hin]
    simp only [Option.some_bind, if_true]
    rw [show base + 3 * i + 3 = base + 3 * (i + 1) from by omega]
    exact ih (i + 1) (by omega)



set_option maxHeartbeats 1600000 in
/-- Replay of the main round loop of `FRI::verify`: when the stream holds
the prover's per-round `LEAF` and `PATH` segments, every colinearity test
passes and every authentication path verifies, the loop returns `true`. -/
lemma verifyRounds_spec (p : Nat) (H : Bytes → Bytes) (encE : Nat → Bytes)
    (k R nct : Nat) (om0 off0 : Nat)
    (alphas : List Nat) (roots : List Bytes) (top : List Nat)
    (objs : List (PSObject (List Nat)))
    (alF : Nat → Nat) (rtF : Nat → Bytes)
    (avF bvF cvF : Nat → Nat → Nat) (paF pbF pcF : Nat → Nat → List Bytes)
    (hkR : R ≤ k)
    (htoplen : top.length = nct)
    (halphas : ∀ r, r < R - 1 → alphas[r]? = some (alF r))
    (hroots : ∀ r, r < R → roots[r]? = some (rtF r))
    (hleafobj : ∀ r s, r < R - 1 → s < nct →
      objs[R + 1 + 4 * nct * r + s]? =
        some (PSObject.LEAF [avF r s, bvF r s, cvF r s]))
    (hpathobj1 : ∀ r s, r < R - 1 → s < nct →
      objs[R + 1 + 4 * nct * r + nct + 3 * s]? =
        some (PSObject.PATH (paF r s)))
    (hpathobj2 : ∀ r s, r < R - 1 → s < nct →
      objs[R + 1 + 4 * nct * r + nct + 3 * s + 1]? =
        some (PSObject.PATH (pbF r s)))
    (hpathobj3 : ∀ r s, r < R - 1 → s < nct →
      objs[R + 1 + 4 * nct * r + nct + 3 * s + 2]? =
        some (PSObject.PATH (pcF r s)))
    (htest : ∀ r s, r < R - 1 → s < nct →
      test_colinearity p
        [(fmul p (iterSq p off0 r) (fpow p (iterSq p om0 r)
            (top.getD s 0 % 2 ^ (k - r - 1))), avF r s),
         (fmul p (iterSq p off0 r) (fpow p (iterSq p om0 r)
            (top.getD s 0 % 2 ^ (k - r - 1) + 2 ^ (k - r - 1))), bvF r s),
         (alF r, cvF r s)] = some true)
    (hv1 : ∀ r s, r < R - 1 → s < nct →
      Merkle.verify H encE (rtF r) (top.getD s 0 % 2 ^ (k - r - 1))
        (paF r s) (avF r s) = some true)
    (hv2 : ∀ r s, r < R - 1 → s < nct →
      Merkle.verify H encE (rtF r)
        (top.getD s 0 % 2 ^ (k - r - 1) + 2 ^ (k - r - 1))
        (pbF r s) (bvF r s) = some true)
    (hv3 : ∀ r s, r < R - 1 → s < nct →
      Merkle.verify H encE (rtF (r + 1)) (top.getD s 0 % 2 ^ (k - r - 1))
        (pcF r s) (cvF r s) = some true) :
    ∀ (n r : Nat), r + n = R - 1 → ∀ (pv : List (Nat × Nat)),
      ∃ pvOut psOut,
        FRI.verifyRounds p H encE (2 ^ k) nct alphas roots top
          n r (iterSq p om0 r) (iterSq p off0 r) pv
          ⟨objs, R + 1 + 4 * nct * r⟩ = some (true, pvOut, psOut) := by
  intro n
  induction n with
  | zero =>
    intro r hr pv
    exact ⟨pv, ⟨objs, R + 1 + 4 * nct * r⟩, rfl⟩
  | succ n ih =>
    intro r hr pv
    have hrR : r < R - 1 := by omega
    have hrk : r + 1 < k := by omega
    have hsh : (2 : Nat) ^ k >>> (r + 1) = 2 ^ (k - r - 1) := by
      rw [Nat.shiftRight_eq_div_pow, Nat.pow_div (by omega) (by omega)]
      rw [show k - (r + 1) = k - r - 1 from by omega]
    have hsh0 : ¬ (2 : Nat) ^ (k - r - 1) = 0 := by positivity
    -- index lookups in the reduced index lists
    have ha : ∀ t, t < nct →
        (top.map (fun index => index % 2 ^ (k - r - 1)))[t]? =
          some (top.getD t 0 % 2 ^ (k - r - 1)) := by
      intro t ht
      have htl : t < top.length := by omega
      rw [List.getElem?_map, List.getElem?_eq_getElem htl]
      show some (top[t] % 2 ^ (k - r - 1)) = _
      rw [List.getD_eq_getElem top 0 htl]
    have hb : ∀ t, t < nct →
        ((top.map (fun index => index % 2 ^ (k - r - 1))).map
          (fun index => index + 2 ^ (k - r - 1)))[t]? =
          some (top.getD t 0 % 2 ^ (k - r - 1) + 2 ^ (k - r - 1)) := by
      intro t ht
      have htl : t < top.length := by omega
      rw [List.getElem?_map, List.getElem?_map,
        List.getElem?_eq_getElem htl]
      show some (top[t] % 2 ^ (k - r - 1) + 2 ^ (k - r - 1)) = _
      rw [List.getD_eq_getElem top 0 htl]
    -- the colinearity loop
    obtain ⟨pvOut1, hcolin⟩ := colinLoop_spec p (iterSq p off0 r)
      (iterSq p om0 r) (alF r) r
      (top.map (fun index => index % 2 ^ (k - r - 1)))
      ((top.map (fun index => index % 2 ^ (k - r - 1))).map
        (fun index => index + 2 ^ (k - r - 1)))
      objs (R + 1 + 4 * nct * r) nct (avF r) (bvF r) (cvF r)
      (fun t => top.getD t 0 % 2 ^ (k - r - 1))
      (fun t => top.getD t 0 % 2 ^ (k - r - 1) + 2 ^ (k - r - 1))
      ha hb (hleafobj r · hrR ·) (htest r · hrR ·) nct 0 (by omega) pv [] [] []
    rw [Nat.add_zero] at hcolin
    simp only [List.nil_append] at hcolin
    -- the value lists produced by the colinearity loop
    have hval : ∀ (g : Nat → Nat) t, t < nct →
        ((List.range' 0 nct).map g)[t]? = some (g t) := by
      intro g t ht
      rw [← List.range_eq_range', List.getElem?_map,
        List.getElem?_range ht]
      rfl
    -- the path loop
    have hpath := pathLoop_spec H encE (rtF r) (rtF (r + 1))
      (top.map (fun index => index % 2 ^ (k - r - 1)))
      ((top.map (fun index => index % 2 ^ (k - r - 1))).map
        (fun index => index + 2 ^ (k - r - 1)))
      (top.map (fun index => index % 2 ^ (k - r - 1)))
      ((List.range' 0 nct).map (avF r)) ((List.range' 0 nct).map (bvF r))
      ((List.range' 0 nct).map (cvF r))
      objs (R + 1 + 4 * nct * r + nct) nct
      (fun t => top.getD t 0 % 2 ^ (k - r - 1))
      (fun t => top.getD t 0 % 2 ^ (k - r - 1) + 2 ^ (k - r - 1))
      (fun t => top.getD t 0 % 2 ^ (k - r - 1))
      (avF r) (bvF r) (cvF r) (paF r) (pbF r) (pcF r)
      ha hb ha (hval (avF r)) (hval (bvF r)) (hval (cvF r))
      (by
        intro t ht
        rw [show R + 1 + 4 * nct * r + nct + 3 * t =
          R + 1 + 4 * nct * r + nct + 3 * t from rfl]
        exact hpathobj1 r t hrR ht)
      (hpathobj2 r · hrR ·) (hpathobj3 r · hrR ·)
      (hv1 r · hrR ·) (hv2 r · hrR ·) (hv3 r · hrR ·) nct 0 (by omega)
    rw [show R + 1 + 4 * nct * r + nct + 3 * 0 =
      R + 1 + 4 * nct * r + nct from by omega] at hpath
    -- the recursive call
    obtain ⟨pvO, psO, hrec⟩ := ih (r + 1) (by omega) pvOut1
    refine ⟨pvO, psO, ?_⟩
    rw [FRI.verifyRounds]
    rw [hsh, if_neg hsh0]
    rw [halphas r hrR]
    simp only [Option.bind_eq_bind, Option.some_bind]
    rw [hcolin]
    simp only [Option.some_bind]
    rw [if_pos trivial]
    rw [hroots r (by omega)]
    simp only [Option.some_bind]
    rw [hroots (r + 1) (by omega)]
    simp only [Option.some_bind]
    rw [hpath]
    simp only [Option.some_bind]
    rw [if_pos trivial]
    rw [← iterSq_succ p om0 r, ← iterSq_succ p off0 r]
    rw [show R + 1 + 4 * nct * r + nct + 3 * nct =
      R + 1 + 4 * nct * (r + 1) from by ring]
    exact hrec



set_option maxHeartbeats 1600000 in
/-- The algebraic core of FRI completeness: on an honest folded pair of
codewords the three probed points are colinear, so `test_colinearity`
accepts, provided the sampled alpha avoids the evaluation domain. -/
lemma round_colin_true (p : Nat) [hp : Fact p.Prime] (hp2 : 2 < p)
    (om off : Nat) (k r : Nat)
    (hw1 : ((om : Nat) : ZMod p) ^ 2 ^ k = 1)
    (hwhalf : ((om : Nat) : ZMod p) ^ 2 ^ (k - 1) = -1)
    (ho : ((off : Nat) : ZMod p) ≠ 0)
    (hk31 : k ≤ 31) (hrk : r + 1 < k)
    (cwr cwr1 : List Nat) (lzr : List (ZMod p)) (alpha : Nat)
    (halt : alpha < p)
    (hcanr : ∀ x ∈ cwr, x < p) (hcanr1 : ∀ x ∈ cwr1, x < p)
    (hevalr : ∀ i, i < 2 ^ (k - r) →
      ((cwr.getD i 0 : Nat) : ZMod p) =
        (toPZ lzr).eval
          ((((off : Nat) : ZMod p) ^ 2 ^ r) *
            (((om : Nat) : ZMod p) ^ 2 ^ r) ^ i))
    (hevalr1 : ∀ i, i < 2 ^ (k - (r + 1)) →
      ((cwr1.getD i 0 : Nat) : ZMod p) =
        (toPZ (foldList ((alpha : Nat) : ZMod p) lzr)).eval
          ((((off : Nat) : ZMod p) ^ 2 ^ (r + 1)) *
            (((om : Nat) : ZMod p) ^ 2 ^ (r + 1)) ^ i))
    (halpha : alpha ∉ domList p (iterSq p off r) (iterSq p om r)
      (2 ^ (k - r)))
    (ai : Nat) (hai : ai < 2 ^ (k - r - 1)) :
    test_colinearity p
      [(fmul p (iterSq p off r) (fpow p (iterSq p om r) ai),
          cwr.getD ai 0),
       (fmul p (iterSq p off r) (fpow p (iterSq p om r)
          (ai + 2 ^ (k - r - 1))), cwr.getD (ai + 2 ^ (k - r - 1)) 0),
       (alpha, cwr1.getD ai 0)] = some true := by
  have hp1 : 1 < p := hp.out.one_lt
  have hw0 : ((om : Nat) : ZMod p) ≠ 0 := omega_ne_zero p _ k hw1
  have hkr2 : 2 ^ (k - r) = 2 * 2 ^ (k - r - 1) := by
    conv_lhs => rw [show k - r = (k - r - 1) + 1 from by omega]
    rw [pow_succ]
    ring
  have hain : ai < 2 ^ (k - r) := by omega
  have hbin : ai + 2 ^ (k - r - 1) < 2 ^ (k - r) := by omega
  have hexp : ∀ m : Nat, m < 2 ^ (k - r) → m < 2 ^ 128 := by
    intro m hm
    calc m < 2 ^ (k - r) := hm
      _ ≤ 2 ^ 128 := Nat.pow_le_pow_right (by omega) (by omega)
  -- casts of the three x-coordinates
  have hcast_ax : ((fmul p (iterSq p off r)
        (fpow p (iterSq p om r) ai) : Nat) : ZMod p) =
      (((off : Nat) : ZMod p) ^ 2 ^ r) *
        ((((om : Nat) : ZMod p)) ^ 2 ^ r) ^ ai := by
    rw [fmul_cast, fpow_cast p _ ai (hexp ai hain), iterSq_cast,
      iterSq_cast]
  have hcast_bx : ((fmul p (iterSq p off r)
        (fpow p (iterSq p om r) (ai + 2 ^ (k - r - 1))) : Nat) : ZMod p) =
      (((off : Nat) : ZMod p) ^ 2 ^ r) *
        ((((om : Nat) : ZMod p)) ^ 2 ^ r) ^ (ai + 2 ^ (k - r - 1)) := by
    rw [fmul_cast, fpow_cast p _ _ (hexp _ hbin), iterSq_cast, iterSq_cast]
  -- the second point sits at minus the first point
  have hhalf : (((om : Nat) : ZMod p) ^ 2 ^ r) ^ 2 ^ (k - r - 1) = -1 := by
    rw [← pow_mul, ← pow_add, show r + (k - r - 1) = k - 1 from by omega]
    exact hwhalf
  have hxb : (((off : Nat) : ZMod p) ^ 2 ^ r) *
        ((((om : Nat) : ZMod p)) ^ 2 ^ r) ^ (ai + 2 ^ (k - r - 1)) =
      -((((off : Nat) : ZMod p) ^ 2 ^ r) *
        ((((om : Nat) : ZMod p)) ^ 2 ^ r) ^ ai) := by
    rw [pow_add, hhalf]
    ring
  -- the third x-coordinate is the square of the first
  have hsq : (((off : Nat) : ZMod p) ^ 2 ^ (r + 1)) *
        (((om : Nat) : ZMod p) ^ 2 ^ (r + 1)) ^ ai =
      ((((off : Nat) : ZMod p) ^ 2 ^ r) *
        ((((om : Nat) : ZMod p)) ^ 2 ^ r) ^ ai) ^ 2 := by
    rw [pow_succ]
    ring
  -- the y-values, through the coefficient lists
  have hya := hevalr ai hain
  have hyb := hevalr (ai + 2 ^ (k - r - 1)) hbin
  have hyc := hevalr1 ai
    (by rw [show k - (r + 1) = k - r - 1 from by omega]; exact hai)
  -- the line through the three points
  have hEA := deinter_eval lzr.length lzr (le_refl _)
    ((((off : Nat) : ZMod p) ^ 2 ^ r) *
      ((((om : Nat) : ZMod p)) ^ 2 ^ r) ^ ai)
  have hEB := deinter_eval lzr.length lzr (le_refl _)
    ((((off : Nat) : ZMod p) ^ 2 ^ r) *
      ((((om : Nat) : ZMod p)) ^ 2 ^ r) ^ (ai + 2 ^ (k - r - 1)))
  have hEC := foldList_eval ((alpha : Nat) : ZMod p) lzr
    (((((off : Nat) : ZMod p) ^ 2 ^ r) *
      ((((om : Nat) : ZMod p)) ^ 2 ^ r) ^ ai) ^ 2)
  -- the three x-coordinates are pairwise distinct as canonical naturals
  have hdax : fmul p (iterSq p off r) (fpow p (iterSq p om r) ai) =
      (domList p (iterSq p off r) (iterSq p om r) (2 ^ (k - r))).getD ai
        0 := (domList_getD p _ _ _ ai hain).symm
  have hdbx : fmul p (iterSq p off r)
        (fpow p (iterSq p om r) (ai + 2 ^ (k - r - 1))) =
      (domList p (iterSq p off r) (iterSq p om r) (2 ^ (k - r))).getD
        (ai + 2 ^ (k - r - 1)) 0 :=
    (domList_getD p _ _ _ _ hbin).symm
  have hoffc : ((iterSq p off r : Nat) : ZMod p) ≠ 0 := by
    rw [iterSq_cast]
    exact pow_ne_zero _ ho
  have hord : orderOf ((iterSq p om r : Nat) : ZMod p) = 2 ^ (k - r) := by
    rw [iterSq_cast]
    exact iterSq_orderOf p _ k (by omega) hw1 hwhalf hp2 r (by omega)
  have hmemd : ∀ i, i < 2 ^ (k - r) →
      (domList p (iterSq p off r) (iterSq p om r) (2 ^ (k - r))).getD i 0 ∈
        domList p (iterSq p off r) (iterSq p om r) (2 ^ (k - r)) := by
    intro i hi
    have hil : i < (domList p (iterSq p off r) (iterSq p om r)
        (2 ^ (k - r))).length := by
      rw [domList_length]
      exact hi
    rw [List.getD_eq_getElem _ 0 hil]
    exact List.getElem_mem hil
  have hab : fmul p (iterSq p off r) (fpow p (iterSq p om r) ai) ≠
      fmul p (iterSq p off r)
        (fpow p (iterSq p om r) (ai + 2 ^ (k - r - 1))) := by
    rw [hdax, hdbx]
    exact domList_distinct p _ _ _
      (by exact_mod_cast Nat.pow_le_pow_right (by omega) (by omega : k - r ≤ 128))
      hoffc hord ai (ai + 2 ^ (k - r - 1)) hain hbin (by omega)
  have haal : fmul p (iterSq p off r) (fpow p (iterSq p om r) ai) ≠
      alpha := by
    intro hc
    exact halpha (hc ▸ (hdax ▸ hmemd ai hain))
  have hbal : fmul p (iterSq p off r)
        (fpow p (iterSq p om r) (ai + 2 ^ (k - r - 1))) ≠ alpha := by
    intro hc
    exact halpha (hc ▸ (hdbx ▸ hmemd _ hbin))
  refine test_colinearity_true p _ (by norm_num) ?_ ?_ ?_
    ((toPZ (deinter lzr).1).eval
      (((((off : Nat) : ZMod p) ^ 2 ^ r) *
        ((((om : Nat) : ZMod p)) ^ 2 ^ r) ^ ai) ^ 2))
    ((toPZ (deinter lzr).2).eval
      (((((off : Nat) : ZMod p) ^ 2 ^ r) *
        ((((om : Nat) : ZMod p)) ^ 2 ^ r) ^ ai) ^ 2)) ?_
  · intro q hq
    simp only [List.mem_cons, List.not_mem_nil, or_false] at hq
    rcases hq with hq | hq | hq <;> subst hq
    · exact fmul_lt p _ _ (by omega)
    · exact fmul_lt p _ _ (by omega)
    · exact halt
  · intro q hq
    simp only [List.mem_cons, List.not_mem_nil, or_false] at hq
    rcases hq with hq | hq | hq <;> subst hq
    · exact getD_canon p cwr hcanr (by omega) ai
    · exact getD_canon p cwr hcanr (by omega) _
    · exact getD_canon p cwr1 hcanr1 (by omega) ai
  · simp only [List.map_cons, List.map_nil]
    refine List.nodup_cons.mpr ⟨?_, List.nodup_cons.mpr
      ⟨?_, List.nodup_singleton _⟩⟩
    · intro hm
      rcases List.mem_cons.mp hm with hc | hc
      · exact hab hc
      · rw [List.mem_singleton] at hc
        exact haal hc
    · intro hm
      rw [List.mem_singleton] at hm
      exact hbal hm
  · intro j hj
    simp only [List.length_cons, List.length_nil] at hj
    interval_cases j
    · show ((cwr.getD ai 0 : Nat) : ZMod p) =
        (toPZ (deinter lzr).1).eval
          (((((off : Nat) : ZMod p) ^ 2 ^ r) *
            ((((om : Nat) : ZMod p)) ^ 2 ^ r) ^ ai) ^ 2) +
        (toPZ (deinter lzr).2).eval
          (((((off : Nat) : ZMod p) ^ 2 ^ r) *
            ((((om : Nat) : ZMod p)) ^ 2 ^ r) ^ ai) ^ 2) *
        ((fmul p (iterSq p off r) (fpow p (iterSq p om r) ai) : Nat) :
          ZMod p)
      rw [hya, hEA, hcast_ax]
      ring
    · show ((cwr.getD (ai + 2 ^ (k - r - 1)) 0 : Nat) : ZMod p) =
        (toPZ (deinter lzr).1).eval
          (((((off : Nat) : ZMod p) ^ 2 ^ r) *
            ((((om : Nat) : ZMod p)) ^ 2 ^ r) ^ ai) ^ 2) +
        (toPZ (deinter lzr).2).eval
          (((((off : Nat) : ZMod p) ^ 2 ^ r) *
            ((((om : Nat) : ZMod p)) ^ 2 ^ r) ^ ai) ^ 2) *
        ((fmul p (iterSq p off r) (fpow p (iterSq p om r)
          (ai + 2 ^ (k - r - 1))) : Nat) : ZMod p)
      rw [hyb, hEB, hcast_bx, hxb, neg_sq]
      ring
    · show ((cwr1.getD ai 0 : Nat) : ZMod p) =
        (toPZ (deinter lzr).1).eval
          (((((off : Nat) : ZMod p) ^ 2 ^ r) *
            ((((om : Nat) : ZMod p)) ^ 2 ^ r) ^ ai) ^ 2) +
        (toPZ (deinter lzr).2).eval
          (((((off : Nat) : ZMod p) ^ 2 ^ r) *
            ((((om : Nat) : ZMod p)) ^ 2 ^ r) ^ ai) ^ 2) *
        ((alpha : Nat) : ZMod p)
      rw [hyc, hsq, hEC]
      ring



lemma fsample_lt (p : Nat) (b : Bytes) (hp : 0 < p) : fsample p b < p :=
  Nat.mod_lt _ hp

lemma join_eq_flatten {β : Type} (l : List (List β)) :
    l.join = l.flatten := rfl

lemma join_singletons {α β : Type} (f : α → β) :
    ∀ l : List α, (l.map (fun x => [f x])).join = l.map f := by
  intro l
  induction l with
  | nil => rfl
  | cons a t ih =>
    rw [List.map_cons, List.map_cons, join_eq_flatten, List.flatten_cons,
      ← join_eq_flatten, ih]
    rfl

/-- Indexing into a concatenation of equal-length blocks. -/
lemma join_getElem_uniform {β : Type} :
    ∀ (M : Nat) (g : Nat → List β) (B : Nat),
      (∀ t, t < M → (g t).length = B) →
      ∀ r s, r < M → s < B →
        (((List.range M).map g).join)[B * r + s]? = (g r)[s]? := by
  intro M
  induction M with
  | zero => intro g B _ r s hr _; omega
  | succ M ih =>
    intro g B hg r s hr hs
    rw [List.range_succ_eq_map, List.map_cons, join_eq_flatten,
      List.flatten_cons, ← join_eq_flatten, List.map_map]
    cases r with
    | zero =>
      rw [show B * 0 + s = s from by omega]
      rw [List.getElem?_append_left (by rw [hg 0 (by omega)]; omega)]
    | succ r =>
      rw [List.getElem?_append_right (by
        rw [hg 0 (by omega)]
        calc B ≤ B * (r + 1) := Nat.le_mul_of_pos_right B (by omega)
          _ ≤ B * (r + 1) + s := by omega)]
      rw [hg 0 (by omega)]
      rw [show B * (r + 1) + s - B = B * r + s from by
        rw [Nat.mul_succ]
        omega]
      have := ih (fun t => g (t + 1)) B
        (fun t ht => hg (t + 1) (by omega)) r s (by omega) hs
      rw [show (List.map (g ∘ Nat.succ) (List.range M)) =
          (List.map (fun t => g (t + 1)) (List.range M)) from rfl]
      exact this

lemma leafSeg_length (cws : List (List Nat)) (top : List Nat)
    (k nct j : Nat) : (leafSeg cws top k nct j).length = nct := by
  rw [leafSeg, join_singletons, List.length_map, List.length_range]

lemma pathSeg_length (nct : Nat) (paF pbF pcF : Nat → Nat → List Bytes)
    (j : Nat) : (pathSeg nct paF pbF pcF j).length = 3 * nct := by
  rw [pathSeg]
  induction nct with
  | zero => rfl
  | succ n ih =>
    rw [List.range_succ, List.map_append, join_eq_flatten,
      List.flatten_append, ← join_eq_flatten, List.length_append, ih]
    simp
    omega


set_option maxHeartbeats 4000000 in
/-- `FRI::verify` accepts the stream produced by a successful honest run of
`FRI::prove`, provided every sampled alpha misses the corresponding
evaluation domain. -/
lemma verify_accepts (p : Nat) [hp : Fact p.Prime] (hp2 : 2 < p)
    (f : FRI) (H : Bytes → Bytes) (encE : Nat → Bytes)
    (encPS : List (PSObject (List Nat)) → Bytes) (shake : Bytes → Nat → Bytes)
    (fuel : Nat) (k e R : Nat)
    (hRdef : R = num_rounds f.domain_length f.expansion_factor
      f.num_colinearity_tests)
    (hdl : f.domain_length = 2 ^ k) (hef : f.expansion_factor = 2 ^ e)
    (hom : f.omega < p) (hoff : f.offset < p)
    (hw1 : ((f.omega : Nat) : ZMod p) ^ 2 ^ k = 1)
    (hwhalf : ((f.omega : Nat) : ZMod p) ^ 2 ^ (k - 1) = -1)
    (hk1 : 1 ≤ k) (ho : ((f.offset : Nat) : ZMod p) ≠ 0) (hk31 : k ≤ 31)
    (hRe : e + (R - 1) < k) (hR2 : 2 ≤ R)
    (cwF : Nat → List Nat) (lzF : Nat → List (ZMod p))
    (roots : List Bytes) (paF pbF pcF : Nat → Nat → List Bytes)
    (idxs : List Nat) (st : ProofStream (List Nat))
    (hrlen : roots.length = R)
    (hfacts : ∀ j, j < R →
      (cwF j).length = 2 ^ (k - j) ∧
      (∀ x ∈ cwF j, x < p) ∧
      (∀ i, i < 2 ^ (k - j) →
        (((cwF j).getD i 0 : Nat) : ZMod p) =
          (toPZ (lzF j)).eval
            ((((f.offset : Nat) : ZMod p) ^ 2 ^ j) *
              (((f.omega : Nat) : ZMod p) ^ 2 ^ j) ^ i)) ∧
      (lzF j).length ≤ 2 ^ (k - j - e) ∧
      Merkle.commit H encE (cwF j) = some (roots.getD j []))
    (hfold : ∀ j, j + 1 < R →
      lzF (j + 1) = foldList
        ((fsample p (shake (encPS
          ((roots.take (j + 1)).map PSObject.HASH)) 32) : Nat) : ZMod p)
        (lzF j))
    (hsi : FRI.sample_indices H (shake (encPS (roots.map PSObject.HASH ++
        [PSObject.OBJ (cwF (R - 1))])) 32)
      (cwF 1).length (cwF (R - 1)).length f.num_colinearity_tests fuel =
      some idxs)
    (hilen : idxs.length = f.num_colinearity_tests)
    (hobjs : st.objects = (roots.map PSObject.HASH ++
      [PSObject.OBJ (cwF (R - 1))]) ++
      ((List.range (R - 1)).map (fun t =>
        leafSeg ((List.range R).map cwF) idxs k f.num_colinearity_tests t ++
        pathSeg f.num_colinearity_tests paF pbF pcF t)).join)
    (hridx : st.read_index = 0)
    (hver : ∀ j s, j + 1 < R → s < f.num_colinearity_tests →
      Merkle.verify H encE (roots.getD j [])
        (idxs.getD s 0 % 2 ^ (k - j - 1)) (paF j s)
        ((cwF j).getD (idxs.getD s 0 % 2 ^ (k - j - 1)) 0) = some true ∧
      Merkle.verify H encE (roots.getD j [])
        (idxs.getD s 0 % 2 ^ (k - j - 1) + 2 ^ (k - j - 1)) (pbF j s)
        ((cwF j).getD
          (idxs.getD s 0 % 2 ^ (k - j - 1) + 2 ^ (k - j - 1)) 0) =
        some true ∧
      Merkle.verify H encE (roots.getD (j + 1) [])
        (idxs.getD s 0 % 2 ^ (k - j - 1)) (pcF j s)
        ((cwF (j + 1)).getD (idxs.getD s 0 % 2 ^ (k - j - 1)) 0) =
        some true)
    (halpha : ∀ r, r < R - 1 →
      fsample p (shake (encPS ((roots.take (r + 1)).map PSObject.HASH)) 32)
        ∉ domList p (iterSq p f.offset r) (iterSq p f.omega r)
          (2 ^ (k - r))) :
    FRI.verify p f H encE encPS shake fuel st [] = some true := by
  have hp1 : 1 < p := hp.out.one_lt
  have hkR : R ≤ k := by omega
  have hone_le : ∀ m : Nat, 1 ≤ 2 ^ m := fun m => Nat.one_le_two_pow
  -- the decomposed stream
  obtain ⟨objsv, ridx⟩ := st
  simp only at hobjs hridx
  subst hobjs
  subst hridx
  -- generic omega-order facts
  have hw0 : ((f.omega : Nat) : ZMod p) ≠ 0 := omega_ne_zero p _ k hw1
  have hordR : orderOf ((iterSq p f.omega (R - 1) : Nat) : ZMod p) =
      2 ^ (k - (R - 1)) := by
    rw [iterSq_cast]
    exact iterSq_orderOf p _ k (by omega) hw1 hwhalf hp2 (R - 1) (by omega)
  have hoffRc : ((iterSq p f.offset (R - 1) : Nat) : ZMod p) ≠ 0 := by
    rw [iterSq_cast]
    exact pow_ne_zero _ ho
  have hlastlen : (cwF (R - 1)).length = 2 ^ (k - (R - 1)) :=
    (hfacts (R - 1) (by omega)).1
  have hlastcan : ∀ x ∈ cwF (R - 1), x < p := (hfacts (R - 1) (by omega)).2.1
  have hnle : (2 : Nat) ^ (k - (R - 1)) ≤ 2 ^ 128 :=
    Nat.pow_le_pow_right (by omega) (by omega)
  have hdist : ∀ i j, i < (domList p (iterSq p f.offset (R - 1))
        (iterSq p f.omega (R - 1)) (2 ^ (k - (R - 1)))).length →
      j < (domList p (iterSq p f.offset (R - 1)) (iterSq p f.omega (R - 1))
        (2 ^ (k - (R - 1)))).length → i ≠ j →
      (domList p (iterSq p f.offset (R - 1)) (iterSq p f.omega (R - 1))
        (2 ^ (k - (R - 1)))).getD i 0 ≠
      (domList p (iterSq p f.offset (R - 1)) (iterSq p f.omega (R - 1))
        (2 ^ (k - (R - 1)))).getD j 0 := by
    intro i j hi hj hij
    rw [domList_length] at hi hj
    exact domList_distinct p _ _ _ hnle hoffRc hordR i j hi hj hij
  -- interpolation of the last codeword
  obtain ⟨L, hL, hLc, hLform⟩ := interpolate_domain_eq p
    (domList p (iterSq p f.offset (R - 1)) (iterSq p f.omega (R - 1))
      (2 ^ (k - (R - 1))))
    (cwF (R - 1))
    (by rw [domList_length, hlastlen])
    (by rw [domList_length]; positivity)
    (domList_canon p _ _ _ (by omega)) hlastcan
  have hpev : pevalDomain p L (domList p (iterSq p f.offset (R - 1))
      (iterSq p f.omega (R - 1)) (2 ^ (k - (R - 1)))) = cwF (R - 1) :=
    interpolate_pevalDomain p _ _ L (by rw [domList_length, hlastlen])
      (domList_canon p _ _ _ (by omega)) hlastcan hdist hLform
  -- interpolation uniqueness: the interpolant coincides with the folded
  -- coefficient polynomial, so its degree is below the final bound
  have hQdeg : (toPZ (lzF (R - 1))).natDegree ≤ 2 ^ (k - (R - 1) - e) - 1 :=
    toPZ_natDegree_le _ _ (by
      have h1 := (hfacts (R - 1) (by omega)).2.2.2.1
      have h2 := hone_le (k - (R - 1) - e)
      omega)
  have hLdeg : (toP p L).natDegree ≤ 2 ^ (k - (R - 1)) - 1 := by
    have := interpolate_natDegree p _ _ L hLform
    rwa [domList_length] at this
  have hagree : ∀ i, i < 2 ^ (k - (R - 1)) →
      (toP p L).eval
        ((((f.offset : Nat) : ZMod p) ^ 2 ^ (R - 1)) *
          (((f.omega : Nat) : ZMod p) ^ 2 ^ (R - 1)) ^ i) =
      (toPZ (lzF (R - 1))).eval
        ((((f.offset : Nat) : ZMod p) ^ 2 ^ (R - 1)) *
          (((f.omega : Nat) : ZMod p) ^ 2 ^ (R - 1)) ^ i) := by
    intro i hi
    have hev := interpolate_eval p
      (domList p (iterSq p f.offset (R - 1)) (iterSq p f.omega (R - 1))
        (2 ^ (k - (R - 1))))
      (cwF (R - 1)) L (domList_canon p _ _ _ (by omega)) hdist hLform i
      (by rw [domList_length]; exact hi)
    rw [domList_cast p _ _ _ i hi hnle, iterSq_cast, iterSq_cast] at hev
    rw [hev]
    exact (hfacts (R - 1) (by omega)).2.2.1 i hi
  have hLQ : toP p L = toPZ (lzF (R - 1)) := by
    have hsub : toP p L - toPZ (lzF (R - 1)) = 0 := by
      apply Polynomial.eq_zero_of_natDegree_lt_card_of_eval_eq_zero' _
        ((Finset.range (2 ^ (k - (R - 1)))).image
          (fun i => (((f.offset : Nat) : ZMod p) ^ 2 ^ (R - 1)) *
            (((f.omega : Nat) : ZMod p) ^ 2 ^ (R - 1)) ^ i))
      · intro x hx
        obtain ⟨i, hi, rfl⟩ := Finset.mem_image.mp hx
        rw [Finset.mem_range] at hi
        rw [Polynomial.eval_sub, hagree i hi, sub_self]
      · rw [Finset.card_image_of_injOn]
        · calc (toP p L - toPZ (lzF (R - 1))).natDegree ≤
              max (toP p L).natDegree (toPZ (lzF (R - 1))).natDegree :=
                Polynomial.natDegree_sub_le _ _
            _ < (Finset.range (2 ^ (k - (R - 1)))).card := by
                rw [Finset.card_range]
                have hmono : (2 : Nat) ^ (k - (R - 1) - e) ≤
                    2 ^ (k - (R - 1)) :=
                  Nat.pow_le_pow_right (by omega) (by omega)
                have h1 := hone_le (k - (R - 1))
                have h2 := hone_le (k - (R - 1) - e)
                omega
        · intro i hi j hj hij
          rw [Finset.coe_range, Set.mem_Iio] at hi hj
          have hpow : (((f.omega : Nat) : ZMod p) ^ 2 ^ (R - 1)) ^ i =
              (((f.omega : Nat) : ZMod p) ^ 2 ^ (R - 1)) ^ j :=
            mul_left_cancel₀ (pow_ne_zero _ ho) hij
          have hordw : orderOf (((f.omega : Nat) : ZMod p) ^ 2 ^ (R - 1)) =
              2 ^ (k - (R - 1)) := by
            rw [← iterSq_cast]
            exact hordR
          exact pow_injOn_Iio_orderOf (by rw [hordw]; exact hi)
            (by rw [hordw]; exact hj) hpow
    have := sub_eq_zero.mp hsub
    exact this
  have hpd : pdegree L ≤ ((2 ^ (k - (R - 1) - e) - 1 : Nat) : Int) :=
    pdegree_le_of_natDegree_le p hp1 L hLc _ (by rw [hLQ]; exact hQdeg)
  -- the `last_omega` assertion
  have homR_lt : iterSq p f.omega (R - 1) < p :=
    iterSq_lt p _ _ (by omega) hom
  have hinv_eq : finv p (iterSq p f.omega (R - 1)) =
      fpow p (iterSq p f.omega (R - 1)) (2 ^ (k - (R - 1)) - 1) := by
    apply cast_inj_of_canon p _ _ hp1 (finv_lt p _ (by omega)) (fpow_lt p _ _ (by omega))
    rw [finv_cast p _ homR_lt, fpow_cast p _ _ (by
      have := hnle
      omega)]
    have hwr1 : ((iterSq p f.omega (R - 1) : Nat) : ZMod p) ^
        2 ^ (k - (R - 1)) = 1 := by
      rw [← hordR]
      exact pow_orderOf_eq_one _
    refine (inv_eq_of_mul_eq_one_right ?_).symm.symm
    calc ((iterSq p f.omega (R - 1) : Nat) : ZMod p) *
          ((iterSq p f.omega (R - 1) : Nat) : ZMod p) ^
            (2 ^ (k - (R - 1)) - 1) =
        ((iterSq p f.omega (R - 1) : Nat) : ZMod p) ^
          (1 + (2 ^ (k - (R - 1)) - 1)) := by
          rw [pow_add, pow_one]
      _ = 1 := by
          rw [show 1 + (2 ^ (k - (R - 1)) - 1) = 2 ^ (k - (R - 1)) from by
            have := hone_le (k - (R - 1))
            omega]
          exact hwr1

  -- locations of the query-phase objects in the stream
  have hgetcw : ∀ j, j < R → ((List.range R).map cwF).getD j [] = cwF j := by
    intro j hj
    rw [List.getD_eq_getElem _ _ (by simpa using hj)]
    simp
  have hseglen : ∀ t, t < R - 1 →
      ((fun t => leafSeg ((List.range R).map cwF) idxs k
        f.num_colinearity_tests t ++
        pathSeg f.num_colinearity_tests paF pbF pcF t) t).length =
      4 * f.num_colinearity_tests := by
    intro t ht
    rw [List.length_append, leafSeg_length, pathSeg_length]
    omega
  have hobj_at : ∀ r i, r < R - 1 → i < 4 * f.num_colinearity_tests →
      (roots.map PSObject.HASH ++ ([PSObject.OBJ (cwF (R - 1))] ++
        ((List.range (R - 1)).map (fun t =>
          leafSeg ((List.range R).map cwF) idxs k
            f.num_colinearity_tests t ++
          pathSeg f.num_colinearity_tests paF pbF pcF t)).join))[
        R + 1 + 4 * f.num_colinearity_tests * r + i]? =
      (leafSeg ((List.range R).map cwF) idxs k f.num_colinearity_tests r ++
        pathSeg f.num_colinearity_tests paF pbF pcF r)[i]? := by
    intro r i hr hi
    rw [List.getElem?_append_right (by rw [List.length_map, hrlen]; omega)]
    rw [List.length_map, hrlen]
    rw [show R + 1 + 4 * f.num_colinearity_tests * r + i - R =
      4 * f.num_colinearity_tests * r + i + 1 from by omega]
    rw [show ([PSObject.OBJ (cwF (R - 1))] ++
      ((List.range (R - 1)).map (fun t =>
        leafSeg ((List.range R).map cwF) idxs k
          f.num_colinearity_tests t ++
        pathSeg f.num_colinearity_tests paF pbF pcF t)).join) =
      PSObject.OBJ (cwF (R - 1)) ::
      ((List.range (R - 1)).map (fun t =>
        leafSeg ((List.range R).map cwF) idxs k
          f.num_colinearity_tests t ++
        pathSeg f.num_colinearity_tests paF pbF pcF t)).join from rfl]
    rw [List.getElem?_cons_succ]
    exact join_getElem_uniform (R - 1) _ (4 * f.num_colinearity_tests)
      hseglen r i hr hi
  have hleafobj : ∀ r s, r < R - 1 → s < f.num_colinearity_tests →
      (roots.map PSObject.HASH ++ ([PSObject.OBJ (cwF (R - 1))] ++
        ((List.range (R - 1)).map (fun t =>
          leafSeg ((List.range R).map cwF) idxs k
            f.num_colinearity_tests t ++
          pathSeg f.num_colinearity_tests paF pbF pcF t)).join))[
        R + 1 + 4 * f.num_colinearity_tests * r + s]? =
      some (PSObject.LEAF
        [(cwF r).getD (idxs.getD s 0 % 2 ^ (k - r - 1)) 0,
         (cwF r).getD (idxs.getD s 0 % 2 ^ (k - r - 1) +
           2 ^ (k - r - 1)) 0,
         (cwF (r + 1)).getD (idxs.getD s 0 % 2 ^ (k - r - 1)) 0]) := by
    intro r s hr hs
    rw [hobj_at r s hr (by omega)]
    rw [List.getElem?_append_left (by rw [leafSeg_length]; omega)]
    rw [leafSeg, join_singletons, List.getElem?_map,
      List.getElem?_range hs]
    rw [hgetcw r (by omega), hgetcw (r + 1) (by omega)]
    rfl
  have hpathobj : ∀ r s d, r < R - 1 → s < f.num_colinearity_tests →
      d < 3 →
      (roots.map PSObject.HASH ++ ([PSObject.OBJ (cwF (R - 1))] ++
        ((List.range (R - 1)).map (fun t =>
          leafSeg ((List.range R).map cwF) idxs k
            f.num_colinearity_tests t ++
          pathSeg f.num_colinearity_tests paF pbF pcF t)).join))[
        R + 1 + 4 * f.num_colinearity_tests * r +
          (f.num_colinearity_tests + 3 * s + d)]? =
      ([PSObject.PATH (paF r s), PSObject.PATH (pbF r s),
        PSObject.PATH (pcF r s)] : List (PSObject (List Nat)))[d]? := by
    intro r s d hr hs hd
    rw [hobj_at r (f.num_colinearity_tests + 3 * s + d) hr (by omega)]
    rw [List.getElem?_append_right (by rw [leafSeg_length]; omega)]
    rw [leafSeg_length]
    rw [show f.num_colinearity_tests + 3 * s + d -
      f.num_colinearity_tests = 3 * s + d from by omega]
    rw [pathSeg]
    exact join_getElem_uniform f.num_colinearity_tests
      (fun t => [PSObject.PATH (paF r t), PSObject.PATH (pbF r t),
        PSObject.PATH (pcF r t)]) 3 (fun t _ => rfl) s d hs hd
  -- every colinearity test passes
  have htestv : ∀ r s, r < R - 1 → s < f.num_colinearity_tests →
      test_colinearity p
        [(fmul p (iterSq p f.offset r) (fpow p (iterSq p f.omega r)
            (idxs.getD s 0 % 2 ^ (k - r - 1))),
          (cwF r).getD (idxs.getD s 0 % 2 ^ (k - r - 1)) 0),
         (fmul p (iterSq p f.offset r) (fpow p (iterSq p f.omega r)
            (idxs.getD s 0 % 2 ^ (k - r - 1) + 2 ^ (k - r - 1))),
          (cwF r).getD (idxs.getD s 0 % 2 ^ (k - r - 1) +
            2 ^ (k - r - 1)) 0),
         (fsample p (shake (encPS
            ((roots.take (r + 1)).map PSObject.HASH)) 32),
          (cwF (r + 1)).getD (idxs.getD s 0 % 2 ^ (k - r - 1)) 0)] =
        some true := by
    intro r s hr hs
    refine round_colin_true p hp2 f.omega f.offset k r hw1 hwhalf ho hk31
      (by omega) (cwF r) (cwF (r + 1)) (lzF r) _
      (fsample_lt p _ (by omega))
      ((hfacts r (by omega)).2.1) ((hfacts (r + 1) (by omega)).2.1)
      ((hfacts r (by omega)).2.2.1) ?_ (halpha r (by omega)) _
      (Nat.mod_lt _ (by positivity))
    have h := (hfacts (r + 1) (by omega)).2.2.1
    rw [hfold r (by omega)] at h
    exact h
  -- replay the hash collection
  have hpull := pullRootsAlphas_spec p shake encPS roots
    ([PSObject.OBJ (cwF (R - 1))] ++
      ((List.range (R - 1)).map (fun t =>
        leafSeg ((List.range R).map cwF) idxs k
          f.num_colinearity_tests t ++
        pathSeg f.num_colinearity_tests paF pbF pcF t)).join) R 0
    (by omega)
  simp only [List.take_zero, List.range_zero, List.map_nil] at hpull
  rw [hrlen] at hpull
  have hlast? : roots.getLast? = some (roots.getD (R - 1) []) := by
    rw [List.getLast?_eq_getElem?, hrlen,
      List.getElem?_eq_getElem (by omega)]
    rw [List.getD_eq_getElem roots [] (by omega)]
  have hshift1 : f.domain_length >>> 1 = 2 ^ (k - 1) := by
    rw [hdl, Nat.shiftRight_eq_div_pow, Nat.pow_div (by omega) (by omega)]
  have hshiftR : f.domain_length >>> (R - 1) = 2 ^ (k - (R - 1)) := by
    rw [hdl, Nat.shiftRight_eq_div_pow, Nat.pow_div (by omega) (by omega)]
  -- the verifier seed equals the prover seed
  have hvfs2 : ProofStream.verifier_fiat_shamir shake encPS
      ⟨roots.map PSObject.HASH ++ ([PSObject.OBJ (cwF (R - 1))] ++
        ((List.range (R - 1)).map (fun t =>
          leafSeg ((List.range R).map cwF) idxs k
            f.num_colinearity_tests t ++
          pathSeg f.num_colinearity_tests paF pbF pcF t)).join),
        R + 1⟩ 32 =
      shake (encPS (roots.map PSObject.HASH ++
        [PSObject.OBJ (cwF (R - 1))])) 32 := by
    rw [ProofStream.verifier_fiat_shamir]
    show shake (encPS ((roots.map PSObject.HASH ++
      ([PSObject.OBJ (cwF (R - 1))] ++
        ((List.range (R - 1)).map (fun t =>
          leafSeg ((List.range R).map cwF) idxs k
            f.num_colinearity_tests t ++
          pathSeg f.num_colinearity_tests paF pbF pcF t)).join)).take
        (R + 1))) 32 = _
    rw [List.take_append_eq_append_take]
    rw [List.take_of_length_le (by rw [List.length_map, hrlen]; omega)]
    rw [show R + 1 - (roots.map PSObject.HASH).length = 1 from by
      rw [List.length_map, hrlen]
      omega]
    rw [show ([PSObject.OBJ (cwF (R - 1))] ++
      ((List.range (R - 1)).map (fun t =>
        leafSeg ((List.range R).map cwF) idxs k
          f.num_colinearity_tests t ++
        pathSeg f.num_colinearity_tests paF pbF pcF t)).join).take 1 =
      [PSObject.OBJ (cwF (R - 1))] from rfl]
  -- rewrite the sampling sizes
  rw [(hfacts 1 (by omega)).1, hlastlen] at hsi
  -- the round replay
  have hvrpack := verifyRounds_spec p H encE k R f.num_colinearity_tests
    f.omega f.offset
    ((List.range R).map (fun r => fsample p (shake (encPS
      ((roots.take (r + 1)).map PSObject.HASH)) 32)))
    roots idxs
    (roots.map PSObject.HASH ++ ([PSObject.OBJ (cwF (R - 1))] ++
      ((List.range (R - 1)).map (fun t =>
        leafSeg ((List.range R).map cwF) idxs k
          f.num_colinearity_tests t ++
        pathSeg f.num_colinearity_tests paF pbF pcF t)).join))
    (fun r => fsample p (shake (encPS
      ((roots.take (r + 1)).map PSObject.HASH)) 32))
    (fun r => roots.getD r [])
    (fun r s => (cwF r).getD (idxs.getD s 0 % 2 ^ (k - r - 1)) 0)
    (fun r s => (cwF r).getD (idxs.getD s 0 % 2 ^ (k - r - 1) +
      2 ^ (k - r - 1)) 0)
    (fun r s => (cwF (r + 1)).getD (idxs.getD s 0 % 2 ^ (k - r - 1)) 0)
    paF pbF pcF hkR hilen
    (by
      intro r hr
      rw [List.getElem?_map, List.getElem?_range (by omega)]
      rfl)
    (by
      intro r hr
      beta_reduce
      rw [List.getElem?_eq_getElem (by omega),
        List.getD_eq_getElem roots [] (by omega)])
    hleafobj
    (by
      intro r s hr hs
      have := hpathobj r s 0 hr hs (by omega)
      rw [show R + 1 + 4 * f.num_colinearity_tests * r +
        (f.num_colinearity_tests + 3 * s + 0) =
        R + 1 + 4 * f.num_colinearity_tests * r +
          f.num_colinearity_tests + 3 * s from by omega] at this
      exact this)
    (by
      intro r s hr hs
      have := hpathobj r s 1 hr hs (by omega)
      rw [show R + 1 + 4 * f.num_colinearity_tests * r +
        (f.num_colinearity_tests + 3 * s + 1) =
        R + 1 + 4 * f.num_colinearity_tests * r +
          f.num_colinearity_tests + 3 * s + 1 from by omega] at this
      exact this)
    (by
      intro r s hr hs
      have := hpathobj r s 2 hr hs (by omega)
      rw [show R + 1 + 4 * f.num_colinearity_tests * r +
        (f.num_colinearity_tests + 3 * s + 2) =
        R + 1 + 4 * f.num_colinearity_tests * r +
          f.num_colinearity_tests + 3 * s + 2 from by omega] at this
      exact this)
    htestv
    (fun r s hr hs => (hver r s (by omega) hs).1)
    (fun r s hr hs => (hver r s (by omega) hs).2.1)
    (fun r s hr hs => (hver r s (by omega) hs).2.2)
    (R - 1) 0 (by omega) []
  obtain ⟨pvO, psO, hvr⟩ := hvrpack
  rw [show R + 1 + 4 * f.num_colinearity_tests * 0 = R + 1 from by omega,
    iterSq_zero, iterSq_zero] at hvr
  -- walk through `verify`
  simp only [FRI.verify]
  rw [← hRdef]
  rw [List.append_assoc]
  rw [hpull]
  simp only [Option.bind_eq_bind, Option.some_bind]
  have hpullobj := getElem?_append_len (roots.map PSObject.HASH)
    (PSObject.OBJ (cwF (R - 1)))
    (((List.range (R - 1)).map (fun t =>
      leafSeg ((List.range R).map cwF) idxs k
        f.num_colinearity_tests t ++
      pathSeg f.num_colinearity_tests paF pbF pcF t)).join)
  rw [List.length_map, hrlen] at hpullobj
  have hpullobj2 : (roots.map PSObject.HASH ++
      ([PSObject.OBJ (cwF (R - 1))] ++
        ((List.range (R - 1)).map (fun t =>
          leafSeg ((List.range R).map cwF) idxs k
            f.num_colinearity_tests t ++
          pathSeg f.num_colinearity_tests paF pbF pcF t)).join))[R]? =
      some (PSObject.OBJ (cwF (R - 1))) := hpullobj
  rw [pull_at _ _ _ hpullobj2]
  simp only [Option.some_bind]
  rw [hlast?]
  simp only [Option.some_bind]
  rw [(hfacts (R - 1) (by omega)).2.2.2.2]
  simp only [Option.some_bind]
  rw [if_neg (show ¬ roots.getD (R - 1) [] ≠
    roots.getD (R - 1) [] from fun hc => hc rfl)]
  rw [hef]
  rw [if_neg (show ¬ (2 : Nat) ^ e = 0 from by positivity)]
  rw [hlastlen]
  rw [Nat.pow_div (by omega) (by omega)]
  rw [if_neg (show ¬ (2 : Nat) ^ (k - (R - 1) - e) = 0 from by positivity)]
  rw [if_neg (show ¬ 2 ^ 31 ≤ 2 ^ (k - (R - 1) - e) - 1 from by
    have : (2 : Nat) ^ (k - (R - 1) - e) ≤ 2 ^ 31 :=
      Nat.pow_le_pow_right (by omega) (by omega)
    omega)]
  rw [show (List.range (R - 1)).foldl (fun w _ => fpow p w 2) f.omega =
    iterSq p f.omega (R - 1) from rfl]
  rw [show (List.range (R - 1)).foldl (fun w _ => fpow p w 2) f.offset =
    iterSq p f.offset (R - 1) from rfl]
  rw [if_neg (show ¬ finv p (iterSq p f.omega (R - 1)) ≠
    fpow p (iterSq p f.omega (R - 1)) (2 ^ (k - (R - 1)) - 1) from
    fun hc => hc hinv_eq)]
  rw [show (List.range (2 ^ (k - (R - 1)))).map
    (fun i => fmul p (iterSq p f.offset (R - 1))
      (fpow p (iterSq p f.omega (R - 1)) i)) =
    domList p (iterSq p f.offset (R - 1)) (iterSq p f.omega (R - 1))
      (2 ^ (k - (R - 1))) from rfl]
  rw [hL]
  simp only [Option.some_bind]
  rw [if_neg (show ¬ pevalDomain p L (domList p (iterSq p f.offset (R - 1))
    (iterSq p f.omega (R - 1)) (2 ^ (k - (R - 1)))) ≠ cwF (R - 1) from
    fun hc => hc hpev)]
  rw [if_neg (show ¬ pdegree L > ((2 ^ (k - (R - 1) - e) - 1 : Nat) : Int)
    from not_lt.mpr hpd)]
  rw [hvfs2]
  rw [hshift1, hshiftR]
  rw [hsi]
  simp only [Option.some_bind]
  rw [hdl]
  rw [hvr]
  simp only [Option.some_bind]
  rw [if_pos trivial]


set_option maxHeartbeats 1600000 in
/-- C1 (amended): FRI completeness for an honest prover.  For a
power-of-two domain of length at most `2^31` (the verifier converts its
degree bound to `i32`) with a primitive root and non-zero offset, a
power-of-two expansion factor (with a non-power-of-two one the verifier's
floor-division degree bound rejects honest proofs), a codeword obtained
by evaluating a coefficient list of length at most
`domain_length / expansion_factor` over the evaluation domain, a
configuration with at least two rounds, a successful run of `FRI::prove`
(the run aborts when `num_rounds <= 1`, and its index sampling may spin),
and Fiat–Shamir challenges that avoid the evaluation domains,
`FRI::verify` accepts the resulting proof stream. -/
theorem C1_fri_completeness (p : Nat) (hp : Fact p.Prime) (hp2 : 2 < p)
    (f : FRI) (H : Bytes → Bytes) (encE : Nat → Bytes)
    (encPS : List (PSObject (List Nat)) → Bytes)
    (shake : Bytes → Nat → Bytes)
    (fuel : Nat) (k e : Nat) (q : List Nat)
    (hdl : f.domain_length = 2 ^ k) (hef : f.expansion_factor = 2 ^ e)
    (hk1 : 1 ≤ k) (hk31 : k ≤ 31)
    (hom : f.omega < p) (hoff : f.offset < p) (hoffnz : f.offset ≠ 0)
    (hw1 : fpow p f.omega f.domain_length = 1)
    (hwhalf : fpow p f.omega (f.domain_length / 2) = p - 1)
    (hq : ∀ x ∈ q, x < p)
    (hqlen : q.length ≤ f.domain_length / f.expansion_factor)
    (hR2 : 2 ≤ num_rounds f.domain_length f.expansion_factor
      f.num_colinearity_tests)
    (idxs : List Nat) (st : ProofStream (List Nat))
    (hprove : FRI.prove p f H encE encPS shake fuel
      (pevalDomain p q (FRI.eval_domain p f)) ⟨[], 0⟩ = some (idxs, st))
    (halpha : ∀ r, r < num_rounds f.domain_length f.expansion_factor
        f.num_colinearity_tests - 1 →
      fsample p (shake (encPS (st.objects.take (r + 1))) 32) ∉
        domList p (iterSq p f.offset r) (iterSq p f.omega r)
          (2 ^ (k - r))) :
    FRI.verify p f H encE encPS shake fuel st [] = some true := by
  have hp1 : 1 < p := hp.out.one_lt
  have hNZ : NeZero p := ⟨by omega⟩
  -- abbreviate the number of rounds
  generalize hRg : num_rounds f.domain_length f.expansion_factor
    f.num_colinearity_tests = R at hR2 halpha
  -- the derived round/size constraint
  have hRe : e + (R - 1) < k := by
    obtain ⟨hj, _, _⟩ := rounds_facts f.domain_length f.expansion_factor
      f.num_colinearity_tests (by rw [hRg]; exact hR2)
    have hlast := hj (num_rounds f.domain_length f.expansion_factor
      f.num_colinearity_tests - 1) (le_refl _)
    rw [hRg] at hlast
    rw [hdl, hef] at hlast
    rcases le_or_lt (R - 1) k with hle | hlt
    · rw [Nat.pow_div hle (by omega)] at hlast
      have := (Nat.pow_lt_pow_iff_right (by omega : 1 < 2)).mp hlast
      omega
    · rw [Nat.div_eq_of_lt (Nat.pow_lt_pow_right (by omega) hlt)] at hlast
      omega
  have hdl128 : f.domain_length < 2 ^ 128 := by
    rw [hdl]
    calc (2 : Nat) ^ k ≤ 2 ^ 31 := Nat.pow_le_pow_right (by omega) hk31
      _ < 2 ^ 128 := by norm_num
  -- the root-of-unity facts over `ZMod p`
  have hw1' : ((f.omega : Nat) : ZMod p) ^ 2 ^ k = 1 := by
    have h := congrArg (fun x : Nat => (x : ZMod p)) hw1
    simp only at h
    rw [fpow_cast p _ _ hdl128, hdl] at h
    rw [Nat.cast_one] at h
    exact h
  have hdl2 : f.domain_length / 2 = 2 ^ (k - 1) := by
    rw [hdl]
    rw [show (2 : Nat) ^ k = 2 ^ (k - 1) * 2 from by
      rw [← pow_succ]
      congr 1
      omega]
    exact Nat.mul_div_cancel _ (by omega)
  have hwhalf' : ((f.omega : Nat) : ZMod p) ^ 2 ^ (k - 1) = -1 := by
    have h := congrArg (fun x : Nat => (x : ZMod p)) hwhalf
    simp only at h
    rw [fpow_cast p _ _ (by omega), hdl2] at h
    rw [h, Nat.cast_sub (by omega), ZMod.natCast_self, Nat.cast_one]
    ring
  have ho' : ((f.offset : Nat) : ZMod p) ≠ 0 := by
    intro hc
    have hval := ZMod.val_cast_of_lt hoff
    rw [hc, ZMod.val_zero] at hval
    exact hoffnz hval.symm
  -- the honest codeword and its coefficient list
  have hcwlen : (pevalDomain p q (FRI.eval_domain p f)).length = 2 ^ k := by
    rw [pevalDomain, List.length_map, FRI.eval_domain, List.length_map,
      List.length_range, hdl]
  have hcwc : ∀ x ∈ pevalDomain p q (FRI.eval_domain p f), x < p := by
    intro x hx
    obtain ⟨y, _, rfl⟩ := List.mem_map.mp hx
    exact peval_lt p q y (by omega)
  have hdomlen : (FRI.eval_domain p f).length = 2 ^ k := by
    rw [FRI.eval_domain, List.length_map, List.length_range, hdl]
  have hed : FRI.eval_domain p f =
      (List.range f.domain_length).map
        (fun i => fmul p f.offset (fpow p f.omega i)) := rfl
  have hpdm : pevalDomain p q (FRI.eval_domain p f) =
      (FRI.eval_domain p f).map (peval p q) := rfl
  have hrep : ∀ i, i < 2 ^ k →
      (((pevalDomain p q (FRI.eval_domain p f)).getD i 0 : Nat) : ZMod p) =
        (toPZ (q.map (fun x => ((x : Nat) : ZMod p)))).eval
          (((f.offset : Nat) : ZMod p) * ((f.omega : Nat) : ZMod p) ^ i) := by
    intro i hi
    have hil : i < (FRI.eval_domain p f).length := by rw [hdomlen]; omega
    rw [hpdm]
    rw [List.getD_eq_getElem _ 0 (by rw [List.length_map, hdomlen]; omega)]
    rw [List.getElem_map]
    rw [peval_cast]
    rw [← toP_eq_toPZ]
    refine congrArg (fun z => Polynomial.eval z (toP p q)) ?_
    have hdi : (FRI.eval_domain p f)[i] =
        fmul p f.offset (fpow p f.omega i) := by
      simp [hed]
    rw [hdi, fmul_cast, fpow_cast p _ i (by
      calc i < 2 ^ k := hi
        _ ≤ 2 ^ 128 := Nat.pow_le_pow_right (by omega) (by omega))]
  have hlzlen : (q.map (fun x => ((x : Nat) : ZMod p))).length ≤
      2 ^ (k - e) := by
    rw [List.length_map]
    rw [hdl, hef, Nat.pow_div (by omega) (by omega)] at hqlen
    exact hqlen
  -- run the prover characterization
  obtain ⟨cwF, lzF, roots, paFp, pbFp, pcFp, hcw0, hlz0, hrlen, hfacts,
      hfold, hsi, hilen, hibnd, hobjs, hridx, hver⟩ :=
    prove_spec p hp2 f H encE encPS shake fuel k e R hRg.symm hdl hom hoff
      hw1' hwhalf' hk1 ho' hk31 hRe hR2
      (pevalDomain p q (FRI.eval_domain p f))
      (q.map (fun x => ((x : Nat) : ZMod p)))
      hcwlen hcwc hrep hlzlen idxs st hprove
  -- the verifier challenges, in terms of the Merkle roots
  have htake : ∀ r, r < R - 1 →
      st.objects.take (r + 1) = (roots.take (r + 1)).map PSObject.HASH := by
    intro r hr
    rw [hobjs, List.append_assoc]
    rw [List.take_append_eq_append_take]
    rw [show r + 1 - (roots.map PSObject.HASH).length = 0 from by
      rw [List.length_map, hrlen]
      omega]
    rw [List.take_zero, List.append_nil, ← List.map_take]
  have halpha' : ∀ r, r < R - 1 →
      fsample p (shake (encPS ((roots.take (r + 1)).map PSObject.HASH)) 32)
        ∉ domList p (iterSq p f.offset r) (iterSq p f.omega r)
          (2 ^ (k - r)) := by
    intro r hr
    have h := halpha r (by omega)
    rw [htake r hr] at h
    exact h
  exact verify_accepts p hp2 f H encE encPS shake fuel k e R hRg.symm hdl
    hef hom hoff hw1' hwhalf' hk1 ho' hk31 hRe hR2 cwF lzF roots paFp pbFp
    pcFp idxs st hrlen hfacts hfold hsi hilen hobjs hridx hver halpha'


set_option maxRecDepth 100000 in
/-- C1 counterexample, in two parts.  First, over `F_17` the configuration
`(offset, omega, domain_length, expansion_factor, num_colinearity_tests)
= (1, 2, 8, 4, 1)` satisfies every invariant stated in the claim — a
power-of-two domain, `omega` of order `domain_length`, non-zero offset, at
least one colinearity test, and a polynomial of degree below
`domain_length / expansion_factor` — yet `FRI::prove` panics for every
fuel budget (`num_rounds` is 1, so `prove` indexes `codewords[1]` out of
bounds), and the claimed prove-then-verify round trip never accepts.
Second, the claim fails even when `prove` succeeds: at
`(1, 3, 16, 3, 1)` with `q = x^4` every stated invariant holds (the claim
requires only `expansion_factor >= 1`), there are two rounds, `prove`
returns, every Fiat–Shamir challenge falls outside the corresponding
evaluation domain, and still `FRI::verify` rejects the honest proof
(`some false`): the folded codeword has degree 2 while the verifier's
floor-division bound is `8 / 3 - 1 = 1`.  So completeness also needs a
power-of-two expansion factor. -/
theorem C1_counterexample :
    ((Nat.Prime 17 ∧ (8 : Nat) = 2 ^ 3 ∧ (4 : Nat) = 2 ^ 2 ∧
      (2 : Nat) < 17 ∧ (1 : Nat) < 17 ∧ (1 : Nat) ≠ 0 ∧
      fpow 17 2 8 = 1 ∧ fpow 17 2 (8 / 2) = 17 - 1 ∧
      (∀ x ∈ ([1] : List Nat), x < 17) ∧
      ([1] : List Nat).length ≤ 8 / 4 ∧ 1 ≤ (1 : Nat)) ∧
    ∀ fuel, FRI.prove 17 ⟨1, 2, 8, 4, 1⟩ hashZero encNat encPSL shakeZero
      fuel (pevalDomain 17 [1] (FRI.eval_domain 17 ⟨1, 2, 8, 4, 1⟩))
      ⟨[], 0⟩ = none) ∧
    ((Nat.Prime 17 ∧ (16 : Nat) = 2 ^ 4 ∧ (3 : Nat) < 17 ∧
      (1 : Nat) < 17 ∧ (1 : Nat) ≠ 0 ∧
      fpow 17 3 16 = 1 ∧ fpow 17 3 (16 / 2) = 17 - 1 ∧
      1 ≤ (3 : Nat) ∧ 1 ≤ (1 : Nat) ∧
      (∀ x ∈ ([0, 0, 0, 0, 1] : List Nat), x < 17) ∧
      ([0, 0, 0, 0, 1] : List Nat).length ≤ 16 / 3 ∧
      2 ≤ num_rounds 16 3 1 ∧
      (∀ r, r < num_rounds 16 3 1 - 1 →
        fsample 17 (shakeZero (encPSL
          ((((FRI.prove 17 ⟨1, 3, 16, 3, 1⟩ hashZero encNat encPSL
            shakeZero 10 (pevalDomain 17 [0, 0, 0, 0, 1]
            (FRI.eval_domain 17 ⟨1, 3, 16, 3, 1⟩)) ⟨[], 0⟩).getD
            ([], ⟨[], 0⟩)).2).objects.take (r + 1))) 32) ∉
          domList 17 (iterSq 17 1 r) (iterSq 17 3 r) (2 ^ (4 - r)))) ∧
    (FRI.prove 17 ⟨1, 3, 16, 3, 1⟩ hashZero encNat encPSL shakeZero 10
      (pevalDomain 17 [0, 0, 0, 0, 1]
        (FRI.eval_domain 17 ⟨1, 3, 16, 3, 1⟩)) ⟨[], 0⟩).isSome = true ∧
    FRI.verify 17 ⟨1, 3, 16, 3, 1⟩ hashZero encNat encPSL shakeZero 10
      ((FRI.prove 17 ⟨1, 3, 16, 3, 1⟩ hashZero encNat encPSL shakeZero 10
        (pevalDomain 17 [0, 0, 0, 0, 1]
          (FRI.eval_domain 17 ⟨1, 3, 16, 3, 1⟩)) ⟨[], 0⟩).getD
        ([], ⟨[], 0⟩)).2 [] = some false) :=
  ⟨⟨by decide, fun _ => rfl⟩, by decide, rfl, rfl⟩

/-- C1 witness: a full honest round trip over `F_17` with domain length 8,
expansion factor 1 and one colinearity test; `FRI::prove` succeeds and
`FRI::verify` accepts its stream. -/
theorem C1_witness :
    FRI.verify 17 ⟨1, 2, 8, 1, 1⟩ hashZero encNat encPSL shakeZero 10
      ((FRI.prove 17 ⟨1, 2, 8, 1, 1⟩ hashZero encNat encPSL shakeZero 10
        (pevalDomain 17 [1, 1] (FRI.eval_domain 17 ⟨1, 2, 8, 1, 1⟩))
        ⟨[], 0⟩).getD ([], ⟨[], 0⟩)).2 [] = some true :=
  C1_fri_completeness 17 ⟨by norm_num⟩ (by norm_num) ⟨1, 2, 8, 1, 1⟩
    hashZero encNat encPSL shakeZero 10 3 0 [1, 1]
    (by decide) (by decide) (by decide) (by decide) (by decide) (by decide)
    (by decide) (by decide) (by decide) (by decide) (by decide) (by decide)
    ((FRI.prove 17 ⟨1, 2, 8, 1, 1⟩ hashZero encNat encPSL shakeZero 10
      (pevalDomain 17 [1, 1] (FRI.eval_domain 17 ⟨1, 2, 8, 1, 1⟩))
      ⟨[], 0⟩).getD ([], ⟨[], 0⟩)).1
    ((FRI.prove 17 ⟨1, 2, 8, 1, 1⟩ hashZero encNat encPSL shakeZero 10
      (pevalDomain 17 [1, 1] (FRI.eval_domain 17 ⟨1, 2, 8, 1, 1⟩))
      ⟨[], 0⟩).getD ([], ⟨[], 0⟩)).2
    rfl
    (by
      intro r hr
      rw [show num_rounds 8 1 1 = 2 from rfl] at hr
      interval_cases r
      decide)

end Anatomy
